import Mathlib

/-!
PLVS2 `KeyFrameDatabase`: inverted index and place-recognition queries.

Shallow embedding of `src/src/KeyFrameDatabase.cc`.

Conventions of the embedding.

* A `KeyFramePtr` is the identity of a keyframe object (the value of the shared
  pointer); a `MapPtr` is the identity of a map object.  The objects themselves
  live in a `Memory`, which the query operations read and update (the scratch
  fields `mnLoopQuery`, `mnLoopWords`, `mLoopScore`, ... are mutated in place by
  the source).
* A `float` value is embedded as the rational number it denotes.  The sums
  `accScore+=...` and the product `0.75f*bestAccScore` are rounded to single
  precision as in the source (`roundFloat`, nearest, ties to even, with gradual
  underflow); comparisons are exact.  Infinities and NaN are not represented.
  The product `maxCommonWords*0.8f` and its conversion to `int` are embedded
  bit-exactly (`minCommonWords`).
* `mvInvertedFile[w]` with `w` out of range is undefined behaviour in the
  source; the embedding reads an empty slot there and ignores a write.
-/

namespace PLVS2

/-! ## Data model -/

abbrev KeyFramePtr := Nat
abbrev MapPtr := Nat
abbrev WordId := Nat

/-- The type `DBoW2::BowVector`, a `std::map<WordId, WordValue>`: its entries are
visited in strictly increasing order of word id, so no word id occurs twice. -/
structure BowVector where
  entries : List (WordId × ℚ)
  ordered : (entries.map Prod.fst).Pairwise (· < ·)

/-- The word ids of a signature, in iteration order. -/
def BowVector.words (v : BowVector) : List WordId := v.entries.map Prod.fst

/-- The vocabulary (`ORBVocabulary`), of which the database uses `size()` and
`score(v1, v2)`.  The scorer is external to the repository's sources and is a
parameter of the embedding; `score` stands for the value stored by
`float si = mpVoc->score(...)`, after the conversion to `float`. -/
structure ORBVocabulary where
  size : Nat
  score : BowVector → BowVector → ℚ

/-- The fields of a `KeyFrame` object that `KeyFrameDatabase.cc` reads or writes.
`mpMap` is the value of `GetMap()`, `mConnectedKeyFrames` the value of
`GetConnectedKeyFrames()`, `mbBad` the value of `isBad()`. -/
structure KeyFrame where
  mnId : Nat
  mBowVec : BowVector
  mpMap : MapPtr
  mConnectedKeyFrames : List KeyFramePtr
  mvpOrderedConnectedKeyFrames : List KeyFramePtr
  mbBad : Bool
  mnLoopQuery : Int
  mnLoopWords : Int
  mLoopScore : ℚ
  mnMergeQuery : Int
  mnMergeWords : Int
  mMergeScore : ℚ
  mnPlaceRecognitionQuery : Int
  mnPlaceRecognitionWords : Int
  mPlaceRecognitionScore : ℚ
  mnRelocQuery : Int
  mnRelocWords : Int
  mRelocScore : ℚ

/-- The fields of a `Frame` that `DetectRelocalizationCandidates` reads. -/
structure Frame where
  mnId : Nat
  mBowVec : BowVector

/-- The objects reachable from the database: keyframes by pointer, and the
`IsBad()` flag of every map. -/
structure Memory where
  kf : KeyFramePtr → KeyFrame
  mapIsBad : MapPtr → Bool

/-- In-place update of the keyframe object behind `p`. -/
def Memory.update (m : Memory) (p : KeyFramePtr) (f : KeyFrame → KeyFrame) : Memory :=
  { m with kf := fun q => if q = p then f (m.kf q) else m.kf q }

/-- Modelled from the spec: `KeyFrame::GetBestCovisibilityKeyFrames(N)` is defined in
`KeyFrame.cc`, which is not among the sources; the spec describes it as the
keyframe's up-to-`N` best covisibility neighbours, an ordered list. -/
def GetBestCovisibilityKeyFrames (k : KeyFrame) (N : Nat) : List KeyFramePtr :=
  k.mvpOrderedConnectedKeyFrames.take N

/-- The database object: the vocabulary pointer and the inverted file, one list
of keyframes per word id. -/
structure KeyFrameDatabase where
  mpVoc : ORBVocabulary
  mvInvertedFile : List (List KeyFramePtr)

/-- The slot `mvInvertedFile[w]`. -/
def KeyFrameDatabase.slot (db : KeyFrameDatabase) (w : WordId) : List KeyFramePtr :=
  db.mvInvertedFile.getD w []

/-! ## Inverted index operations (lines 57-123, 881-896) -/

/-- The call `v.resize(n)` of a `std::vector` of lists: truncate, or pad with
empty lists. -/
def vectorResize (v : List (List KeyFramePtr)) (n : Nat) : List (List KeyFramePtr) :=
  v.take n ++ List.replicate (n - v.length) []

/-- The constructor `KeyFrameDatabase::KeyFrameDatabase(voc)`. -/
def KeyFrameDatabase.new (voc : ORBVocabulary) : KeyFrameDatabase :=
  { mpVoc := voc, mvInvertedFile := vectorResize [] voc.size }

/-- One iteration of the loop of `add`: `mvInvertedFile[vit->first].push_back(pKF)`. -/
def addWord (pKF : KeyFramePtr) (inv : List (List KeyFramePtr)) (vit : WordId × ℚ) :
    List (List KeyFramePtr) :=
  inv.set vit.1 (inv.getD vit.1 [] ++ [pKF])

/-- The method `KeyFrameDatabase::add`. -/
def add (db : KeyFrameDatabase) (m : Memory) (pKF : KeyFramePtr) : KeyFrameDatabase :=
  { db with mvInvertedFile := (m.kf pKF).mBowVec.entries.foldl (addWord pKF) db.mvInvertedFile }

/-- The inner loop of `erase`: walk the list, erase the first element equal to
`pKF` and stop. -/
def eraseFirst (pKF : KeyFramePtr) : List KeyFramePtr → List KeyFramePtr
  | [] => []
  | lit :: rest => if pKF = lit then rest else lit :: eraseFirst pKF rest

/-- One iteration of the outer loop of `erase`. -/
def eraseWord (pKF : KeyFramePtr) (inv : List (List KeyFramePtr)) (vit : WordId × ℚ) :
    List (List KeyFramePtr) :=
  inv.set vit.1 (eraseFirst pKF (inv.getD vit.1 []))

/-- The method `KeyFrameDatabase::erase`. -/
def erase (db : KeyFrameDatabase) (m : Memory) (pKF : KeyFramePtr) : KeyFrameDatabase :=
  { db with mvInvertedFile := (m.kf pKF).mBowVec.entries.foldl (eraseWord pKF) db.mvInvertedFile }

/-- The method `KeyFrameDatabase::clear`. -/
def clear (db : KeyFrameDatabase) : KeyFrameDatabase :=
  { db with mvInvertedFile := vectorResize [] db.mpVoc.size }

/-- The inner loop of `clearMap` on one slot: erase every keyframe whose map is
`pMap`, keep walking otherwise. -/
def clearMapList (m : Memory) (pMap : MapPtr) : List KeyFramePtr → List KeyFramePtr
  | [] => []
  | pKFi :: rest =>
    if pMap = (m.kf pKFi).mpMap then clearMapList m pMap rest
    else pKFi :: clearMapList m pMap rest

/-- The outer loop of `clearMap` over the slots. -/
def clearMapSlots (m : Memory) (pMap : MapPtr) : List (List KeyFramePtr) → List (List KeyFramePtr)
  | [] => []
  | lKFs :: rest => clearMapList m pMap lKFs :: clearMapSlots m pMap rest

/-- The method `KeyFrameDatabase::clearMap`. -/
def clearMap (db : KeyFrameDatabase) (m : Memory) (pMap : MapPtr) : KeyFrameDatabase :=
  { db with mvInvertedFile := clearMapSlots m pMap db.mvInvertedFile }

/-- The method `KeyFrameDatabase::SetORBVocabulary`. -/
def SetORBVocabulary (db : KeyFrameDatabase) (pORBVoc : ORBVocabulary) (clearInvertedFile : Bool) :
    KeyFrameDatabase :=
  if clearInvertedFile then
    { mpVoc := pORBVoc, mvInvertedFile := vectorResize [] pORBVoc.size }
  else
    { mpVoc := pORBVoc, mvInvertedFile := db.mvInvertedFile }

/-! ## Scratch fields of a keyframe

The four query purposes use three scratch fields each
(`mn*Query`, `mn*Words`, `m*Score`).  The query code is the same text up to the
field names, so the embedding selects the fields by a `Scratch` tag. -/

inductive Scratch where
  | loop
  | merge
  | placeRecognition
  | reloc
  deriving DecidableEq

/-- The field `mnLoopQuery`, `mnMergeQuery`, `mnPlaceRecognitionQuery` or `mnRelocQuery`. -/
def KeyFrame.query (k : KeyFrame) : Scratch → Int
  | .loop => k.mnLoopQuery
  | .merge => k.mnMergeQuery
  | .placeRecognition => k.mnPlaceRecognitionQuery
  | .reloc => k.mnRelocQuery

/-- The field `mnLoopWords`, `mnMergeWords`, `mnPlaceRecognitionWords` or `mnRelocWords`. -/
def KeyFrame.nWords (k : KeyFrame) : Scratch → Int
  | .loop => k.mnLoopWords
  | .merge => k.mnMergeWords
  | .placeRecognition => k.mnPlaceRecognitionWords
  | .reloc => k.mnRelocWords

/-- The field `mLoopScore`, `mMergeScore`, `mPlaceRecognitionScore` or `mRelocScore`. -/
def KeyFrame.simScore (k : KeyFrame) : Scratch → ℚ
  | .loop => k.mLoopScore
  | .merge => k.mMergeScore
  | .placeRecognition => k.mPlaceRecognitionScore
  | .reloc => k.mRelocScore

def KeyFrame.setQuery (k : KeyFrame) (sc : Scratch) (v : Int) : KeyFrame :=
  match sc with
  | .loop => { k with mnLoopQuery := v }
  | .merge => { k with mnMergeQuery := v }
  | .placeRecognition => { k with mnPlaceRecognitionQuery := v }
  | .reloc => { k with mnRelocQuery := v }

def KeyFrame.setWords (k : KeyFrame) (sc : Scratch) (v : Int) : KeyFrame :=
  match sc with
  | .loop => { k with mnLoopWords := v }
  | .merge => { k with mnMergeWords := v }
  | .placeRecognition => { k with mnPlaceRecognitionWords := v }
  | .reloc => { k with mnRelocWords := v }

def KeyFrame.setScore (k : KeyFrame) (sc : Scratch) (v : ℚ) : KeyFrame :=
  match sc with
  | .loop => { k with mLoopScore := v }
  | .merge => { k with mMergeScore := v }
  | .placeRecognition => { k with mPlaceRecognitionScore := v }
  | .reloc => { k with mRelocScore := v }

/-! ## The phases shared by the five queries -/

/-- The two nested loops of every gather phase: for each word of the signature,
for each keyframe of that word's slot, run the loop body `visit`. -/
def forEachSharing {σ : Type} (inv : List (List KeyFramePtr)) (v : BowVector)
    (visit : σ → KeyFramePtr → σ) (init : σ) : σ :=
  v.entries.foldl (fun st vit => (inv.getD vit.1 []).foldl visit st) init

/-- Gather body of `DetectLoopCandidates`, `DetectCandidates` and
`DetectNBestCandidates` (lines 144-153, 272-281, 285-294, 651-661): on first
sight for this query id reset the word counter, and tag and record the keyframe
only if it is not connected; then count the word. -/
def tagUnlessConnected (sc : Scratch) (id : Nat) (spConnected : List KeyFramePtr)
    (st : Memory × List KeyFramePtr) (pKFi : KeyFramePtr) : Memory × List KeyFramePtr :=
  let st1 : Memory × List KeyFramePtr :=
    if (st.1.kf pKFi).query sc ≠ (id : Int) then
      let m1 := st.1.update pKFi (fun k => k.setWords sc 0)
      if pKFi ∉ spConnected then
        (m1.update pKFi (fun k => k.setQuery sc (id : Int)), st.2 ++ [pKFi])
      else (m1, st.2)
    else st
  (st1.1.update pKFi (fun k => k.setWords sc (k.nWords sc + 1)), st1.2)

/-- Gather body of `DetectBestCandidates` after its connected test, and of
`DetectRelocalizationCandidates` (lines 518-524, 779-785): on first sight reset
the counter, tag and record; then count the word. -/
def tagAlways (sc : Scratch) (id : Nat)
    (st : Memory × List KeyFramePtr) (pKFi : KeyFramePtr) : Memory × List KeyFramePtr :=
  let st1 : Memory × List KeyFramePtr :=
    if (st.1.kf pKFi).query sc ≠ (id : Int) then
      (((st.1.update pKFi (fun k => k.setWords sc 0)).update pKFi
          (fun k => k.setQuery sc (id : Int))), st.2 ++ [pKFi])
    else st
  (st1.1.update pKFi (fun k => k.setWords sc (k.nWords sc + 1)), st1.2)

/-- The loop computing `maxCommonWords` over the sharing list. -/
def maxCommonWords (sc : Scratch) (m : Memory) (lKFsSharingWords : List KeyFramePtr) : Int :=
  lKFsSharingWords.foldl
    (fun mx lit => if (m.kf lit).nWords sc > mx then (m.kf lit).nWords sc else mx) 0

/-- The number of low-order bits that do not fit in a 24-bit significand: the
least `s` with `x / 2^s < 2^24` (`fuel` bounds the search; `x` itself is enough). -/
def excessBits : Nat → Nat → Nat
  | 0, _ => 0
  | fuel + 1, x => if x < 2 ^ 24 then 0 else excessBits fuel (x / 2) + 1

/-- Rounding of a natural number to 24 significant bits, ties to even: the
significand rounding of IEEE single precision (no overflow or subnormals occur
for the magnitudes involved). -/
def roundToFloat (x : Nat) : Nat :=
  let s := excessBits x x
  if s = 0 then x
  else
    let q := x / 2 ^ s
    let r := x % 2 ^ s
    let half := 2 ^ (s - 1)
    (if half < r ∨ (r = half ∧ q % 2 = 1) then q + 1 else q) * 2 ^ s

/-- The statement `int minCommonWords = maxCommonWords*0.8f;`: the `int` is
converted to `float`, multiplied by the single-precision constant
`0.8f = 13421773 / 2^24` with rounding to nearest, and truncated to `int`.
`maxCommonWords` is never negative (it starts at `0` and only grows). -/
def minCommonWords (maxCommonWords : Int) : Int :=
  ((roundToFloat (roundToFloat maxCommonWords.toNat * 13421773) / 2 ^ 24 : Nat) : Int)

/-- Rounding of the quotient `N / D` to the nearest natural number, ties to even. -/
def roundQuotient (N D : Nat) : Nat :=
  if D < 2 * (N % D) ∨ (2 * (N % D) = D ∧ N / D % 2 = 1) then N / D + 1 else N / D

/-- Rounding of a rational value to the nearest single-precision number, ties to
even (the rounding of every `float` operation of the source).  In units of
`2^-149`, the least positive `float`, the magnitude is cut to 24 significant
bits: `s` is the number of excess bits, so the result is a multiple of
`2^(s-149)`, and `s = 0` covers the subnormal numbers.  A magnitude of `2^128`
or more rounds to infinity in the source, which the embedding does not
represent. -/
def roundFloat (x : ℚ) : ℚ :=
  let N := x.num.natAbs * 2 ^ 149
  let s := excessBits (N / x.den) (N / x.den)
  let magnitude : ℚ := ((roundQuotient N (x.den * 2 ^ s) * 2 ^ s : Nat) : ℚ) / 2 ^ 149
  if x.num < 0 then -magnitude else magnitude

/-- Body of the scoring loop: a sharing keyframe with more than `minCommon`
shared words is scored, the score is stored on it, and the pair is recorded when
`keep si` holds (`si>=minScore` in `DetectLoopCandidates` and `DetectCandidates`,
always in the three other queries). -/
def scoreSharing (sc : Scratch) (voc : ORBVocabulary) (queryBow : BowVector) (minCommon : Int)
    (keep : ℚ → Bool) (st : Memory × List (ℚ × KeyFramePtr)) (pKFi : KeyFramePtr) :
    Memory × List (ℚ × KeyFramePtr) :=
  if (st.1.kf pKFi).nWords sc > minCommon then
    let si := voc.score queryBow (st.1.kf pKFi).mBowVec
    let m1 := st.1.update pKFi (fun k => k.setScore sc si)
    if keep si then (m1, st.2 ++ [(si, pKFi)]) else (m1, st.2)
  else st

/-- The local variables `bestScore`, `accScore`, `pBestKF` of the accumulation loop. -/
structure AccState where
  bestScore : ℚ
  accScore : ℚ
  pBestKF : KeyFramePtr

/-- The second half of the neighbour test: `mnWords>minCommonWords` where the
query has it (`some minCommonWords`), nothing where it has not (`none`). -/
def aboveWordFloor (wordFloor : Option Int) (nWords : Int) : Bool :=
  match wordFloor with
  | some minCommon => decide (nWords > minCommon)
  | none => true

/-- Body of the loop over `vpNeighs`.  `wordFloor` is `some minCommonWords` in
`DetectLoopCandidates` and `DetectCandidates`, whose test is
`mnQuery==id && mnWords>minCommonWords`, and `none` in the other three queries,
whose test is the query tag alone.  The statement `accScore+=pKF2->mScore` is
an addition of two `float`s, rounded to single precision. -/
def accumulateNeighbour (sc : Scratch) (id : Nat) (wordFloor : Option Int) (m : Memory)
    (a : AccState) (pKF2 : KeyFramePtr) : AccState :=
  if (m.kf pKF2).query sc = (id : Int) ∧ aboveWordFloor wordFloor ((m.kf pKF2).nWords sc) then
    let accScore := roundFloat (a.accScore + (m.kf pKF2).simScore sc)
    if (m.kf pKF2).simScore sc > a.bestScore then
      { bestScore := (m.kf pKF2).simScore sc, accScore := accScore, pBestKF := pKF2 }
    else { a with accScore := accScore }
  else a

/-- Body of the loop over `lScoreAndMatch`: accumulate over the ten best
covisibility neighbours, record `(accScore, pBestKF)`, keep the best accumulated
score. -/
def accumulateOne (sc : Scratch) (id : Nat) (wordFloor : Option Int) (m : Memory)
    (st : List (ℚ × KeyFramePtr) × ℚ) (it : ℚ × KeyFramePtr) : List (ℚ × KeyFramePtr) × ℚ :=
  let vpNeighs := GetBestCovisibilityKeyFrames (m.kf it.2) 10
  let a := vpNeighs.foldl (accumulateNeighbour sc id wordFloor m)
    { bestScore := it.1, accScore := it.1, pBestKF := it.2 }
  (st.1 ++ [(a.accScore, a.pBestKF)], if a.accScore > st.2 then a.accScore else st.2)

/-- The accumulation loop: returns `lAccScoreAndMatch` and `bestAccScore`, the
latter starting from `bestAccScore0` (`minScore` or `0`). -/
def accumulate (sc : Scratch) (id : Nat) (wordFloor : Option Int) (m : Memory)
    (lScoreAndMatch : List (ℚ × KeyFramePtr)) (bestAccScore0 : ℚ) :
    List (ℚ × KeyFramePtr) × ℚ :=
  lScoreAndMatch.foldl (accumulateOne sc id wordFloor m) ([], bestAccScore0)

/-- Body of the final loop of `DetectLoopCandidates` and of each half of
`DetectCandidates`; the state is the output vector and `spAlreadyAddedKF`. -/
def retainOne (minScoreToRetain : ℚ) (st : List KeyFramePtr × List KeyFramePtr)
    (it : ℚ × KeyFramePtr) : List KeyFramePtr × List KeyFramePtr :=
  if it.1 > minScoreToRetain then
    if it.2 ∉ st.2 then (st.1 ++ [it.2], it.2 :: st.2) else st
  else st

/-- The final loop of `DetectLoopCandidates`, appending to the vector `vpCand`. -/
def retain (minScoreToRetain : ℚ) (lAccScoreAndMatch : List (ℚ × KeyFramePtr))
    (vpCand : List KeyFramePtr) : List KeyFramePtr :=
  (lAccScoreAndMatch.foldl (retainOne minScoreToRetain) (vpCand, [])).1

/-! ## `DetectLoopCandidates` (lines 125-251)

Only scratch fields are ever written, so the fields `mnId`, `mBowVec`,
`mpMap` and the connected set of the query keyframe are read from the memory
on entry. -/

/-- Gather phase of `DetectLoopCandidates` (lines 127-159): the memory after the
loop, and `lKFsSharingWords`. -/
def loopGather (db : KeyFrameDatabase) (m : Memory) (pKF : KeyFramePtr) :
    Memory × List KeyFramePtr :=
  let spConnectedKeyFrames := (m.kf pKF).mConnectedKeyFrames
  forEachSharing db.mvInvertedFile (m.kf pKF).mBowVec
    (fun st pKFi =>
      if (st.1.kf pKFi).mpMap = (m.kf pKF).mpMap then
        tagUnlessConnected .loop (m.kf pKF).mnId spConnectedKeyFrames st pKFi
      else st)
    (m, [])

/-- The value of `minCommonWords` in `DetectLoopCandidates` (lines 167-174). -/
def loopMinCommonWords (db : KeyFrameDatabase) (m : Memory) (pKF : KeyFramePtr) : Int :=
  minCommonWords (maxCommonWords .loop (loopGather db m pKF).1 (loopGather db m pKF).2)

/-- Scoring phase of `DetectLoopCandidates` (lines 176-193): the memory after the
loop, and `lScoreAndMatch`. -/
def loopScore (db : KeyFrameDatabase) (m : Memory) (pKF : KeyFramePtr) (minScore : ℚ) :
    Memory × List (ℚ × KeyFramePtr) :=
  (loopGather db m pKF).2.foldl
    (scoreSharing .loop db.mpVoc (m.kf pKF).mBowVec (loopMinCommonWords db m pKF)
      (fun si => decide (si ≥ minScore)))
    ((loopGather db m pKF).1, [])

/-- The method `KeyFrameDatabase::DetectLoopCandidates`: the returned vector and
the memory it leaves.  The statement `float minScoreToRetain = 0.75f*bestAccScore`
is a product of two `float`s (`0.75f` is exactly `3/4`), rounded to single
precision. -/
def DetectLoopCandidates (db : KeyFrameDatabase) (m : Memory) (pKF : KeyFramePtr)
    (minScore : ℚ) : List KeyFramePtr × Memory :=
  let g := loopGather db m pKF
  if g.2.isEmpty then ([], g.1)
  else
    let s := loopScore db m pKF minScore
    if s.2.isEmpty then ([], s.1)
    else
      let a := accumulate .loop (m.kf pKF).mnId (some (loopMinCommonWords db m pKF)) s.1 s.2
        minScore
      let minScoreToRetain := roundFloat ((3 / 4 : ℚ) * a.2)
      (retain minScoreToRetain a.1 [], s.1)

/-! ## `DetectCandidates` (lines 253-494) -/

/-- Gather body of `DetectCandidates` (lines 269-295); the state is the memory,
`lKFsSharingWordsLoop` and `lKFsSharingWordsMerge`. -/
def candidatesVisit (id : Nat) (pMap : MapPtr) (spConnected : List KeyFramePtr)
    (st : Memory × List KeyFramePtr × List KeyFramePtr) (pKFi : KeyFramePtr) :
    Memory × List KeyFramePtr × List KeyFramePtr :=
  if (st.1.kf pKFi).mpMap = pMap then
    let r := tagUnlessConnected .loop id spConnected (st.1, st.2.1) pKFi
    (r.1, r.2, st.2.2)
  else if ¬ st.1.mapIsBad (st.1.kf pKFi).mpMap then
    let r := tagUnlessConnected .merge id spConnected (st.1, st.2.2) pKFi
    (r.1, st.2.1, r.2)
  else st

/-- Gather phase of `DetectCandidates` (lines 255-298). -/
def candidatesGather (db : KeyFrameDatabase) (m : Memory) (pKF : KeyFramePtr) :
    Memory × List KeyFramePtr × List KeyFramePtr :=
  forEachSharing db.mvInvertedFile (m.kf pKF).mBowVec
    (candidatesVisit (m.kf pKF).mnId (m.kf pKF).mpMap (m.kf pKF).mConnectedKeyFrames)
    (m, [], [])

/-- One of the two blocks `if(!lKFsSharingWords*.empty()) { ... }` of
`DetectCandidates` (lines 303-389 with the loop fields, 391-480 with the merge
fields): appends the retained candidates to the output vector `vpCand`. -/
def candidatesBlock (sc : Scratch) (voc : ORBVocabulary) (queryBow : BowVector) (id : Nat)
    (minScore : ℚ) (m : Memory) (lKFsSharingWords : List KeyFramePtr)
    (vpCand : List KeyFramePtr) : List KeyFramePtr × Memory :=
  if lKFsSharingWords.isEmpty then (vpCand, m)
  else
    let minCommon := minCommonWords (maxCommonWords sc m lKFsSharingWords)
    let s := lKFsSharingWords.foldl
      (scoreSharing sc voc queryBow minCommon (fun si => decide (si ≥ minScore))) (m, [])
    if s.2.isEmpty then (vpCand, s.1)
    else
      let a := accumulate sc id (some minCommon) s.1 s.2 minScore
      let minScoreToRetain := roundFloat ((3 / 4 : ℚ) * a.2)
      (retain minScoreToRetain a.1 vpCand, s.1)

/-- The closing loop of `DetectCandidates` (lines 482-492): both query tags of
every keyframe in the slots of the query's words are set to `-1`. -/
def candidatesReset (db : KeyFrameDatabase) (queryBow : BowVector) (m : Memory) : Memory :=
  forEachSharing db.mvInvertedFile queryBow
    (fun st pKFi => st.update pKFi (fun k => (k.setQuery .loop (-1)).setQuery .merge (-1))) m

/-- The method `KeyFrameDatabase::DetectCandidates`; `vpLoopCand` and
`vpMergeCand` are the reference parameters, given with their contents on entry
and returned with their contents on exit. -/
def DetectCandidates (db : KeyFrameDatabase) (m : Memory) (pKF : KeyFramePtr) (minScore : ℚ)
    (vpLoopCand vpMergeCand : List KeyFramePtr) :
    List KeyFramePtr × List KeyFramePtr × Memory :=
  let g := candidatesGather db m pKF
  if g.2.1.isEmpty && g.2.2.isEmpty then (vpLoopCand, vpMergeCand, g.1)
  else
    let l := candidatesBlock .loop db.mpVoc (m.kf pKF).mBowVec (m.kf pKF).mnId minScore
      g.1 g.2.1 vpLoopCand
    let r := candidatesBlock .merge db.mpVoc (m.kf pKF).mBowVec (m.kf pKF).mnId minScore
      l.2 g.2.2 vpMergeCand
    (l.1, r.1, candidatesReset db (m.kf pKF).mBowVec r.2)

/-! ## `DetectBestCandidates` (lines 496-624) -/

/-- Gather phase of `DetectBestCandidates` (lines 498-528): a connected keyframe
is skipped altogether (`continue`). -/
def bestGather (db : KeyFrameDatabase) (m : Memory) (pKF : KeyFramePtr) :
    Memory × List KeyFramePtr :=
  let spConnectedKF := (m.kf pKF).mConnectedKeyFrames
  forEachSharing db.mvInvertedFile (m.kf pKF).mBowVec
    (fun st pKFi =>
      if pKFi ∈ spConnectedKF then st
      else tagAlways .placeRecognition (m.kf pKF).mnId st pKFi)
    (m, [])

/-- The final split of `DetectBestCandidates` and the state of its last
loop: the two output vectors and `spAlreadyAddedKF`. -/
structure SplitState where
  vpLoopCand : List KeyFramePtr
  vpMergeCand : List KeyFramePtr
  spAlreadyAddedKF : List KeyFramePtr

/-- Body of the last loop of `DetectBestCandidates` (lines 604-623). -/
def bestRetainOne (m : Memory) (pMap : MapPtr) (minScoreToRetain : ℚ) (st : SplitState)
    (it : ℚ × KeyFramePtr) : SplitState :=
  if it.1 > minScoreToRetain then
    if it.2 ∉ st.spAlreadyAddedKF then
      if pMap = (m.kf it.2).mpMap then
        { st with vpLoopCand := st.vpLoopCand ++ [it.2],
                  spAlreadyAddedKF := it.2 :: st.spAlreadyAddedKF }
      else
        { st with vpMergeCand := st.vpMergeCand ++ [it.2],
                  spAlreadyAddedKF := it.2 :: st.spAlreadyAddedKF }
    else st
  else st

/-- The method `KeyFrameDatabase::DetectBestCandidates`. -/
def DetectBestCandidates (db : KeyFrameDatabase) (m : Memory) (pKF : KeyFramePtr)
    (vpLoopCand vpMergeCand : List KeyFramePtr) (nMinWords : Int) :
    List KeyFramePtr × List KeyFramePtr × Memory :=
  let g := bestGather db m pKF
  if g.2.isEmpty then (vpLoopCand, vpMergeCand, g.1)
  else
    let minCommon0 := minCommonWords (maxCommonWords .placeRecognition g.1 g.2)
    let minCommon := if minCommon0 < nMinWords then nMinWords else minCommon0
    let s := g.2.foldl
      (scoreSharing .placeRecognition db.mpVoc (m.kf pKF).mBowVec minCommon (fun _ => true))
      (g.1, [])
    if s.2.isEmpty then (vpLoopCand, vpMergeCand, s.1)
    else
      let a := accumulate .placeRecognition (m.kf pKF).mnId none s.1 s.2 0
      let minScoreToRetain := roundFloat ((3 / 4 : ℚ) * a.2)
      let r := a.1.foldl (bestRetainOne s.1 (m.kf pKF).mpMap minScoreToRetain)
        { vpLoopCand := vpLoopCand, vpMergeCand := vpMergeCand, spAlreadyAddedKF := [] }
      (r.vpLoopCand, r.vpMergeCand, s.1)

/-! ## `DetectNBestCandidates` (lines 626-758) -/

/-- The comparator `compFirst` (lines 626-629). -/
def compFirst (a b : ℚ × KeyFramePtr) : Bool := decide (a.1 > b.1)

/-- The call `l.sort(comp)` of a `std::list`: a stable sort, in which `a` stays
before `b` unless `comp(b, a)`. -/
def listSort (comp : ℚ × KeyFramePtr → ℚ × KeyFramePtr → Bool) (l : List (ℚ × KeyFramePtr)) :
    List (ℚ × KeyFramePtr) :=
  l.insertionSort (fun a b => comp b a = false)

/-- Conversion of an `int` to `size_t` (64 bits), as done by the comparisons
`vpLoopCand.size() < nNumCandidates`. -/
def sizeT (n : Int) : Nat := (n % 2 ^ 64).toNat

/-- Gather phase of `DetectNBestCandidates` (lines 634-664). -/
def nbestGather (db : KeyFrameDatabase) (m : Memory) (pKF : KeyFramePtr) :
    Memory × List KeyFramePtr :=
  forEachSharing db.mvInvertedFile (m.kf pKF).mBowVec
    (tagUnlessConnected .placeRecognition (m.kf pKF).mnId (m.kf pKF).mConnectedKeyFrames)
    (m, [])

/-- Scoring phase of `DetectNBestCandidates` (lines 668-694). -/
def nbestScore (db : KeyFrameDatabase) (m : Memory) (pKF : KeyFramePtr) :
    Memory × List (ℚ × KeyFramePtr) :=
  let g := nbestGather db m pKF
  g.2.foldl
    (scoreSharing .placeRecognition db.mpVoc (m.kf pKF).mBowVec
      (minCommonWords (maxCommonWords .placeRecognition g.1 g.2)) (fun _ => true))
    (g.1, [])

/-- The list `lAccScoreAndMatch` of `DetectNBestCandidates` after
`lAccScoreAndMatch.sort(compFirst)` (lines 699-730). -/
def nbestSorted (db : KeyFrameDatabase) (m : Memory) (pKF : KeyFramePtr) :
    List (ℚ × KeyFramePtr) :=
  let s := nbestScore db m pKF
  listSort compFirst (accumulate .placeRecognition (m.kf pKF).mnId none s.1 s.2 0).1

/-- The variables of the final `while` loop of `DetectNBestCandidates`
(lines 732-757); the iterator `it` always points at element `i` of the list. -/
structure ScanState where
  i : Nat
  vpLoopCand : List KeyFramePtr
  vpMergeCand : List KeyFramePtr
  spAlreadyAddedKF : List KeyFramePtr
  deriving DecidableEq

/-- The condition of the `while` loop (line 737). -/
def scanCond (l : List (ℚ × KeyFramePtr)) (nNumCandidates : Int) (s : ScanState) : Bool :=
  decide (s.i < l.length) &&
    (decide (s.vpLoopCand.length < sizeT nNumCandidates) ||
      decide (s.vpMergeCand.length < sizeT nNumCandidates))

/-- The body of the `while` loop (lines 739-756).  On a bad keyframe the source
executes `continue`, which goes back to the condition with `i` and `it` as they
are. -/
def scanBody (m : Memory) (pMap : MapPtr) (l : List (ℚ × KeyFramePtr)) (nNumCandidates : Int)
    (s : ScanState) : ScanState :=
  match l.get? s.i with
  | none => s
  | some it =>
    if (m.kf it.2).mbBad then s
    else
      let s1 : ScanState :=
        if it.2 ∉ s.spAlreadyAddedKF then
          let s2 : ScanState :=
            if pMap = (m.kf it.2).mpMap ∧ s.vpLoopCand.length < sizeT nNumCandidates then
              { s with vpLoopCand := s.vpLoopCand ++ [it.2] }
            else if pMap ≠ (m.kf it.2).mpMap ∧ s.vpMergeCand.length < sizeT nNumCandidates ∧
                m.mapIsBad (m.kf it.2).mpMap = false then
              { s with vpMergeCand := s.vpMergeCand ++ [it.2] }
            else s
          { s2 with spAlreadyAddedKF := it.2 :: s2.spAlreadyAddedKF }
        else s
      { s1 with i := s1.i + 1 }

/-- The `while` loop run for at most `steps` iterations: the state reached when
the condition fails, or after `steps` executions of the body. -/
def scanRun (m : Memory) (pMap : MapPtr) (l : List (ℚ × KeyFramePtr)) (nNumCandidates : Int) :
    Nat → ScanState → ScanState
  | 0, s => s
  | steps + 1, s =>
    if scanCond l nNumCandidates s then
      scanRun m pMap l nNumCandidates steps (scanBody m pMap l nNumCandidates s)
    else s

/-- An execution of `DetectNBestCandidates` observed after at most `steps`
iterations of its final loop: the contents of the two reference parameters,
the memory, whether the method has returned, and whether it was left by the
exception `std::length_error` of `reserve`. -/
structure NBestRun where
  vpLoopCand : List KeyFramePtr
  vpMergeCand : List KeyFramePtr
  mem : Memory
  returned : Bool
  threw : Bool

/-- The method `KeyFrameDatabase::DetectNBestCandidates`, its final loop run for
at most `steps` iterations.  The call `vpLoopCand.reserve(nNumCandidates)`
(line 732) converts the `int` to `size_t`: a negative value becomes a request
beyond `max_size()` and `reserve` throws `std::length_error`, with the output
vectors as they were on entry. -/
def DetectNBestCandidates (steps : Nat) (db : KeyFrameDatabase) (m : Memory) (pKF : KeyFramePtr)
    (vpLoopCand vpMergeCand : List KeyFramePtr) (nNumCandidates : Int) : NBestRun :=
  let g := nbestGather db m pKF
  if g.2.isEmpty then
    { vpLoopCand := vpLoopCand, vpMergeCand := vpMergeCand, mem := g.1, returned := true,
      threw := false }
  else
    let s := nbestScore db m pKF
    if s.2.isEmpty then
      { vpLoopCand := vpLoopCand, vpMergeCand := vpMergeCand, mem := s.1, returned := true,
        threw := false }
    else if nNumCandidates < 0 then
      { vpLoopCand := vpLoopCand, vpMergeCand := vpMergeCand, mem := s.1, returned := false,
        threw := true }
    else
      let l := nbestSorted db m pKF
      let r := scanRun s.1 (m.kf pKF).mpMap l nNumCandidates steps
        { i := 0, vpLoopCand := vpLoopCand, vpMergeCand := vpMergeCand, spAlreadyAddedKF := [] }
      { vpLoopCand := r.vpLoopCand, vpMergeCand := r.vpMergeCand, mem := s.1,
        returned := !scanCond l nNumCandidates r, threw := false }

/-! ## `DetectRelocalizationCandidates` (lines 761-879) -/

/-- Gather phase of `DetectRelocalizationCandidates` (lines 763-788). -/
def relocGather (db : KeyFrameDatabase) (m : Memory) (F : Frame) : Memory × List KeyFramePtr :=
  forEachSharing db.mvInvertedFile F.mBowVec (tagAlways .reloc F.mnId) (m, [])

/-- Body of the last loop of `DetectRelocalizationCandidates` (lines 862-876). -/
def relocRetainOne (m : Memory) (pMap : MapPtr) (minScoreToRetain : ℚ)
    (st : List KeyFramePtr × List KeyFramePtr) (it : ℚ × KeyFramePtr) :
    List KeyFramePtr × List KeyFramePtr :=
  if it.1 > minScoreToRetain then
    if (m.kf it.2).mpMap ≠ pMap then st
    else if it.2 ∉ st.2 then (st.1 ++ [it.2], it.2 :: st.2)
    else st
  else st

/-- The method `KeyFrameDatabase::DetectRelocalizationCandidates`. -/
def DetectRelocalizationCandidates (db : KeyFrameDatabase) (m : Memory) (F : Frame)
    (pMap : MapPtr) : List KeyFramePtr × Memory :=
  let g := relocGather db m F
  if g.2.isEmpty then ([], g.1)
  else
    let minCommon := minCommonWords (maxCommonWords .reloc g.1 g.2)
    let s := g.2.foldl (scoreSharing .reloc db.mpVoc F.mBowVec minCommon (fun _ => true)) (g.1, [])
    if s.2.isEmpty then ([], s.1)
    else
      let a := accumulate .reloc F.mnId none s.1 s.2 0
      let minScoreToRetain := roundFloat ((3 / 4 : ℚ) * a.2)
      ((a.1.foldl (relocRetainOne s.1 pMap minScoreToRetain) ([], [])).1, s.1)



/-- The accumulated score of the tuple that introduces keyframe `p` into an
output vector of `DetectNBestCandidates`: the first tuple of the sorted list
whose representative is `p` (every later tuple with that representative finds
it in `spAlreadyAddedKF`). -/
def introducingScore (l : List (ℚ × KeyFramePtr)) (p : KeyFramePtr) : Option ℚ :=
  (l.find? (fun x => decide (x.2 = p))).map Prod.fst

/-- The order of the loop vector claimed for `DetectNBestCandidates`: both
keyframes were introduced by a tuple, and the tuple introducing `A` has an
accumulated score at least that of the tuple introducing `B`. -/
def IntroducedBefore (l : List (ℚ × KeyFramePtr)) (A B : KeyFramePtr) : Prop :=
  ∃ a b, introducingScore l A = some a ∧ introducingScore l B = some b ∧ b ≤ a

/-! ## Frame conditions used in the proofs -/

/-- The part of a keyframe object that no database operation writes. -/
structure KeyFrame.SameObject (k k' : KeyFrame) : Prop where
  mnId : k'.mnId = k.mnId
  mBowVec : k'.mBowVec = k.mBowVec
  mpMap : k'.mpMap = k.mpMap
  mConnectedKeyFrames : k'.mConnectedKeyFrames = k.mConnectedKeyFrames
  mvpOrderedConnectedKeyFrames : k'.mvpOrderedConnectedKeyFrames = k.mvpOrderedConnectedKeyFrames
  mbBad : k'.mbBad = k.mbBad

/-- Two memories hold the same objects up to scratch fields. -/
def Memory.SameObjects (m m' : Memory) : Prop :=
  m'.mapIsBad = m.mapIsBad ∧ ∀ q, KeyFrame.SameObject (m.kf q) (m'.kf q)

/-- The memories agree on everything but similarity scores. -/
def Memory.SameTags (m m' : Memory) : Prop :=
  m.SameObjects m' ∧
    ∀ q sc, (m'.kf q).query sc = (m.kf q).query sc ∧ (m'.kf q).nWords sc = (m.kf q).nWords sc

/-! ## Concrete scenarios

The keyframes of Scenario A of the specification (vocabulary of five words,
`K1 = {0, 1}`, `K2 = {1, 2}`, `K3 = {0, 2}`), used to evaluate the embedding. -/

/-- A keyframe object whose scratch tags are all "none" (`-1`). -/
def sampleKeyFrame (id : Nat) (bow : BowVector) (pMap : MapPtr)
    (connected neighbours : List KeyFramePtr) (bad : Bool) : KeyFrame :=
  { mnId := id, mBowVec := bow, mpMap := pMap, mConnectedKeyFrames := connected,
    mvpOrderedConnectedKeyFrames := neighbours, mbBad := bad,
    mnLoopQuery := -1, mnLoopWords := 0, mLoopScore := 0,
    mnMergeQuery := -1, mnMergeWords := 0, mMergeScore := 0,
    mnPlaceRecognitionQuery := -1, mnPlaceRecognitionWords := 0, mPlaceRecognitionScore := 0,
    mnRelocQuery := -1, mnRelocWords := 0, mRelocScore := 0 }

def bowEmpty : BowVector := ⟨[], by decide⟩
def bow01 : BowVector := ⟨[(0, 1), (1, 1)], by decide⟩
def bow12 : BowVector := ⟨[(1, 1), (2, 1)], by decide⟩
def bow02 : BowVector := ⟨[(0, 1), (2, 1)], by decide⟩
def bow34 : BowVector := ⟨[(3, 1), (4, 1)], by decide⟩

/-- A scorer for the scenarios: a quarter of the number of common words. -/
def sampleScore (a b : BowVector) : ℚ :=
  ((a.words.filter (fun w => decide (w ∈ b.words))).length : ℚ) / 4

def sampleVoc : ORBVocabulary := { size := 5, score := sampleScore }

/-- Three keyframes of one map; `connected1` is the connected set of `K1`, `bad3` the bad
flag of `K3`. -/
def sampleMemory (connected1 : List KeyFramePtr) (bad3 : Bool) : Memory :=
  { kf := fun p =>
      if p = 1 then sampleKeyFrame 1 bow01 0 connected1 [] false
      else if p = 2 then sampleKeyFrame 2 bow12 0 [] [3] false
      else if p = 3 then sampleKeyFrame 3 bow02 0 [] [2] bad3
      else sampleKeyFrame 0 bowEmpty 0 [] [] false,
    mapIsBad := fun _ => false }

/-- The index holding `K2` and `K3`. -/
def sampleDb : KeyFrameDatabase :=
  add (add (KeyFrameDatabase.new sampleVoc) (sampleMemory [] false) 2) (sampleMemory [] false) 3

/-- The index holding only `K3`. -/
def sampleDb3 : KeyFrameDatabase :=
  add (KeyFrameDatabase.new sampleVoc) (sampleMemory [] false) 3

/-- The index after `add(K1)` was called twice. -/
def sampleDbTwice : KeyFrameDatabase :=
  add (add (KeyFrameDatabase.new sampleVoc) (sampleMemory [] false) 1) (sampleMemory [] false) 1

/-- A frame sharing no word with `K2` or `K3`. -/
def sampleFrame : Frame := { mnId := 7, mBowVec := bow34 }

/-! ## Persistence (lines 898-910) -/

/-- Modelled from the spec: `KeyFrameDatabase::serialize` is the single statement
`ar & mvInvertedFile`, whose meaning is given by the Boost archive and by the
serialization of keyframe pointers, neither of which is among the sources.  The
spec gives the persisted unit as the inverted index only, an ordered sequence
(one entry per word slot) of ordered keyframe-id sequences; the vocabulary is
not persisted. -/
def serialize (db : KeyFrameDatabase) (m : Memory) : List (List Nat) :=
  db.mvInvertedFile.map (fun lKFs => lKFs.map (fun pKF => (m.kf pKF).mnId))

/-- Modelled from the spec: loading, the other direction of `ar & mvInvertedFile`.
The restored index is attached to an externally supplied vocabulary and the
keyframe objects are re-resolved by id by the loading context (`resolve`). -/
def deserialize (blob : List (List Nat)) (voc : ORBVocabulary) (resolve : Nat → KeyFramePtr) :
    KeyFrameDatabase :=
  { mpVoc := voc, mvInvertedFile := blob.map (fun ids => ids.map resolve) }

/-! ## Locking

The mutex events and the accesses to `mvInvertedFile` of each method, in
program order.  A `unique_lock<mutex> lock(mMutex)` is a `lock` where it is
declared and an `unlock` at the end of its block. -/

inductive LockEvent where
  | lock
  | unlock
  | slots
  deriving DecidableEq

/-- Every access to the slot array in the event sequence happens while the
mutex is held; `held` tells whether it is held at the start. -/
def heldAtEveryAccess : Bool → List LockEvent → Bool
  | _, [] => true
  | _, LockEvent.lock :: rest => heldAtEveryAccess true rest
  | _, LockEvent.unlock :: rest => heldAtEveryAccess false rest
  | held, LockEvent.slots :: rest => held && heldAtEveryAccess held rest

/-- Events of `add` and of `erase` (lines 64-70, 72-91): the lock is taken on
entry, one slot is accessed per word of the signature. -/
def addEvents (v : BowVector) : List LockEvent :=
  [LockEvent.lock] ++ v.entries.map (fun _ => LockEvent.slots) ++ [LockEvent.unlock]

/-- Events of `clear` (lines 93-97): `mvInvertedFile.clear()` and
`mvInvertedFile.resize(...)`; the method declares no lock. -/
def clearEvents : List LockEvent :=
  [LockEvent.slots, LockEvent.slots]

/-- Events of `clearMap` (lines 99-123): the lock is taken on entry, every slot
is walked. -/
def clearMapEvents (db : KeyFrameDatabase) : List LockEvent :=
  [LockEvent.lock] ++ db.mvInvertedFile.map (fun _ => LockEvent.slots) ++ [LockEvent.unlock]

/-- Events of `SetORBVocabulary` (lines 881-896): the method declares no lock;
with `clearInvertedFile` it clears and resizes the slot array. -/
def setVocabularyEvents (clearInvertedFile : Bool) : List LockEvent :=
  if clearInvertedFile then [LockEvent.slots, LockEvent.slots] else []

/-- Events of the gather phase of each of the five queries (lines 132-159,
260-298, 502-528, 638-664, 766-788): a block that takes the lock and accesses
one slot per word of the query signature. -/
def gatherEvents (v : BowVector) : List LockEvent :=
  [LockEvent.lock] ++ v.entries.map (fun _ => LockEvent.slots) ++ [LockEvent.unlock]

/-- Events of `DetectCandidates` (lines 253-494): the gather block, and, unless
the method returns early at line 301, the closing tag-reset loop of lines
482-492, which accesses one slot per word after the locked block has ended. -/
def detectCandidatesEvents (db : KeyFrameDatabase) (m : Memory) (pKF : KeyFramePtr) :
    List LockEvent :=
  let g := candidatesGather db m pKF
  gatherEvents (m.kf pKF).mBowVec ++
    (if g.2.1.isEmpty && g.2.2.isEmpty then []
     else (m.kf pKF).mBowVec.entries.map (fun _ => LockEvent.slots))

/-- What the gather phase of `DetectCandidates` establishes from fresh tags (used
in the proofs): the objects are unchanged, and a keyframe that carries a query
tag or sits in a sharing list belongs to the matching bucket. -/
structure CandidatesGathered (m : Memory) (pKF : KeyFramePtr)
    (st : Memory × List KeyFramePtr × List KeyFramePtr) : Prop where
  same : m.SameObjects st.1
  loopTag : ∀ q, (st.1.kf q).query .loop = ((m.kf pKF).mnId : Int) →
    (m.kf q).mpMap = (m.kf pKF).mpMap
  loopList : ∀ q ∈ st.2.1, (m.kf q).mpMap = (m.kf pKF).mpMap
  mergeTag : ∀ q, (st.1.kf q).query .merge = ((m.kf pKF).mnId : Int) →
    (m.kf q).mpMap ≠ (m.kf pKF).mpMap ∧ m.mapIsBad (m.kf q).mpMap = false
  mergeList : ∀ q ∈ st.2.2,
    (m.kf q).mpMap ≠ (m.kf pKF).mpMap ∧ m.mapIsBad (m.kf q).mpMap = false


/-- The keyframes of `sampleMemory` with `K3` moved to a second map (map `1`,
not flagged bad) and nothing connected. -/
def sampleMemoryMaps : Memory :=
  { kf := fun p =>
      if p = 1 then sampleKeyFrame 1 bow01 0 [] [] false
      else if p = 2 then sampleKeyFrame 2 bow12 0 [] [3] false
      else if p = 3 then sampleKeyFrame 3 bow02 1 [] [2] false
      else sampleKeyFrame 0 bowEmpty 0 [] [] false,
    mapIsBad := fun _ => false }

/-- The memory left by the loop query `DetectLoopCandidates(K2, 0)` on the sample index, with
`K2` and `K3` connected to `K1`: `K2` and `K3` carry the loop-query tag `2`. -/
def sampleMemoryAfterLoopQuery : Memory :=
  (DetectLoopCandidates sampleDb (sampleMemory [2, 3] false) 2 0).2

/-- State of a gather loop whose body is `tagAlways`, after the keyframes `seen`
have been visited in that order (used in the proofs): the tagged keyframes and
the members of the sharing list are exactly the visited ones, the list has no
duplicates, and each counter is the number of visits. -/
structure Gathered (sc : Scratch) (id : Nat) (st : Memory × List KeyFramePtr)
    (seen : List KeyFramePtr) : Prop where
  tagged : ∀ q, (st.1.kf q).query sc = (id : Int) ↔ q ∈ seen
  nodup : st.2.Nodup
  listed : ∀ q, q ∈ st.2 ↔ q ∈ seen
  counted : ∀ q ∈ seen, (st.1.kf q).nWords sc = (seen.count q : Int)

/-- The index of Scenario A: `K1`, `K2` and `K3` all added. -/
def sampleDbA : KeyFrameDatabase :=
  add (add (add (KeyFrameDatabase.new sampleVoc) (sampleMemory [] false) 1)
    (sampleMemory [] false) 2) (sampleMemory [] false) 3

/-- A frame with the signature of `K1`. -/
def sampleFrameA : Frame := { mnId := 9, mBowVec := bow01 }

/-- State of the gather loop of `DetectLoopCandidates` entered with a fresh query
id (used in the proofs): the objects are unchanged, the keyframes carrying the
query tag are the members of the sharing list, and each member has counted at
least one word. -/
structure LoopGathered (m : Memory) (pKF : KeyFramePtr) (st : Memory × List KeyFramePtr) :
    Prop where
  same : m.SameObjects st.1
  tagged : ∀ q, (st.1.kf q).query .loop = ((m.kf pKF).mnId : Int) → q ∈ st.2
  listed : ∀ q ∈ st.2, (st.1.kf q).query .loop = ((m.kf pKF).mnId : Int) ∧
    1 ≤ (st.1.kf q).nWords .loop

/-- Body of the gather loop of `DetectLoopCandidates`, as in `loopGather`. -/
def loopVisit (m : Memory) (pKF : KeyFramePtr) (st : Memory × List KeyFramePtr)
    (pKFi : KeyFramePtr) : Memory × List KeyFramePtr :=
  if (st.1.kf pKFi).mpMap = (m.kf pKF).mpMap then
    tagUnlessConnected .loop (m.kf pKF).mnId (m.kf pKF).mConnectedKeyFrames st pKFi
  else st

/-- The value of `minCommonWords` in `DetectBestCandidates` after lines 540-545:
`(int)(maxCommonWords*0.8f)`, replaced by `nMinWords` when that is larger. -/
def bestMinCommonWords (db : KeyFrameDatabase) (m : Memory) (pKF : KeyFramePtr)
    (nMinWords : Int) : Int :=
  if minCommonWords
      (maxCommonWords .placeRecognition (bestGather db m pKF).1 (bestGather db m pKF).2)
      < nMinWords then nMinWords
  else minCommonWords
    (maxCommonWords .placeRecognition (bestGather db m pKF).1 (bestGather db m pKF).2)

/-- Scoring phase of `DetectBestCandidates` (lines 547-560), as in
`DetectBestCandidates`: the memory after the loop, and `lScoreAndMatch`. -/
def bestScoring (db : KeyFrameDatabase) (m : Memory) (pKF : KeyFramePtr) (nMinWords : Int) :
    Memory × List (ℚ × KeyFramePtr) :=
  (bestGather db m pKF).2.foldl
    (scoreSharing .placeRecognition db.mpVoc (m.kf pKF).mBowVec
      (bestMinCommonWords db m pKF nMinWords) (fun _ => true))
    ((bestGather db m pKF).1, [])

/-- Scoring phase of `DetectRelocalizationCandidates` (lines 795-821), as in
`DetectRelocalizationCandidates`: the memory after the loop, and
`lScoreAndMatch`. -/
def relocScore (db : KeyFrameDatabase) (m : Memory) (F : Frame) :
    Memory × List (ℚ × KeyFramePtr) :=
  (relocGather db m F).2.foldl
    (scoreSharing .reloc db.mpVoc F.mBowVec
      (minCommonWords (maxCommonWords .reloc (relocGather db m F).1 (relocGather db m F).2))
      (fun _ => true))
    ((relocGather db m F).1, [])

/-! ## The accumulated tuples and the retained list, as the specification words them -/

/-- The neighbours that pass the test of the accumulation loop
(`mnQuery==id`, and `mnWords>minCommonWords` where the query has it), in the
order of `vpNeighs`. -/
def qualifyingNeighbours (sc : Scratch) (id : Nat) (wordFloor : Option Int) (m : Memory)
    (pKFi : KeyFramePtr) : List KeyFramePtr :=
  (GetBestCovisibilityKeyFrames (m.kf pKFi) 10).filter
    (fun pKF2 => decide ((m.kf pKF2).query sc = (id : Int)) &&
      aboveWordFloor wordFloor ((m.kf pKF2).nWords sc))

/-- The tuple `(accScore, pBestKF)` that one iteration of the accumulation loop
pushes for the scored pair `it`, as in `accumulateOne`. -/
def accumulatedTuple (sc : Scratch) (id : Nat) (wordFloor : Option Int) (m : Memory)
    (it : ℚ × KeyFramePtr) : ℚ × KeyFramePtr :=
  ((List.foldl (accumulateNeighbour sc id wordFloor m)
      { bestScore := it.1, accScore := it.1, pBestKF := it.2 }
      (GetBestCovisibilityKeyFrames (m.kf it.2) 10)).accScore,
    (List.foldl (accumulateNeighbour sc id wordFloor m)
      { bestScore := it.1, accScore := it.1, pBestKF := it.2 }
      (GetBestCovisibilityKeyFrames (m.kf it.2) 10)).pBestKF)

/-- The list `lAccScoreAndMatch` of `DetectLoopCandidates` (lines 198-227). -/
def loopTuples (db : KeyFrameDatabase) (m : Memory) (pKF : KeyFramePtr) (minScore : ℚ) :
    List (ℚ × KeyFramePtr) :=
  (accumulate .loop (m.kf pKF).mnId (some (loopMinCommonWords db m pKF))
    (loopScore db m pKF minScore).1 (loopScore db m pKF minScore).2 minScore).1

/-- The candidates for representative of one tuple, in the order the loop
meets them: the scored keyframe with its score, then the qualifying neighbours
with their stored scores. -/
def representativeCandidates (sc : Scratch) (id : Nat) (wordFloor : Option Int) (m : Memory)
    (it : ℚ × KeyFramePtr) : List (KeyFramePtr × ℚ) :=
  (it.2, it.1) :: (qualifyingNeighbours sc id wordFloor m it.2).map
    (fun pKF2 => (pKF2, (m.kf pKF2).simScore sc))

/-- Deduplication "first occurrence wins", in the words of the specification:
every keyframe is kept at its first position and dropped afterwards. -/
def firstOccurrences : List KeyFramePtr → List KeyFramePtr
  | [] => []
  | p :: ps => p :: (firstOccurrences ps).filter (fun q => decide (q ≠ p))

/-- The retention threshold in the words of the specification:
`0.75 × max(bestAccScore, minScore)`, `bestAccScore` being the maximum
accumulated score over all tuples. -/
def specThreshold (minScore : ℚ) (tuples : List (ℚ × KeyFramePtr)) : ℚ :=
  (3 / 4 : ℚ) * tuples.foldl (fun best x => max best x.1) minScore

/-- The returned list in the words of the specification: the representatives
of the tuples whose accumulated score is strictly greater than the threshold,
deduplicated, first occurrence wins. -/
def specRetained (minScore : ℚ) (tuples : List (ℚ × KeyFramePtr)) : List KeyFramePtr :=
  firstOccurrences
    ((tuples.filter (fun x => decide (x.1 > specThreshold minScore tuples))).map Prod.snd)

/-- The retention threshold as the source computes it: the product
`0.75f*bestAccScore`, rounded to single precision. -/
def floatThreshold (minScore : ℚ) (tuples : List (ℚ × KeyFramePtr)) : ℚ :=
  roundFloat (specThreshold minScore tuples)

/-- The representatives of the tuples whose accumulated score is strictly
greater than `threshold`, deduplicated, first occurrence wins. -/
def retainedAbove (threshold : ℚ) (tuples : List (ℚ × KeyFramePtr)) : List KeyFramePtr :=
  firstOccurrences ((tuples.filter (fun x => decide (x.1 > threshold))).map Prod.snd)

/-- The sum the source accumulates with `accScore+=...`: left to right, every
addition rounded to single precision. -/
def floatSum (start : ℚ) (terms : List ℚ) : ℚ :=
  terms.foldl (fun accScore s => roundFloat (accScore + s)) start

/-- No addition of the accumulation rounds: every partial sum is a
single-precision number. -/
def ExactlySummable : ℚ → List ℚ → Prop
  | _, [] => True
  | start, s :: rest => roundFloat (start + s) = start + s ∧ ExactlySummable (start + s) rest

/-! ## Scenarios in which single-precision rounding shows

Three keyframes of one map, `K1 = {0, 1}`, `K2 = {1, 2}`, `K3 = {0, 2}`, without
covisibility neighbours (`isolatedMemory`) or with `K2` and `K3` neighbours of
each other (`sampleMemory`), and scorers with values in `[0, 1]` that are
single-precision numbers. -/

/-- The keyframes of `sampleMemory` without covisibility neighbours. -/
def isolatedMemory : Memory :=
  { kf := fun p =>
      if p = 1 then sampleKeyFrame 1 bow01 0 [] [] false
      else if p = 2 then sampleKeyFrame 2 bow12 0 [] [] false
      else if p = 3 then sampleKeyFrame 3 bow02 0 [] [] false
      else sampleKeyFrame 0 bowEmpty 0 [] [] false,
    mapIsBad := fun _ => false }

/-- A scorer that gives `K2` the score `1/2 + 2^-24` and `K3` the score
`3/8 + 2^-24`. -/
def thresholdScore (_ b : BowVector) : ℚ :=
  if b.words = [1, 2] then 1 / 2 + 1 / 2 ^ 24
  else if b.words = [0, 2] then 3 / 8 + 1 / 2 ^ 24
  else 0

def thresholdVoc : ORBVocabulary := { size := 5, score := thresholdScore }

/-- The index holding `K2` and `K3`, attached to `thresholdVoc`. -/
def thresholdDb : KeyFrameDatabase :=
  add (add (KeyFrameDatabase.new thresholdVoc) isolatedMemory 2) isolatedMemory 3

/-- A scorer that gives `K2` the score `1/2` and `K3` the score `3 * 2^-25`. -/
def fineScore (_ b : BowVector) : ℚ :=
  if b.words = [1, 2] then 1 / 2
  else if b.words = [0, 2] then 3 / 2 ^ 25
  else 0

def fineVoc : ORBVocabulary := { size := 5, score := fineScore }

/-- The index holding `K2` and `K3`, attached to `fineVoc`. -/
def fineDb : KeyFrameDatabase :=
  add (add (KeyFrameDatabase.new fineVoc) (sampleMemory [] false) 2) (sampleMemory [] false) 3

/-! ## A relocalization scenario with a tagged but unscored neighbour

Keyframe `A` (pointer `1`) holds the words `0..9`, keyframe `B` (pointer `2`)
the words `4` and `10`; `B` is the only covisibility neighbour of `A`.  The
frame `relocFrame` holds the words `0..4`: it shares five words with `A` and
one with `B`, so `B` is tagged by the query but stays below the common-word
floor `(int)(5*0.8f) = 4`.  The frame `earlierFrame` holds the words of `B`. -/

def bow0to4 : BowVector := ⟨[(0, 1), (1, 1), (2, 1), (3, 1), (4, 1)], by decide⟩
def bow0to9 : BowVector :=
  ⟨[(0, 1), (1, 1), (2, 1), (3, 1), (4, 1), (5, 1), (6, 1), (7, 1), (8, 1), (9, 1)], by decide⟩
def bow4and10 : BowVector := ⟨[(4, 1), (10, 1)], by decide⟩

/-- A scorer with values in `[0, 1]`: the number of common words over the
size of the larger signature. -/
def overlapScore (a b : BowVector) : ℚ :=
  ((a.words.filter (fun w => decide (w ∈ b.words))).length : ℚ) /
    (max a.words.length b.words.length : Nat)

def overlapVoc : ORBVocabulary := { size := 12, score := overlapScore }

/-- The keyframes `A` and `B` of one map, with fresh scratch fields. -/
def relocMemory : Memory :=
  { kf := fun p =>
      if p = 1 then sampleKeyFrame 1 bow0to9 0 [] [2] false
      else if p = 2 then sampleKeyFrame 2 bow4and10 0 [] [] false
      else sampleKeyFrame 0 bowEmpty 0 [] [] false,
    mapIsBad := fun _ => false }

/-- The index holding `A` and `B`. -/
def relocDb : KeyFrameDatabase :=
  add (add (KeyFrameDatabase.new overlapVoc) relocMemory 1) relocMemory 2

def relocFrame : Frame := { mnId := 21, mBowVec := bow0to4 }

def earlierFrame : Frame := { mnId := 20, mBowVec := bow4and10 }

/-- Two states of a gather loop that differ only in stale scratch data (used in
the proofs): the sharing lists are equal, the same keyframes carry the query
tag, tagged keyframes have equal word counters, and the tagged keyframes are
the members of the sharing list. -/
structure GatherSim (sc : Scratch) (id : Nat) (st st' : Memory × List KeyFramePtr) : Prop where
  list : st'.2 = st.2
  tag : ∀ q, (st'.1.kf q).query sc = (id : Int) ↔ (st.1.kf q).query sc = (id : Int)
  words : ∀ q, (st.1.kf q).query sc = (id : Int) →
    (st'.1.kf q).nWords sc = (st.1.kf q).nWords sc
  listed : ∀ q, (st.1.kf q).query sc = (id : Int) → q ∈ st.2
  tagged : ∀ q ∈ st.2, (st.1.kf q).query sc = (id : Int)

/-- Two states of the gather loop of `DetectCandidates` over the objects of
`m` that differ only in stale scratch data (used in the proofs). -/
structure CandidatesSim (m : Memory) (id : Nat)
    (st st' : Memory × List KeyFramePtr × List KeyFramePtr) : Prop where
  base : m.SameObjects st.1
  base' : m.SameObjects st'.1
  loop : GatherSim .loop id (st.1, st.2.1) (st'.1, st'.2.1)
  merge : GatherSim .merge id (st.1, st.2.2) (st'.1, st'.2.2)

/-- The memory `sampleMemoryMaps` with stale loop scratch data on `K2`, as an
earlier loop query with id `2` leaves them: tag `2`, two shared words, score
`1/2`. -/
def sampleMemoryMapsStale : Memory :=
  sampleMemoryMaps.update 2
    (fun k => ((k.setQuery .loop 2).setWords .loop 2).setScore .loop (1 / 2))

/-! # Theorems -/

/-! ## Index operations: proofs -/

theorem BowVector.nodup_words (v : BowVector) : v.words.Nodup :=
  v.ordered.imp (fun h => Nat.ne_of_lt h)

theorem getD_set_slot (inv : List (List KeyFramePtr)) (i w : Nat) (l : List KeyFramePtr)
    (hi : i < inv.length) :
    (inv.set i l).getD w [] = if w = i then l else inv.getD w [] := by
  simp only [List.getD_eq_getElem?_getD, List.getElem?_set]
  by_cases h : i = w
  · subst h; simp [hi]
  · have h' : ¬ w = i := fun e => h e.symm
    simp [h, h']

theorem foldl_addWord_length (p : KeyFramePtr) (es : List (WordId × ℚ)) :
    ∀ inv : List (List KeyFramePtr), (es.foldl (addWord p) inv).length = inv.length := by
  induction es with
  | nil => intro inv; rfl
  | cons e es ih => intro inv; simp [List.foldl_cons, ih, addWord]

theorem foldl_addWord_getD (p : KeyFramePtr) (es : List (WordId × ℚ)) :
    ∀ inv : List (List KeyFramePtr), (es.map Prod.fst).Nodup →
      (∀ w ∈ es.map Prod.fst, w < inv.length) → ∀ w,
      (es.foldl (addWord p) inv).getD w [] =
        if w ∈ es.map Prod.fst then inv.getD w [] ++ [p] else inv.getD w [] := by
  induction es with
  | nil => intro inv _ _ w; simp
  | cons e es ih =>
    intro inv hnd hr w
    rw [List.map_cons, List.nodup_cons] at hnd
    have he : e.1 < inv.length := hr e.1 (by simp)
    have hr' : ∀ w ∈ es.map Prod.fst, w < (addWord p inv e).length := by
      intro w hw
      simpa [addWord] using hr w (by simp [List.mem_map] at hw ⊢; exact Or.inr hw)
    rw [List.foldl_cons, ih (addWord p inv e) hnd.2 hr' w]
    unfold addWord
    rw [getD_set_slot inv e.1 w _ he]
    by_cases hw : w = e.1
    · subst hw
      simp [hnd.1]
    · have hm : (w ∈ List.map Prod.fst (e :: es)) ↔ w ∈ List.map Prod.fst es := by
        rw [List.map_cons, List.mem_cons]
        exact ⟨fun h => h.resolve_left hw, Or.inr⟩
      rw [if_neg hw, if_congr hm rfl rfl]

theorem eraseFirst_not_mem (p : KeyFramePtr) (l : List KeyFramePtr) (h : l.count p ≤ 1) :
    p ∉ eraseFirst p l := by
  induction l with
  | nil => simp [eraseFirst]
  | cons a l ih =>
    unfold eraseFirst
    by_cases hpa : p = a
    · subst hpa
      simp only [if_true]
      simp [List.count_cons] at h
      exact List.count_eq_zero.mp h
    · have hap : ¬ a = p := fun e => hpa e.symm
      rw [if_neg hpa]
      simp only [List.mem_cons, not_or]
      refine ⟨hpa, ih ?_⟩
      simpa [List.count_cons, hap] using h

theorem eraseFirst_of_not_mem (p : KeyFramePtr) (l : List KeyFramePtr) (h : p ∉ l) :
    eraseFirst p l = l := by
  induction l with
  | nil => rfl
  | cons a l ih =>
    simp only [List.mem_cons, not_or] at h
    simp [eraseFirst, h.1, ih h.2]

theorem getD_eraseWord (p : KeyFramePtr) (inv : List (List KeyFramePtr)) (e : WordId × ℚ)
    (w : Nat) :
    (eraseWord p inv e).getD w [] =
      if w = e.1 then eraseFirst p (inv.getD w []) else inv.getD w [] := by
  unfold eraseWord
  by_cases he : e.1 < inv.length
  · rw [getD_set_slot inv e.1 w _ he]
    by_cases hw : w = e.1
    · subst hw; simp
    · simp [hw]
  · have hset : inv.set e.1 (eraseFirst p (inv.getD e.1 [])) = inv := by
      exact List.set_eq_of_length_le (Nat.le_of_not_lt he)
    rw [hset]
    by_cases hw : w = e.1
    · have : inv.getD e.1 [] = [] := by
        simp only [List.getD_eq_getElem?_getD]
        rw [List.getElem?_eq_none (Nat.le_of_not_lt he)]; rfl
      rw [if_pos hw, hw, this]; rfl
    · rw [if_neg hw]

theorem foldl_eraseWord_length (p : KeyFramePtr) (es : List (WordId × ℚ)) :
    ∀ inv : List (List KeyFramePtr), (es.foldl (eraseWord p) inv).length = inv.length := by
  induction es with
  | nil => intro inv; rfl
  | cons e es ih => intro inv; simp [List.foldl_cons, ih, eraseWord]

theorem foldl_eraseWord_getD (p : KeyFramePtr) (es : List (WordId × ℚ)) :
    ∀ inv : List (List KeyFramePtr), (es.map Prod.fst).Nodup → ∀ w,
      (es.foldl (eraseWord p) inv).getD w [] =
        if w ∈ es.map Prod.fst then eraseFirst p (inv.getD w []) else inv.getD w [] := by
  induction es with
  | nil => intro inv _ w; simp
  | cons e es ih =>
    intro inv hnd w
    rw [List.map_cons, List.nodup_cons] at hnd
    rw [List.foldl_cons, ih (eraseWord p inv e) hnd.2 w, getD_eraseWord]
    by_cases hw : w = e.1
    · subst hw
      simp [hnd.1]
    · have hm : (w ∈ List.map Prod.fst (e :: es)) ↔ w ∈ List.map Prod.fst es := by
        rw [List.map_cons, List.mem_cons]
        exact ⟨fun h => h.resolve_left hw, Or.inr⟩
      rw [if_neg hw, if_congr hm rfl rfl]

theorem mem_iff_getD (inv : List (List KeyFramePtr)) (l : List KeyFramePtr) :
    l ∈ inv ↔ ∃ w, w < inv.length ∧ inv.getD w [] = l := by
  constructor
  · intro h
    obtain ⟨n, hn, rfl⟩ := List.getElem_of_mem h
    exact ⟨n, hn, by simp [List.getD_eq_getElem?_getD, List.getElem?_eq_getElem hn]⟩
  · rintro ⟨w, hw, rfl⟩
    simp [List.getD_eq_getElem?_getD, List.getElem?_eq_getElem hw]

theorem clearMapList_eq_filter (m : Memory) (pMap : MapPtr) (l : List KeyFramePtr) :
    clearMapList m pMap l = l.filter (fun p => decide ((m.kf p).mpMap ≠ pMap)) := by
  induction l with
  | nil => rfl
  | cons a l ih =>
    unfold clearMapList
    by_cases h : pMap = (m.kf a).mpMap
    · have hd : decide ((m.kf a).mpMap ≠ pMap) = false := by simp [h]
      rw [if_pos h, ih, List.filter_cons, hd]
      simp
    · have hd : decide ((m.kf a).mpMap ≠ pMap) = true := by
        simp only [decide_eq_true_eq]; exact fun e => h e.symm
      rw [if_neg h, ih, List.filter_cons, hd]
      simp

theorem clearMapSlots_eq_map (m : Memory) (pMap : MapPtr) (inv : List (List KeyFramePtr)) :
    clearMapSlots m pMap inv = inv.map (clearMapList m pMap) := by
  induction inv with
  | nil => rfl
  | cons a l ih => simp [clearMapSlots, ih]

/-! ## Index operations: the claims -/

/-- C2. In an index where `pKF` occurs in no slot, and with all word ids of
`pKF` below the slot count, `add(pKF)` appends `pKF` as the last element of the
slot of every word of its signature, where it then occurs exactly once, and
leaves every other slot and the number of slots unchanged. -/
theorem add_appends_exactly_once (db : KeyFrameDatabase) (m : Memory) (pKF : KeyFramePtr)
    (hfresh : ∀ l ∈ db.mvInvertedFile, pKF ∉ l)
    (hrange : ∀ w ∈ (m.kf pKF).mBowVec.words, w < db.mvInvertedFile.length) :
    (∀ w ∈ (m.kf pKF).mBowVec.words,
        (add db m pKF).slot w = db.slot w ++ [pKF] ∧ ((add db m pKF).slot w).count pKF = 1) ∧
      (∀ w, w ∉ (m.kf pKF).mBowVec.words → (add db m pKF).slot w = db.slot w) ∧
      (add db m pKF).mvInvertedFile.length = db.mvInvertedFile.length := by
  have key := foldl_addWord_getD pKF (m.kf pKF).mBowVec.entries db.mvInvertedFile
    (m.kf pKF).mBowVec.nodup_words hrange
  refine ⟨fun w hw => ?_, fun w hw => ?_, foldl_addWord_length pKF _ _⟩
  · have h1 : (add db m pKF).slot w = db.slot w ++ [pKF] := by
      have := key w
      rw [if_pos (show w ∈ List.map Prod.fst (m.kf pKF).mBowVec.entries from hw)] at this
      exact this
    refine ⟨h1, ?_⟩
    rw [h1, List.count_append]
    have h0 : (db.slot w).count pKF = 0 := by
      apply List.count_eq_zero.mpr
      exact hfresh _ ((mem_iff_getD _ _).mpr ⟨w, hrange w hw, rfl⟩)
    simp [h0]
  · have := key w
    rw [if_neg (show w ∉ List.map Prod.fst (m.kf pKF).mBowVec.entries from hw)] at this
    exact this

/-- C3 fails as stated: after `add(K1)` was called twice, `erase(K1)` removes one
copy per word and `K1` is still in a word list. -/
theorem erase_leaves_second_copy :
    ¬ ∀ l ∈ (erase sampleDbTwice (sampleMemory [] false) 1).mvInvertedFile, 1 ∉ l := by
  decide

/-- C3, as amended. In an index where `pKF` occurs at most once in every slot
and only in slots of words of its own signature, `pKF` occurs in no slot after
`erase(pKF)`. -/
theorem erase_removes_single_entries (db : KeyFrameDatabase) (m : Memory) (pKF : KeyFramePtr)
    (honce : ∀ l ∈ db.mvInvertedFile, l.count pKF ≤ 1)
    (hown : ∀ w < db.mvInvertedFile.length, pKF ∈ db.slot w → w ∈ (m.kf pKF).mBowVec.words) :
    ∀ l ∈ (erase db m pKF).mvInvertedFile, pKF ∉ l := by
  intro l hl
  obtain ⟨w, hw, rfl⟩ := (mem_iff_getD _ _).mp hl
  have hlen : (erase db m pKF).mvInvertedFile.length = db.mvInvertedFile.length :=
    foldl_eraseWord_length pKF _ _
  rw [hlen] at hw
  have key := foldl_eraseWord_getD pKF (m.kf pKF).mBowVec.entries db.mvInvertedFile
    (m.kf pKF).mBowVec.nodup_words w
  show pKF ∉ List.getD (List.foldl (eraseWord pKF) db.mvInvertedFile
    (m.kf pKF).mBowVec.entries) w []
  rw [key]
  by_cases hmem : w ∈ List.map Prod.fst (m.kf pKF).mBowVec.entries
  · rw [if_pos hmem]
    exact eraseFirst_not_mem pKF _ (honce _ ((mem_iff_getD _ _).mpr ⟨w, hw, rfl⟩))
  · rw [if_neg hmem]
    exact fun h => hmem (hown w hw h)

/-- C7. After `clear()` the index has exactly `vocabulary.size()` slots and
every one of them is empty. -/
theorem clear_resets_index (db : KeyFrameDatabase) :
    (clear db).mvInvertedFile.length = db.mpVoc.size ∧
      ∀ l ∈ (clear db).mvInvertedFile, l = [] := by
  constructor
  · simp [clear, vectorResize]
  · intro l hl
    simp only [clear, vectorResize, List.take_nil, List.nil_append, List.length_nil] at hl
    exact (List.mem_replicate.mp hl).2

/-- C8. `clearMap(pMap)` keeps the number of slots, turns every slot into the
old slot filtered to the keyframes whose map is not `pMap` (same relative
order), and no keyframe of another map loses an occurrence. -/
theorem clearMap_filters_slots (db : KeyFrameDatabase) (m : Memory) (pMap : MapPtr) :
    (clearMap db m pMap).mvInvertedFile.length = db.mvInvertedFile.length ∧
      (∀ w, (clearMap db m pMap).slot w =
        (db.slot w).filter (fun p => decide ((m.kf p).mpMap ≠ pMap))) ∧
      (∀ w p, (m.kf p).mpMap ≠ pMap →
        ((clearMap db m pMap).slot w).count p = (db.slot w).count p) := by
  have hslot : ∀ w, (clearMap db m pMap).slot w =
      (db.slot w).filter (fun p => decide ((m.kf p).mpMap ≠ pMap)) := by
    intro w
    simp only [clearMap, KeyFrameDatabase.slot, clearMapSlots_eq_map,
      List.getD_eq_getElem?_getD, List.getElem?_map]
    cases h : db.mvInvertedFile[w]? with
    | none => simp
    | some l => simp [clearMapList_eq_filter]
  refine ⟨by simp [clearMap, clearMapSlots_eq_map], hslot, fun w p hp => ?_⟩
  rw [hslot w, List.count_filter]
  simpa using hp

theorem add_appends_exactly_once_witness :
    (∀ l ∈ (KeyFrameDatabase.new sampleVoc).mvInvertedFile, 1 ∉ l) ∧
      (∀ w ∈ ((sampleMemory [] false).kf 1).mBowVec.words,
        w < (KeyFrameDatabase.new sampleVoc).mvInvertedFile.length) ∧
      ((∀ w ∈ ((sampleMemory [] false).kf 1).mBowVec.words,
          (add (KeyFrameDatabase.new sampleVoc) (sampleMemory [] false) 1).slot w =
              (KeyFrameDatabase.new sampleVoc).slot w ++ [1] ∧
            ((add (KeyFrameDatabase.new sampleVoc) (sampleMemory [] false) 1).slot w).count 1
              = 1) ∧
        (∀ w, w ∉ ((sampleMemory [] false).kf 1).mBowVec.words →
          (add (KeyFrameDatabase.new sampleVoc) (sampleMemory [] false) 1).slot w =
            (KeyFrameDatabase.new sampleVoc).slot w) ∧
        (add (KeyFrameDatabase.new sampleVoc) (sampleMemory [] false) 1).mvInvertedFile.length =
          (KeyFrameDatabase.new sampleVoc).mvInvertedFile.length) :=
  ⟨by decide, by decide,
    add_appends_exactly_once (KeyFrameDatabase.new sampleVoc) (sampleMemory [] false) 1
      (by decide) (by decide)⟩

theorem erase_removes_single_entries_witness :
    (∀ l ∈ sampleDb.mvInvertedFile, l.count 2 ≤ 1) ∧
      (∀ w < sampleDb.mvInvertedFile.length,
        2 ∈ sampleDb.slot w → w ∈ ((sampleMemory [] false).kf 2).mBowVec.words) ∧
      (∀ l ∈ (erase sampleDb (sampleMemory [] false) 2).mvInvertedFile, 2 ∉ l) :=
  ⟨by decide, by decide,
    erase_removes_single_entries sampleDb (sampleMemory [] false) 2 (by decide) (by decide)⟩

/-! ## Scratch updates: frame lemmas -/

@[simp] theorem Memory.update_kf (m : Memory) (p q : KeyFramePtr) (f : KeyFrame → KeyFrame) :
    (m.update p f).kf q = if q = p then f (m.kf q) else m.kf q := rfl

@[simp] theorem Memory.update_mapIsBad (m : Memory) (p : KeyFramePtr) (f : KeyFrame → KeyFrame) :
    (m.update p f).mapIsBad = m.mapIsBad := rfl

@[simp] theorem KeyFrame.query_setQuery (k : KeyFrame) (sc sc' : Scratch) (v : Int) :
    (k.setQuery sc v).query sc' = if sc = sc' then v else k.query sc' := by
  cases sc <;> cases sc' <;> rfl

@[simp] theorem KeyFrame.query_setWords (k : KeyFrame) (sc sc' : Scratch) (v : Int) :
    (k.setWords sc v).query sc' = k.query sc' := by
  cases sc <;> cases sc' <;> rfl

@[simp] theorem KeyFrame.query_setScore (k : KeyFrame) (sc sc' : Scratch) (v : ℚ) :
    (k.setScore sc v).query sc' = k.query sc' := by
  cases sc <;> cases sc' <;> rfl

@[simp] theorem KeyFrame.nWords_setQuery (k : KeyFrame) (sc sc' : Scratch) (v : Int) :
    (k.setQuery sc v).nWords sc' = k.nWords sc' := by
  cases sc <;> cases sc' <;> rfl

@[simp] theorem KeyFrame.nWords_setWords (k : KeyFrame) (sc sc' : Scratch) (v : Int) :
    (k.setWords sc v).nWords sc' = if sc = sc' then v else k.nWords sc' := by
  cases sc <;> cases sc' <;> rfl

@[simp] theorem KeyFrame.nWords_setScore (k : KeyFrame) (sc sc' : Scratch) (v : ℚ) :
    (k.setScore sc v).nWords sc' = k.nWords sc' := by
  cases sc <;> cases sc' <;> rfl

@[simp] theorem KeyFrame.simScore_setQuery (k : KeyFrame) (sc sc' : Scratch) (v : Int) :
    (k.setQuery sc v).simScore sc' = k.simScore sc' := by
  cases sc <;> cases sc' <;> rfl

@[simp] theorem KeyFrame.simScore_setWords (k : KeyFrame) (sc sc' : Scratch) (v : Int) :
    (k.setWords sc v).simScore sc' = k.simScore sc' := by
  cases sc <;> cases sc' <;> rfl

@[simp] theorem KeyFrame.simScore_setScore (k : KeyFrame) (sc sc' : Scratch) (v : ℚ) :
    (k.setScore sc v).simScore sc' = if sc = sc' then v else k.simScore sc' := by
  cases sc <;> cases sc' <;> rfl

theorem KeyFrame.sameObject_refl (k : KeyFrame) : KeyFrame.SameObject k k :=
  ⟨rfl, rfl, rfl, rfl, rfl, rfl⟩

theorem KeyFrame.sameObject_trans {a b c : KeyFrame} (h1 : KeyFrame.SameObject a b)
    (h2 : KeyFrame.SameObject b c) : KeyFrame.SameObject a c :=
  ⟨h2.mnId.trans h1.mnId, h2.mBowVec.trans h1.mBowVec, h2.mpMap.trans h1.mpMap,
    h2.mConnectedKeyFrames.trans h1.mConnectedKeyFrames,
    h2.mvpOrderedConnectedKeyFrames.trans h1.mvpOrderedConnectedKeyFrames,
    h2.mbBad.trans h1.mbBad⟩

theorem KeyFrame.sameObject_setQuery (k : KeyFrame) (sc : Scratch) (v : Int) :
    KeyFrame.SameObject k (k.setQuery sc v) := by
  cases sc <;> exact ⟨rfl, rfl, rfl, rfl, rfl, rfl⟩

theorem KeyFrame.sameObject_setWords (k : KeyFrame) (sc : Scratch) (v : Int) :
    KeyFrame.SameObject k (k.setWords sc v) := by
  cases sc <;> exact ⟨rfl, rfl, rfl, rfl, rfl, rfl⟩

theorem KeyFrame.sameObject_setScore (k : KeyFrame) (sc : Scratch) (v : ℚ) :
    KeyFrame.SameObject k (k.setScore sc v) := by
  cases sc <;> exact ⟨rfl, rfl, rfl, rfl, rfl, rfl⟩

theorem Memory.sameObjects_refl (m : Memory) : m.SameObjects m :=
  ⟨rfl, fun _ => KeyFrame.sameObject_refl _⟩

theorem Memory.sameObjects_trans {a b c : Memory} (h1 : a.SameObjects b) (h2 : b.SameObjects c) :
    a.SameObjects c :=
  ⟨h2.1.trans h1.1, fun q => KeyFrame.sameObject_trans (h1.2 q) (h2.2 q)⟩

theorem Memory.sameObjects_update (m : Memory) (p : KeyFramePtr) (f : KeyFrame → KeyFrame)
    (hf : ∀ k, KeyFrame.SameObject k (f k)) : m.SameObjects (m.update p f) := by
  refine ⟨rfl, fun q => ?_⟩
  rw [Memory.update_kf]
  split
  · exact hf _
  · exact KeyFrame.sameObject_refl _

/-! ## The gather phase -/

theorem forEachSharing_induction {σ : Type} (P : σ → Prop) (inv : List (List KeyFramePtr))
    (v : BowVector) (visit : σ → KeyFramePtr → σ) (init : σ)
    (hstep : ∀ st p, P st → P (visit st p)) (h0 : P init) :
    P (forEachSharing inv v visit init) := by
  unfold forEachSharing
  have inner : ∀ (l : List KeyFramePtr) (st : σ), P st → P (l.foldl visit st) := by
    intro l
    induction l with
    | nil => intro st h; exact h
    | cons a l ih => intro st h; exact ih _ (hstep st a h)
  generalize v.entries = es
  induction es generalizing init with
  | nil => exact h0
  | cons e es ih => exact ih _ (inner _ _ h0)

/-- A visit that only sees members of the slots it walks. -/
theorem forEachSharing_induction_mem {σ : Type} (P : σ → Prop) (inv : List (List KeyFramePtr))
    (v : BowVector) (visit : σ → KeyFramePtr → σ) (init : σ)
    (hstep : ∀ st p, (∃ w ∈ v.words, p ∈ inv.getD w []) → P st → P (visit st p)) (h0 : P init) :
    P (forEachSharing inv v visit init) := by
  unfold forEachSharing
  have inner : ∀ (l : List KeyFramePtr) (st : σ),
      (∀ p ∈ l, ∃ w ∈ v.words, p ∈ inv.getD w []) → P st → P (l.foldl visit st) := by
    intro l
    induction l with
    | nil => intro st _ h; exact h
    | cons a l ih =>
      intro st hl h
      exact ih _ (fun p hp => hl p (List.mem_cons_of_mem _ hp))
        (hstep st a (hl a (List.mem_cons_self _ _)) h)
  have outer : ∀ (es : List (WordId × ℚ)) (st : σ), (∀ e ∈ es, e.1 ∈ v.words) → P st →
      P (es.foldl (fun st vit => (inv.getD vit.1 []).foldl visit st) st) := by
    intro es
    induction es with
    | nil => intro st _ h; exact h
    | cons e es ih =>
      intro st hes h
      exact ih _ (fun e' he' => hes e' (List.mem_cons_of_mem _ he'))
        (inner _ _ (fun p hp => ⟨e.1, hes e (List.mem_cons_self _ _), hp⟩) h)
  exact outer _ _ (fun e he => List.mem_map_of_mem _ he) h0

theorem tagUnlessConnected_sameObjects (sc : Scratch) (id : Nat) (conn : List KeyFramePtr)
    (st : Memory × List KeyFramePtr) (p : KeyFramePtr) :
    st.1.SameObjects (tagUnlessConnected sc id conn st p).1 := by
  unfold tagUnlessConnected
  refine Memory.sameObjects_trans ?_
    (Memory.sameObjects_update _ _ _ (fun k => KeyFrame.sameObject_setWords k sc _))
  split
  · split
    · exact Memory.sameObjects_trans
        (Memory.sameObjects_update _ _ _ (fun k => KeyFrame.sameObject_setWords k sc _))
        (Memory.sameObjects_update _ _ _ (fun k => KeyFrame.sameObject_setQuery k sc _))
    · exact Memory.sameObjects_update _ _ _ (fun k => KeyFrame.sameObject_setWords k sc _)
  · exact Memory.sameObjects_refl _

theorem tagAlways_sameObjects (sc : Scratch) (id : Nat)
    (st : Memory × List KeyFramePtr) (p : KeyFramePtr) :
    st.1.SameObjects (tagAlways sc id st p).1 := by
  unfold tagAlways
  refine Memory.sameObjects_trans ?_
    (Memory.sameObjects_update _ _ _ (fun k => KeyFrame.sameObject_setWords k sc _))
  split
  · exact Memory.sameObjects_trans
      (Memory.sameObjects_update _ _ _ (fun k => KeyFrame.sameObject_setWords k sc _))
      (Memory.sameObjects_update _ _ _ (fun k => KeyFrame.sameObject_setQuery k sc _))
  · exact Memory.sameObjects_refl _

/-- After a visit by `tagUnlessConnected`, a keyframe that carries the query tag
either carried it before or is not connected; and the same for list members. -/
theorem tagUnlessConnected_tags (sc : Scratch) (id : Nat) (conn : List KeyFramePtr)
    (st : Memory × List KeyFramePtr) (p : KeyFramePtr) :
    (∀ q sc', ((tagUnlessConnected sc id conn st p).1.kf q).query sc' = (id : Int) →
        (st.1.kf q).query sc' = (id : Int) ∨ (q ∉ conn ∧ sc' = sc)) ∧
      (∀ q ∈ (tagUnlessConnected sc id conn st p).2, q ∈ st.2 ∨ q ∉ conn) := by
  unfold tagUnlessConnected
  by_cases h1 : (st.1.kf p).query sc ≠ (id : Int)
  · by_cases h2 : p ∉ conn
    · simp only [if_pos h1, if_pos h2]
      constructor
      · intro q sc' hq
        simp only [Memory.update_kf] at hq
        by_cases hqp : q = p
        · subst hqp
          simp only [if_true, KeyFrame.query_setWords, KeyFrame.query_setQuery] at hq
          by_cases hsc : sc = sc'
          · exact Or.inr ⟨h2, hsc.symm⟩
          · rw [if_neg hsc] at hq; exact Or.inl hq
        · simp only [hqp, if_false] at hq; exact Or.inl hq
      · intro q hq
        rcases List.mem_append.mp hq with h | h
        · exact Or.inl h
        · rw [List.mem_singleton] at h; subst h; exact Or.inr h2
    · simp only [if_pos h1, if_neg h2]
      constructor
      · intro q sc' hq
        simp only [Memory.update_kf] at hq
        by_cases hqp : q = p
        · subst hqp
          simp only [if_true, KeyFrame.query_setWords] at hq
          exact Or.inl hq
        · simp only [hqp, if_false] at hq; exact Or.inl hq
      · intro q hq; exact Or.inl hq
  · simp only [if_neg h1]
    constructor
    · intro q sc' hq
      simp only [Memory.update_kf] at hq
      by_cases hqp : q = p
      · subst hqp
        simp only [if_true, KeyFrame.query_setWords] at hq
        exact Or.inl hq
      · simp only [hqp, if_false] at hq; exact Or.inl hq
    · intro q hq; exact Or.inl hq

/-! ## The scoring, accumulation and retention phases -/

theorem Memory.sameTags_refl (m : Memory) : m.SameTags m :=
  ⟨Memory.sameObjects_refl m, fun _ _ => ⟨rfl, rfl⟩⟩

theorem Memory.sameTags_trans {a b c : Memory} (h1 : a.SameTags b) (h2 : b.SameTags c) :
    a.SameTags c :=
  ⟨Memory.sameObjects_trans h1.1 h2.1, fun q sc =>
    ⟨((h2.2 q sc).1).trans (h1.2 q sc).1, ((h2.2 q sc).2).trans (h1.2 q sc).2⟩⟩

theorem scoreSharing_sameTags (sc : Scratch) (voc : ORBVocabulary) (qb : BowVector)
    (minCommon : Int) (keep : ℚ → Bool) (st : Memory × List (ℚ × KeyFramePtr))
    (p : KeyFramePtr) :
    st.1.SameTags (scoreSharing sc voc qb minCommon keep st p).1 := by
  have hupd : ∀ v : ℚ, st.1.SameTags (st.1.update p (fun k => k.setScore sc v)) := by
    intro v
    refine ⟨Memory.sameObjects_update _ _ _ (fun k => KeyFrame.sameObject_setScore k sc _), ?_⟩
    intro q sc'
    rw [Memory.update_kf]
    split <;> simp
  unfold scoreSharing
  split
  · simp only []
    split
    · exact hupd _
    · exact hupd _
  · exact Memory.sameTags_refl _

theorem scoreSharing_mem (sc : Scratch) (voc : ORBVocabulary) (qb : BowVector)
    (minCommon : Int) (keep : ℚ → Bool) (st : Memory × List (ℚ × KeyFramePtr))
    (p : KeyFramePtr) (x : ℚ × KeyFramePtr)
    (hx : x ∈ (scoreSharing sc voc qb minCommon keep st p).2) :
    x ∈ st.2 ∨ (x = (voc.score qb (st.1.kf p).mBowVec, p) ∧ keep x.1 = true ∧
      (st.1.kf p).nWords sc > minCommon) := by
  unfold scoreSharing at hx
  by_cases h1 : (st.1.kf p).nWords sc > minCommon
  · rw [if_pos h1] at hx
    simp only [] at hx
    by_cases h2 : keep (voc.score qb (st.1.kf p).mBowVec) = true
    · rw [if_pos h2] at hx
      rcases List.mem_append.mp hx with h | h
      · exact Or.inl h
      · rw [List.mem_singleton] at h
        subst h
        exact Or.inr ⟨rfl, h2, h1⟩
    · rw [if_neg h2] at hx
      exact Or.inl hx
  · rw [if_neg h1] at hx
    exact Or.inl hx

/-- What the scoring loop leaves: tags and word counters as they were, and every
recorded pair is an earlier pair or the kept score of a sharing keyframe above
the common-word floor. -/
theorem scoreFold_spec (sc : Scratch) (voc : ORBVocabulary) (qb : BowVector)
    (minCommon : Int) (keep : ℚ → Bool) (l : List KeyFramePtr) :
    ∀ st : Memory × List (ℚ × KeyFramePtr),
      st.1.SameTags (l.foldl (scoreSharing sc voc qb minCommon keep) st).1 ∧
      ∀ x ∈ (l.foldl (scoreSharing sc voc qb minCommon keep) st).2,
        x ∈ st.2 ∨ (x.2 ∈ l ∧ x.1 = voc.score qb (st.1.kf x.2).mBowVec ∧ keep x.1 = true ∧
          (st.1.kf x.2).nWords sc > minCommon) := by
  induction l with
  | nil => intro st; exact ⟨Memory.sameTags_refl _, fun x hx => Or.inl hx⟩
  | cons a l ih =>
    intro st
    rw [List.foldl_cons]
    have h1 := scoreSharing_sameTags sc voc qb minCommon keep st a
    obtain ⟨h2, h3⟩ := ih (scoreSharing sc voc qb minCommon keep st a)
    refine ⟨Memory.sameTags_trans h1 h2, fun x hx => ?_⟩
    rcases h3 x hx with h | ⟨hm, hs, hk, hw⟩
    · rcases scoreSharing_mem sc voc qb minCommon keep st a x h with h' | ⟨he, hk, hw⟩
      · exact Or.inl h'
      · refine Or.inr ⟨?_, ?_, hk, ?_⟩
        · rw [he]; exact List.mem_cons_self _ _
        · rw [he]
        · rw [he]; exact hw
    · refine Or.inr ⟨List.mem_cons_of_mem _ hm, ?_, hk, ?_⟩
      · rw [hs, (h1.1.2 x.2).mBowVec]
      · rw [← (h1.2 x.2 sc).2]; exact hw

theorem accumulateNeighbour_rep (sc : Scratch) (id : Nat) (wf : Option Int) (m : Memory)
    (l : List KeyFramePtr) :
    ∀ a : AccState,
      (l.foldl (accumulateNeighbour sc id wf m) a).pBestKF = a.pBestKF ∨
        ((l.foldl (accumulateNeighbour sc id wf m) a).pBestKF ∈ l ∧
          (m.kf (l.foldl (accumulateNeighbour sc id wf m) a).pBestKF).query sc = (id : Int) ∧
          aboveWordFloor wf
            ((m.kf (l.foldl (accumulateNeighbour sc id wf m) a).pBestKF).nWords sc) = true) := by
  induction l with
  | nil => intro a; exact Or.inl rfl
  | cons b l ih =>
    intro a
    rw [List.foldl_cons]
    rcases ih (accumulateNeighbour sc id wf m a b) with h | ⟨h1, h2, h3⟩
    · rw [h]
      unfold accumulateNeighbour
      by_cases hc : (m.kf b).query sc = (id : Int) ∧
          aboveWordFloor wf ((m.kf b).nWords sc) = true
      · rw [if_pos hc]
        simp only []
        split
        · exact Or.inr ⟨List.mem_cons_self _ _, hc.1, hc.2⟩
        · exact Or.inl rfl
      · rw [if_neg hc]; exact Or.inl rfl
    · exact Or.inr ⟨List.mem_cons_of_mem _ h1, h2, h3⟩

/-- Every accumulated tuple's representative is the scored keyframe itself or
one of its ten best neighbours that passed the neighbour test. -/
theorem accumulateFold_rep (sc : Scratch) (id : Nat) (wf : Option Int) (m : Memory)
    (l : List (ℚ × KeyFramePtr)) :
    ∀ st : List (ℚ × KeyFramePtr) × ℚ,
      ∀ x ∈ (l.foldl (accumulateOne sc id wf m) st).1,
        x ∈ st.1 ∨ ∃ y ∈ l, x.2 = y.2 ∨
          (x.2 ∈ GetBestCovisibilityKeyFrames (m.kf y.2) 10 ∧
            (m.kf x.2).query sc = (id : Int) ∧
            aboveWordFloor wf ((m.kf x.2).nWords sc) = true) := by
  induction l with
  | nil => intro st x hx; exact Or.inl hx
  | cons y l ih =>
    intro st x hx
    rw [List.foldl_cons] at hx
    rcases ih _ x hx with h | ⟨z, hz, h⟩
    · unfold accumulateOne at h
      simp only [] at h
      rcases List.mem_append.mp h with h' | h'
      · exact Or.inl h'
      · rw [List.mem_singleton] at h'
        right
        refine ⟨y, List.mem_cons_self _ _, ?_⟩
        have := accumulateNeighbour_rep sc id wf m (GetBestCovisibilityKeyFrames (m.kf y.2) 10)
          { bestScore := y.1, accScore := y.1, pBestKF := y.2 }
        rw [h']
        exact this
    · exact Or.inr ⟨z, List.mem_cons_of_mem _ hz, h⟩

theorem retainFold_mem (thr : ℚ) (l : List (ℚ × KeyFramePtr)) :
    ∀ st : List KeyFramePtr × List KeyFramePtr,
      ∀ p ∈ (l.foldl (retainOne thr) st).1, p ∈ st.1 ∨ ∃ x ∈ l, x.2 = p ∧ x.1 > thr := by
  induction l with
  | nil => intro st p hp; exact Or.inl hp
  | cons y l ih =>
    intro st p hp
    rw [List.foldl_cons] at hp
    rcases ih _ p hp with h | ⟨x, hx, h⟩
    · unfold retainOne at h
      by_cases h1 : y.1 > thr
      · rw [if_pos h1] at h
        by_cases h2 : y.2 ∉ st.2
        · rw [if_pos h2] at h
          rcases List.mem_append.mp h with h' | h'
          · exact Or.inl h'
          · rw [List.mem_singleton] at h'
            exact Or.inr ⟨y, List.mem_cons_self _ _, h'.symm, h1⟩
        · rw [if_neg h2] at h; exact Or.inl h
      · rw [if_neg h1] at h; exact Or.inl h
    · exact Or.inr ⟨x, List.mem_cons_of_mem _ hx, h⟩

/-! ## `DetectLoopCandidates`: no connected keyframe is returned -/

/-- With a fresh query id, the gather phase of `DetectLoopCandidates` tags and
records only keyframes outside the connected set. -/
theorem loopGather_not_connected (db : KeyFrameDatabase) (m : Memory) (pKF : KeyFramePtr)
    (hfresh : ∀ q, (m.kf q).mnLoopQuery ≠ ((m.kf pKF).mnId : Int)) :
    (∀ q, ((loopGather db m pKF).1.kf q).query .loop = ((m.kf pKF).mnId : Int) →
        q ∉ (m.kf pKF).mConnectedKeyFrames) ∧
      (∀ q ∈ (loopGather db m pKF).2, q ∉ (m.kf pKF).mConnectedKeyFrames) := by
  unfold loopGather
  simp only []
  apply forEachSharing_induction
    (fun st : Memory × List KeyFramePtr =>
      (∀ q, (st.1.kf q).query .loop = ((m.kf pKF).mnId : Int) →
        q ∉ (m.kf pKF).mConnectedKeyFrames) ∧
      (∀ q ∈ st.2, q ∉ (m.kf pKF).mConnectedKeyFrames))
  · intro st p ⟨h1, h2⟩
    split
    · obtain ⟨t1, t2⟩ := tagUnlessConnected_tags .loop (m.kf pKF).mnId
        (m.kf pKF).mConnectedKeyFrames st p
      constructor
      · intro q hq
        rcases t1 q .loop hq with h | h
        · exact h1 q h
        · exact h.1
      · intro q hq
        rcases t2 q hq with h | h
        · exact h2 q h
        · exact h
    · exact ⟨h1, h2⟩
  · exact ⟨fun q hq => absurd hq (hfresh q), fun q hq => absurd hq (List.not_mem_nil q)⟩

theorem loopGather_sameObjects (db : KeyFrameDatabase) (m : Memory) (pKF : KeyFramePtr) :
    m.SameObjects (loopGather db m pKF).1 := by
  unfold loopGather
  simp only []
  apply forEachSharing_induction (fun st : Memory × List KeyFramePtr => m.SameObjects st.1)
  · intro st p h
    split
    · exact Memory.sameObjects_trans h (tagUnlessConnected_sameObjects _ _ _ st p)
    · exact h
  · exact Memory.sameObjects_refl m

/-- C1. With a fresh query id (no keyframe carries a loop-query tag equal to the
id of `pKF` when the call starts), no keyframe returned by
`DetectLoopCandidates(pKF, minScore)` is in the connected set of `pKF`, whether
it is a scored keyframe or a representative promoted from the covisibility
neighbours of one. -/
theorem DetectLoopCandidates_excludes_connected (db : KeyFrameDatabase) (m : Memory)
    (pKF : KeyFramePtr) (minScore : ℚ)
    (hfresh : ∀ q, (m.kf q).mnLoopQuery ≠ ((m.kf pKF).mnId : Int)) :
    ∀ p ∈ (DetectLoopCandidates db m pKF minScore).1, p ∉ (m.kf pKF).mConnectedKeyFrames := by
  intro p hp
  obtain ⟨g1, g2⟩ := loopGather_not_connected db m pKF hfresh
  unfold DetectLoopCandidates at hp
  simp only [] at hp
  split at hp
  · exact absurd hp (List.not_mem_nil p)
  · split at hp
    · exact absurd hp (List.not_mem_nil p)
    · simp only [retain] at hp
      rcases retainFold_mem _ _ _ p hp with h | ⟨x, hx, hxp, _⟩
      · exact absurd h (List.not_mem_nil p)
      · obtain ⟨t1, t2⟩ := scoreFold_spec .loop db.mpVoc (m.kf pKF).mBowVec
          (loopMinCommonWords db m pKF) (fun si => decide (si ≥ minScore))
          (loopGather db m pKF).2 ((loopGather db m pKF).1, [])
        rcases accumulateFold_rep _ _ _ _ _ _ x hx with h | ⟨y, hy, h⟩
        · exact absurd h (List.not_mem_nil x)
        · rcases h with h | ⟨_, hq, _⟩
          · rcases t2 y hy with h' | ⟨hm, _⟩
            · exact absurd h' (List.not_mem_nil y)
            · rw [← hxp, h]; exact g2 _ hm
          · rw [← hxp]
            apply g1
            rw [← (t1.2 x.2 .loop).1]
            exact hq

/-- C10. If every keyframe that survives the common-word filter of
`DetectLoopCandidates(pKF, minScore)` has a similarity to `pKF` strictly below
`minScore`, the returned list is empty, whatever the covisibility neighbours
and their scores are. -/
theorem DetectLoopCandidates_empty_below_minScore (db : KeyFrameDatabase) (m : Memory)
    (pKF : KeyFramePtr) (minScore : ℚ)
    (hlow : ∀ p ∈ (loopGather db m pKF).2,
      ((loopGather db m pKF).1.kf p).nWords .loop > loopMinCommonWords db m pKF →
        db.mpVoc.score (m.kf pKF).mBowVec (m.kf p).mBowVec < minScore) :
    (DetectLoopCandidates db m pKF minScore).1 = [] := by
  have hs : (loopScore db m pKF minScore).2 = [] := by
    apply List.eq_nil_iff_forall_not_mem.mpr
    intro x hx
    obtain ⟨_, t2⟩ := scoreFold_spec .loop db.mpVoc (m.kf pKF).mBowVec
      (loopMinCommonWords db m pKF) (fun si => decide (si ≥ minScore))
      (loopGather db m pKF).2 ((loopGather db m pKF).1, [])
    rcases t2 x hx with h | ⟨hm, hsc, hk, hw⟩
    · exact absurd h (List.not_mem_nil x)
    · have hlt := hlow x.2 hm hw
      rw [← ((loopGather_sameObjects db m pKF).2 x.2).mBowVec, ← hsc] at hlt
      simp only [decide_eq_true_eq] at hk
      exact absurd hlt (not_lt.mpr hk)
  unfold DetectLoopCandidates
  simp only []
  split
  · rfl
  · rw [hs]; rfl

/-! ## `DetectNBestCandidates`: the final scan -/

theorem sizeT_le (n : Int) (hn : 0 ≤ n) : (sizeT n : Int) ≤ n := by
  unfold sizeT
  have h2 : (2 : Int) ^ 64 = 18446744073709551616 := by norm_num
  rw [h2]
  omega

theorem scanBody_lengths (m : Memory) (pMap : MapPtr) (l : List (ℚ × KeyFramePtr)) (n : Int)
    (N : Nat) (hN : sizeT n ≤ N) (s : ScanState)
    (h : s.vpLoopCand.length ≤ N ∧ s.vpMergeCand.length ≤ N) :
    (scanBody m pMap l n s).vpLoopCand.length ≤ N ∧
      (scanBody m pMap l n s).vpMergeCand.length ≤ N := by
  unfold scanBody
  split
  · exact h
  · split
    · exact h
    · simp only []
      split
      · split
        · rename_i hc
          simp only [List.length_append, List.length_singleton]
          exact ⟨by have := hc.2; omega, h.2⟩
        · split
          · rename_i hc
            simp only [List.length_append, List.length_singleton]
            exact ⟨h.1, by have := hc.2.1; omega⟩
          · exact h
      · exact h

theorem scanRun_lengths (m : Memory) (pMap : MapPtr) (l : List (ℚ × KeyFramePtr)) (n : Int)
    (N : Nat) (hN : sizeT n ≤ N) :
    ∀ (steps : Nat) (s : ScanState), s.vpLoopCand.length ≤ N ∧ s.vpMergeCand.length ≤ N →
      (scanRun m pMap l n steps s).vpLoopCand.length ≤ N ∧
        (scanRun m pMap l n steps s).vpMergeCand.length ≤ N := by
  intro steps
  induction steps with
  | zero => intro s h; exact h
  | succ k ih =>
    intro s h
    unfold scanRun
    split
    · exact ih _ (scanBody_lengths m pMap l n N hN s h)
    · exact h

theorem get?_split (l : List (ℚ × KeyFramePtr)) :
    ∀ (i : Nat) (x : ℚ × KeyFramePtr), l.get? i = some x →
      l.take (i + 1) = l.take i ++ [x] ∧ l = l.take i ++ x :: l.drop (i + 1) := by
  induction l with
  | nil => intro i x h; simp at h
  | cons a l ih =>
    intro i x h
    cases i with
    | zero =>
      simp only [List.get?_cons_zero, Option.some.injEq] at h
      subst h
      simp
    | succ j =>
      simp only [List.get?_cons_succ] at h
      obtain ⟨h1, h2⟩ := ih j x h
      constructor
      · rw [List.take_succ_cons, h1]; rfl
      · rw [List.take_succ_cons, List.drop_succ_cons, List.cons_append, ← h2]

theorem introducingScore_append (pre suf : List (ℚ × KeyFramePtr)) (x : ℚ × KeyFramePtr)
    (h : ∀ y ∈ pre, y.2 ≠ x.2) : introducingScore (pre ++ x :: suf) x.2 = some x.1 := by
  unfold introducingScore
  have hnone : pre.find? (fun y => decide (y.2 = x.2)) = none := by
    rw [List.find?_eq_none]
    intro y hy
    simpa using h y hy
  rw [List.find?_append, hnone]
  simp [List.find?_cons]

theorem scanBody_sorted (m : Memory) (pMap : MapPtr) (l : List (ℚ × KeyFramePtr)) (n : Int)
    (hl : l.Pairwise (fun a b => b.1 ≤ a.1)) (s : ScanState)
    (h2 : ∀ x ∈ l.take s.i, x.2 ∈ s.spAlreadyAddedKF)
    (h3 : ∀ A ∈ s.vpLoopCand, ∃ y ∈ l.take s.i, introducingScore l A = some y.1)
    (h4 : s.vpLoopCand.Pairwise (IntroducedBefore l)) :
    (∀ x ∈ l.take (scanBody m pMap l n s).i, x.2 ∈ (scanBody m pMap l n s).spAlreadyAddedKF) ∧
      (∀ A ∈ (scanBody m pMap l n s).vpLoopCand,
        ∃ y ∈ l.take (scanBody m pMap l n s).i, introducingScore l A = some y.1) ∧
      (scanBody m pMap l n s).vpLoopCand.Pairwise (IntroducedBefore l) := by
  unfold scanBody
  split
  · exact ⟨h2, h3, h4⟩
  · rename_i it hit
    obtain ⟨t1, t2⟩ := get?_split l s.i it hit
    have hsub : ∀ y ∈ l.take s.i, y ∈ l.take s.i ++ [it] := fun y hy =>
      List.mem_append_left _ hy
    split
    · exact ⟨h2, h3, h4⟩
    · simp only []
      by_cases hnew : it.2 ∉ s.spAlreadyAddedKF
      · rw [if_pos hnew]
        have hintro : introducingScore l it.2 = some it.1 := by
          rw [t2]
          apply introducingScore_append
          intro y hy e
          exact hnew (e ▸ h2 y hy)
        have hle : ∀ y ∈ l.take s.i, it.1 ≤ y.1 := by
          intro y hy
          rw [t2, List.pairwise_append] at hl
          exact hl.2.2 y hy it (List.mem_cons_self _ _)
        have hpush : (∀ A ∈ s.vpLoopCand ++ [it.2],
              ∃ y ∈ l.take s.i ++ [it], introducingScore l A = some y.1) ∧
            (s.vpLoopCand ++ [it.2]).Pairwise (IntroducedBefore l) := by
          constructor
          · intro A hA
            rcases List.mem_append.mp hA with h | h
            · obtain ⟨y, hy, e⟩ := h3 A h
              exact ⟨y, hsub y hy, e⟩
            · rw [List.mem_singleton] at h
              subst h
              exact ⟨it, List.mem_append_right _ (List.mem_singleton_self _), hintro⟩
          · rw [List.pairwise_append]
            refine ⟨h4, List.pairwise_singleton _ _, ?_⟩
            intro A hA B hB
            rw [List.mem_singleton] at hB
            subst hB
            obtain ⟨y, hy, e⟩ := h3 A hA
            exact ⟨y.1, it.1, e, hintro, hle y hy⟩
        have hkeep : ∀ A ∈ s.vpLoopCand,
            ∃ y ∈ l.take s.i ++ [it], introducingScore l A = some y.1 := by
          intro A hA
          obtain ⟨y, hy, e⟩ := h3 A hA
          exact ⟨y, hsub y hy, e⟩
        have hsp : ∀ x ∈ l.take s.i ++ [it], x.2 ∈ it.2 :: s.spAlreadyAddedKF := by
          intro x hx
          rcases List.mem_append.mp hx with h | h
          · exact List.mem_cons_of_mem _ (h2 x h)
          · rw [List.mem_singleton] at h
            subst h
            exact List.mem_cons_self _ _
        split
        · simp only [t1]
          exact ⟨hsp, hpush.1, hpush.2⟩
        · split
          · simp only [t1]
            exact ⟨hsp, hkeep, h4⟩
          · simp only [t1]
            exact ⟨hsp, hkeep, h4⟩
      · rw [if_neg hnew]
        simp only [t1]
        refine ⟨?_, ?_, h4⟩
        · intro x hx
          rcases List.mem_append.mp hx with h | h
          · exact h2 x h
          · rw [List.mem_singleton] at h
            subst h
            exact not_not.mp hnew
        · intro A hA
          obtain ⟨y, hy, e⟩ := h3 A hA
          exact ⟨y, hsub y hy, e⟩

theorem scanRun_sorted (m : Memory) (pMap : MapPtr) (l : List (ℚ × KeyFramePtr)) (n : Int)
    (hl : l.Pairwise (fun a b => b.1 ≤ a.1)) :
    ∀ (steps : Nat) (s : ScanState),
      (∀ x ∈ l.take s.i, x.2 ∈ s.spAlreadyAddedKF) →
      (∀ A ∈ s.vpLoopCand, ∃ y ∈ l.take s.i, introducingScore l A = some y.1) →
      s.vpLoopCand.Pairwise (IntroducedBefore l) →
      (scanRun m pMap l n steps s).vpLoopCand.Pairwise (IntroducedBefore l) := by
  intro steps
  induction steps with
  | zero => intro s _ _ h; exact h
  | succ k ih =>
    intro s h2 h3 h4
    unfold scanRun
    split
    · obtain ⟨b2, b3, b4⟩ := scanBody_sorted m pMap l n hl s h2 h3 h4
      exact ih _ b2 b3 b4
    · exact h4

theorem listSort_compFirst_sorted (l : List (ℚ × KeyFramePtr)) :
    (listSort compFirst l).Pairwise (fun a b => b.1 ≤ a.1) := by
  unfold listSort
  haveI : IsTotal (ℚ × KeyFramePtr) (fun a b => compFirst b a = false) :=
    ⟨fun a b => by
      simp only [compFirst, decide_eq_false_iff_not, not_lt, gt_iff_lt]
      exact le_total _ _⟩
  haveI : IsTrans (ℚ × KeyFramePtr) (fun a b => compFirst b a = false) :=
    ⟨fun a b c => by
      simp only [compFirst, decide_eq_false_iff_not, not_lt, gt_iff_lt]
      exact fun h1 h2 => le_trans h2 h1⟩
  have h := List.sorted_insertionSort (fun a b : ℚ × KeyFramePtr => compFirst b a = false) l
  refine List.Pairwise.imp ?_ h
  intro a b hab
  simpa [compFirst] using hab

/-- C4. With both output vectors empty on entry and `nNumCandidates ≥ 0`, the
loop vector and the merge vector of `DetectNBestCandidates` hold at most
`nNumCandidates` keyframes each, after any number of iterations of the final
loop and therefore when the method returns. -/
theorem DetectNBestCandidates_at_most_N (steps : Nat) (db : KeyFrameDatabase) (m : Memory)
    (pKF : KeyFramePtr) (nNumCandidates : Int) (hn : 0 ≤ nNumCandidates) :
    ((DetectNBestCandidates steps db m pKF [] [] nNumCandidates).vpLoopCand.length : Int)
        ≤ nNumCandidates ∧
      ((DetectNBestCandidates steps db m pKF [] [] nNumCandidates).vpMergeCand.length : Int)
        ≤ nNumCandidates := by
  have hN := sizeT_le nNumCandidates hn
  unfold DetectNBestCandidates
  simp only []
  split
  · exact ⟨by simpa using hn, by simpa using hn⟩
  · split
    · exact ⟨by simpa using hn, by simpa using hn⟩
    · rw [if_neg (not_lt.mpr hn)]
      have h := scanRun_lengths (nbestScore db m pKF).1 (m.kf pKF).mpMap (nbestSorted db m pKF)
        nNumCandidates (sizeT nNumCandidates) (Nat.le_refl _) steps
        { i := 0, vpLoopCand := [], vpMergeCand := [], spAlreadyAddedKF := [] }
        ⟨Nat.zero_le _, Nat.zero_le _⟩
      simp only []
      constructor
      · have := h.1; omega
      · have := h.2; omega

/-- C5. With both output vectors empty on entry, the loop vector of
`DetectNBestCandidates` is sorted by descending accumulated score, after any
number of iterations of the final loop and therefore when the method returns:
if `A` precedes `B` in it, the tuple that introduced `A` has an accumulated
score greater than or equal to that of the tuple that introduced `B`. -/
theorem DetectNBestCandidates_loop_sorted (steps : Nat) (db : KeyFrameDatabase) (m : Memory)
    (pKF : KeyFramePtr) (nNumCandidates : Int) :
    (DetectNBestCandidates steps db m pKF [] [] nNumCandidates).vpLoopCand.Pairwise
      (IntroducedBefore (nbestSorted db m pKF)) := by
  unfold DetectNBestCandidates
  simp only []
  split
  · exact List.Pairwise.nil
  · split
    · exact List.Pairwise.nil
    · split
      · exact List.Pairwise.nil
      · have hl : (nbestSorted db m pKF).Pairwise (fun a b => b.1 ≤ a.1) := by
          unfold nbestSorted
          exact listSort_compFirst_sorted _
        exact scanRun_sorted (nbestScore db m pKF).1 (m.kf pKF).mpMap (nbestSorted db m pKF)
          nNumCandidates hl steps
          { i := 0, vpLoopCand := [], vpMergeCand := [], spAlreadyAddedKF := [] }
          (by intro x hx; simp at hx) (by intro A hA; simp at hA) List.Pairwise.nil

/-- While the scan stands on a tuple whose representative is bad, an iteration
changes nothing. -/
theorem scanRun_stuck (m : Memory) (pMap : MapPtr) (l : List (ℚ × KeyFramePtr)) (n : Int)
    (s : ScanState) (hbody : scanBody m pMap l n s = s) :
    ∀ steps, scanRun m pMap l n steps s = s := by
  intro steps
  induction steps with
  | zero => rfl
  | succ k ih =>
    unfold scanRun
    split
    · rw [hbody]; exact ih
    · rfl

/-- C6, the code at the failing input. In the index holding only `K3`, with `K3` flagged
bad, `DetectNBestCandidates(K1, 1)` has not returned (nor thrown) after any
number of iterations of its final loop: the scan stays on the first tuple. -/
theorem DetectNBestCandidates_scan_never_ends (steps : Nat) :
    (DetectNBestCandidates steps sampleDb3 (sampleMemory [] true) 1 [] [] 1).returned = false ∧
      (DetectNBestCandidates steps sampleDb3 (sampleMemory [] true) 1 [] [] 1).threw = false := by
  have hg : (nbestGather sampleDb3 (sampleMemory [] true) 1).2.isEmpty = false := by decide!
  have hs : (nbestScore sampleDb3 (sampleMemory [] true) 1).2.isEmpty = false := by decide!
  have hbody : scanBody (nbestScore sampleDb3 (sampleMemory [] true) 1).1
      ((sampleMemory [] true).kf 1).mpMap (nbestSorted sampleDb3 (sampleMemory [] true) 1) 1
      { i := 0, vpLoopCand := [], vpMergeCand := [], spAlreadyAddedKF := [] } =
      { i := 0, vpLoopCand := [], vpMergeCand := [], spAlreadyAddedKF := [] } := by decide!
  have hcond : scanCond (nbestSorted sampleDb3 (sampleMemory [] true) 1) 1
      { i := 0, vpLoopCand := [], vpMergeCand := [], spAlreadyAddedKF := [] } = true := by decide!
  have hN : ¬ ((1 : Int) < 0) := by decide
  unfold DetectNBestCandidates
  simp only [hg, hs, Bool.false_eq_true, if_false, if_neg hN]
  rw [scanRun_stuck _ _ _ _ _ hbody steps, hcond]
  exact ⟨rfl, trivial⟩

/-! ## Queries without a sharing keyframe -/

theorem tagUnlessConnected_connected (sc : Scratch) (id : Nat) (conn : List KeyFramePtr)
    (st : Memory × List KeyFramePtr) (p : KeyFramePtr) (hp : p ∈ conn) :
    (tagUnlessConnected sc id conn st p).2 = st.2 := by
  unfold tagUnlessConnected
  by_cases h1 : (st.1.kf p).query sc ≠ (id : Int)
  · simp only [if_pos h1, if_neg (not_not.mpr hp)]
  · simp only [if_neg h1]

theorem loopGather_empty (db : KeyFrameDatabase) (m : Memory) (pKF : KeyFramePtr)
    (hK : ∀ w ∈ (m.kf pKF).mBowVec.words, ∀ p ∈ db.slot w, p ∈ (m.kf pKF).mConnectedKeyFrames) :
    (loopGather db m pKF).2 = [] := by
  unfold loopGather
  simp only []
  apply forEachSharing_induction_mem (fun st : Memory × List KeyFramePtr => st.2 = [])
  · intro st p ⟨w, hw, hp⟩ h
    split
    · rw [tagUnlessConnected_connected _ _ _ _ _ (hK w hw p hp)]; exact h
    · exact h
  · rfl

theorem candidatesGather_empty (db : KeyFrameDatabase) (m : Memory) (pKF : KeyFramePtr)
    (hK : ∀ w ∈ (m.kf pKF).mBowVec.words, ∀ p ∈ db.slot w, p ∈ (m.kf pKF).mConnectedKeyFrames) :
    (candidatesGather db m pKF).2.1 = [] ∧ (candidatesGather db m pKF).2.2 = [] := by
  unfold candidatesGather
  apply forEachSharing_induction_mem
    (fun st : Memory × List KeyFramePtr × List KeyFramePtr => st.2.1 = [] ∧ st.2.2 = [])
  · intro st p ⟨w, hw, hp⟩ h
    unfold candidatesVisit
    split
    · simp only []
      rw [tagUnlessConnected_connected _ _ _ _ _ (hK w hw p hp)]
      exact h
    · split
      · simp only []
        rw [tagUnlessConnected_connected _ _ _ _ _ (hK w hw p hp)]
        exact h
      · exact h
  · exact ⟨rfl, rfl⟩

theorem bestGather_empty (db : KeyFrameDatabase) (m : Memory) (pKF : KeyFramePtr)
    (hK : ∀ w ∈ (m.kf pKF).mBowVec.words, ∀ p ∈ db.slot w, p ∈ (m.kf pKF).mConnectedKeyFrames) :
    (bestGather db m pKF).2 = [] := by
  unfold bestGather
  simp only []
  apply forEachSharing_induction_mem (fun st : Memory × List KeyFramePtr => st.2 = [])
  · intro st p ⟨w, hw, hp⟩ h
    rw [if_pos (hK w hw p hp)]
    exact h
  · rfl

theorem nbestGather_empty (db : KeyFrameDatabase) (m : Memory) (pKF : KeyFramePtr)
    (hK : ∀ w ∈ (m.kf pKF).mBowVec.words, ∀ p ∈ db.slot w, p ∈ (m.kf pKF).mConnectedKeyFrames) :
    (nbestGather db m pKF).2 = [] := by
  unfold nbestGather
  apply forEachSharing_induction_mem (fun st : Memory × List KeyFramePtr => st.2 = [])
  · intro st p ⟨w, hw, hp⟩ h
    rw [tagUnlessConnected_connected _ _ _ _ _ (hK w hw p hp)]
    exact h
  · rfl

theorem relocGather_empty (db : KeyFrameDatabase) (m : Memory) (F : Frame)
    (hF : ∀ w ∈ F.mBowVec.words, db.slot w = []) :
    (relocGather db m F).2 = [] := by
  unfold relocGather
  apply forEachSharing_induction_mem (fun st : Memory × List KeyFramePtr => st.2 = [])
  · intro st p ⟨w, hw, hp⟩ _
    have := hF w hw
    unfold KeyFrameDatabase.slot at this
    rw [this] at hp
    exact absurd hp (List.not_mem_nil p)
  · rfl

/-- C9. If every keyframe stored in the slot of a word of the query keyframe's
signature is excluded (is in its connected set) - in particular if the signature
is empty or those slots are empty - then `DetectLoopCandidates` returns the
empty vector and `DetectCandidates`, `DetectBestCandidates` and
`DetectNBestCandidates`, entered with empty output vectors, return with both
still empty; and if the slots of all words of a frame's signature are empty
(no keyframe is excluded for a frame), `DetectRelocalizationCandidates` returns
the empty vector. -/
theorem queries_empty_without_sharing (steps : Nat) (db : KeyFrameDatabase) (m : Memory)
    (pKF : KeyFramePtr) (F : Frame) (pMap : MapPtr) (minScore : ℚ)
    (nMinWords nNumCandidates : Int)
    (hK : ∀ w ∈ (m.kf pKF).mBowVec.words, ∀ p ∈ db.slot w, p ∈ (m.kf pKF).mConnectedKeyFrames)
    (hF : ∀ w ∈ F.mBowVec.words, db.slot w = []) :
    (DetectLoopCandidates db m pKF minScore).1 = [] ∧
      ((DetectCandidates db m pKF minScore [] []).1 = [] ∧
        (DetectCandidates db m pKF minScore [] []).2.1 = []) ∧
      ((DetectBestCandidates db m pKF [] [] nMinWords).1 = [] ∧
        (DetectBestCandidates db m pKF [] [] nMinWords).2.1 = []) ∧
      ((DetectNBestCandidates steps db m pKF [] [] nNumCandidates).vpLoopCand = [] ∧
        (DetectNBestCandidates steps db m pKF [] [] nNumCandidates).vpMergeCand = [] ∧
        (DetectNBestCandidates steps db m pKF [] [] nNumCandidates).returned = true) ∧
      (DetectRelocalizationCandidates db m F pMap).1 = [] := by
  refine ⟨?_, ?_, ?_, ?_, ?_⟩
  · unfold DetectLoopCandidates
    simp [loopGather_empty db m pKF hK]
  · obtain ⟨h1, h2⟩ := candidatesGather_empty db m pKF hK
    unfold DetectCandidates
    simp [h1, h2]
  · unfold DetectBestCandidates
    simp [bestGather_empty db m pKF hK]
  · unfold DetectNBestCandidates
    simp [nbestGather_empty db m pKF hK]
  · unfold DetectRelocalizationCandidates
    simp [relocGather_empty db m F hF]

/-! ## The scan returns when it meets no bad keyframe -/

theorem scanBody_advances (m : Memory) (pMap : MapPtr) (l : List (ℚ × KeyFramePtr)) (n : Int)
    (hgood : ∀ x ∈ l, (m.kf x.2).mbBad = false) (s : ScanState) (hi : s.i < l.length) :
    (scanBody m pMap l n s).i = s.i + 1 := by
  unfold scanBody
  have hget : l.get? s.i = some (l.get ⟨s.i, hi⟩) := List.get?_eq_get hi
  rw [hget]
  simp only []
  have hb : (m.kf (l.get ⟨s.i, hi⟩).2).mbBad = false := hgood _ (List.get_mem _ _ _)
  rw [hb]
  simp only [Bool.false_eq_true, if_false]
  split
  · split
    · rfl
    · split <;> rfl
  · rfl

theorem scanRun_returns (m : Memory) (pMap : MapPtr) (l : List (ℚ × KeyFramePtr)) (n : Int)
    (hgood : ∀ x ∈ l, (m.kf x.2).mbBad = false) :
    ∀ (steps : Nat) (s : ScanState), l.length ≤ s.i + steps →
      scanCond l n (scanRun m pMap l n steps s) = false := by
  intro steps
  induction steps with
  | zero =>
    intro s h
    unfold scanRun scanCond
    have : ¬ s.i < l.length := by omega
    simp [this]
  | succ k ih =>
    intro s h
    unfold scanRun
    by_cases hc : scanCond l n s = true
    · rw [if_pos hc]
      have hi : s.i < l.length := by
        unfold scanCond at hc
        simp only [Bool.and_eq_true, decide_eq_true_eq] at hc
        exact hc.1
      apply ih
      rw [scanBody_advances m pMap l n hgood s hi]
      omega
    · rw [if_neg hc]
      exact Bool.not_eq_true _ ▸ hc

/-- When no keyframe is flagged bad and `nNumCandidates` is not negative,
`DetectNBestCandidates` returns: its final loop ends within as many iterations
as there are accumulated tuples. -/
theorem DetectNBestCandidates_returns (db : KeyFrameDatabase) (m : Memory) (pKF : KeyFramePtr)
    (vpLoopCand vpMergeCand : List KeyFramePtr) (nNumCandidates : Int)
    (hN : 0 ≤ nNumCandidates) (hgood : ∀ p, (m.kf p).mbBad = false) :
    (DetectNBestCandidates (nbestSorted db m pKF).length db m pKF vpLoopCand vpMergeCand
      nNumCandidates).returned = true := by
  have hg : m.SameObjects (nbestGather db m pKF).1 := by
    unfold nbestGather
    apply forEachSharing_induction (fun st : Memory × List KeyFramePtr => m.SameObjects st.1)
    · intro st p h
      exact Memory.sameObjects_trans h (tagUnlessConnected_sameObjects _ _ _ st p)
    · exact Memory.sameObjects_refl m
  have hs : m.SameObjects (nbestScore db m pKF).1 := by
    unfold nbestScore
    exact Memory.sameObjects_trans hg (scoreFold_spec _ _ _ _ _ _ _).1.1
  unfold DetectNBestCandidates
  simp only []
  split
  · rfl
  · split
    · rfl
    · rw [if_neg (not_lt.mpr hN)]
      simp only [Bool.not_eq_true']
      apply scanRun_returns
      · intro x _
        rw [(hs.2 x.2).mbBad]
        exact hgood _
      · simp

/-! ## The claims at concrete inputs -/

theorem sampleMemory_fresh (connected1 : List KeyFramePtr) (bad3 : Bool) (id : Nat) :
    ∀ q, ((sampleMemory connected1 bad3).kf q).mnLoopQuery ≠ (id : Int) := by
  intro q
  simp only [sampleMemory]
  split_ifs <;> simp only [sampleKeyFrame] <;> omega

theorem DetectLoopCandidates_excludes_connected_witness :
    (∀ q, ((sampleMemory [2] false).kf q).mnLoopQuery ≠
        (((sampleMemory [2] false).kf 1).mnId : Int)) ∧
      (∀ p ∈ (DetectLoopCandidates sampleDb (sampleMemory [2] false) 1 0).1,
        p ∉ ((sampleMemory [2] false).kf 1).mConnectedKeyFrames) :=
  ⟨sampleMemory_fresh [2] false _,
    DetectLoopCandidates_excludes_connected sampleDb (sampleMemory [2] false) 1 0
      (sampleMemory_fresh [2] false _)⟩

theorem DetectNBestCandidates_at_most_N_witness :
    (0 : Int) ≤ 1 ∧
      ((DetectNBestCandidates 5 sampleDb (sampleMemory [] false) 1 [] [] 1).vpLoopCand.length
          : Int) ≤ 1 ∧
      ((DetectNBestCandidates 5 sampleDb (sampleMemory [] false) 1 [] [] 1).vpMergeCand.length
          : Int) ≤ 1 :=
  ⟨by decide, DetectNBestCandidates_at_most_N 5 sampleDb (sampleMemory [] false) 1 1 (by decide)⟩

theorem queries_empty_without_sharing_witness :
    (∀ w ∈ ((sampleMemory [2, 3] false).kf 1).mBowVec.words, ∀ p ∈ sampleDb.slot w,
        p ∈ ((sampleMemory [2, 3] false).kf 1).mConnectedKeyFrames) ∧
      (∀ w ∈ sampleFrame.mBowVec.words, sampleDb.slot w = []) ∧
      ((DetectLoopCandidates sampleDb (sampleMemory [2, 3] false) 1 0).1 = [] ∧
        ((DetectCandidates sampleDb (sampleMemory [2, 3] false) 1 0 [] []).1 = [] ∧
          (DetectCandidates sampleDb (sampleMemory [2, 3] false) 1 0 [] []).2.1 = []) ∧
        ((DetectBestCandidates sampleDb (sampleMemory [2, 3] false) 1 [] [] 0).1 = [] ∧
          (DetectBestCandidates sampleDb (sampleMemory [2, 3] false) 1 [] [] 0).2.1 = []) ∧
        ((DetectNBestCandidates 5 sampleDb (sampleMemory [2, 3] false) 1 [] [] 3).vpLoopCand = [] ∧
          (DetectNBestCandidates 5 sampleDb (sampleMemory [2, 3] false) 1 [] [] 3).vpMergeCand
            = [] ∧
          (DetectNBestCandidates 5 sampleDb (sampleMemory [2, 3] false) 1 [] [] 3).returned
            = true) ∧
        (DetectRelocalizationCandidates sampleDb (sampleMemory [2, 3] false) sampleFrame 0).1
          = []) :=
  ⟨by decide, by decide,
    queries_empty_without_sharing 5 sampleDb (sampleMemory [2, 3] false) 1 sampleFrame 0 0 0 3
      (by decide) (by decide)⟩

theorem DetectLoopCandidates_empty_below_minScore_witness :
    (∀ p ∈ (loopGather sampleDb (sampleMemory [2] false) 1).2,
        ((loopGather sampleDb (sampleMemory [2] false) 1).1.kf p).nWords .loop >
            loopMinCommonWords sampleDb (sampleMemory [2] false) 1 →
          sampleDb.mpVoc.score ((sampleMemory [2] false).kf 1).mBowVec
            ((sampleMemory [2] false).kf p).mBowVec < 9 / 10) ∧
      (DetectLoopCandidates sampleDb (sampleMemory [2] false) 1 (9 / 10)).1 = [] :=
  ⟨by decide!,
    DetectLoopCandidates_empty_below_minScore sampleDb (sampleMemory [2] false) 1 (9 / 10)
      (by decide!)⟩

/-! ## Non-positive word floor, unknown keyframes, vocabulary swap, persistence -/

theorem minCommonWords_nonneg (x : Int) : 0 ≤ minCommonWords x := by
  unfold minCommonWords
  exact Int.ofNat_nonneg _

/-- The caller's word floor of `DetectBestCandidates` has no effect unless it
exceeds `(int)(maxCommonWords*0.8f)`. -/
theorem DetectBestCandidates_floor_inactive (db : KeyFrameDatabase) (m : Memory)
    (pKF : KeyFramePtr) (vpLoopCand vpMergeCand : List KeyFramePtr) (nMinWords : Int)
    (h : nMinWords ≤ minCommonWords
      (maxCommonWords .placeRecognition (bestGather db m pKF).1 (bestGather db m pKF).2)) :
    DetectBestCandidates db m pKF vpLoopCand vpMergeCand nMinWords =
      DetectBestCandidates db m pKF vpLoopCand vpMergeCand 0 := by
  have h1 : ¬ minCommonWords
      (maxCommonWords .placeRecognition (bestGather db m pKF).1 (bestGather db m pKF).2)
        < nMinWords := not_lt.mpr h
  have h0 : ¬ minCommonWords
      (maxCommonWords .placeRecognition (bestGather db m pKF).1 (bestGather db m pKF).2)
        < 0 := not_lt.mpr (minCommonWords_nonneg _)
  unfold DetectBestCandidates
  simp only [if_neg h1, if_neg h0]

theorem set_getD_self (inv : List (List KeyFramePtr)) :
    ∀ i : Nat, inv.set i (inv.getD i []) = inv := by
  induction inv with
  | nil => intro i; rfl
  | cons a l ih =>
    intro i
    cases i with
    | zero => rfl
    | succ j =>
      have := ih j
      simp only [List.getD_eq_getElem?_getD] at this
      simp only [List.set_cons_succ, List.getD_eq_getElem?_getD, List.getElem?_cons_succ, this]

theorem slot_mem_or_nil (inv : List (List KeyFramePtr)) (w : Nat) :
    inv.getD w [] ∈ inv ∨ inv.getD w [] = [] := by
  by_cases h : w < inv.length
  · exact Or.inl ((mem_iff_getD inv _).mpr ⟨w, h, rfl⟩)
  · right
    simp only [List.getD_eq_getElem?_getD]
    rw [List.getElem?_eq_none (Nat.le_of_not_lt h)]
    rfl

theorem foldl_eraseWord_absent (p : KeyFramePtr) (es : List (WordId × ℚ))
    (inv : List (List KeyFramePtr)) (h : ∀ l ∈ inv, p ∉ l) :
    es.foldl (eraseWord p) inv = inv := by
  induction es with
  | nil => rfl
  | cons e es ih =>
    rw [List.foldl_cons]
    have he : eraseWord p inv e = inv := by
      unfold eraseWord
      have hnot : p ∉ inv.getD e.1 [] := by
        rcases slot_mem_or_nil inv e.1 with h1 | h1
        · exact h _ h1
        · rw [h1]; exact List.not_mem_nil p
      rw [eraseFirst_of_not_mem p _ hnot]
      exact set_getD_self inv e.1
    rw [he]
    exact ih

/-- C16. For a keyframe that occurs in no slot, `erase` changes nothing: the
database it leaves is the database it was given, slot by slot and in the same
order. -/
theorem erase_absent_is_noop (db : KeyFrameDatabase) (m : Memory) (pKF : KeyFramePtr)
    (habsent : ∀ l ∈ db.mvInvertedFile, pKF ∉ l) :
    erase db m pKF = db := by
  unfold erase
  rw [foldl_eraseWord_absent pKF _ _ habsent]

theorem erase_absent_is_noop_witness :
    (∀ l ∈ sampleDb.mvInvertedFile, 1 ∉ l) ∧ erase sampleDb (sampleMemory [] false) 1 = sampleDb :=
  ⟨by decide, erase_absent_is_noop sampleDb (sampleMemory [] false) 1 (by decide)⟩

/-- C17. `SetORBVocabulary(V, true)` leaves exactly `V.size()` slots, all empty;
`SetORBVocabulary(V, false)` leaves the slot array as it was, whatever the size
of `V`; both install `V` as the vocabulary. -/
theorem SetORBVocabulary_slots (db : KeyFrameDatabase) (V : ORBVocabulary) :
    ((SetORBVocabulary db V true).mvInvertedFile.length = V.size ∧
        (∀ l ∈ (SetORBVocabulary db V true).mvInvertedFile, l = []) ∧
        (SetORBVocabulary db V true).mpVoc = V) ∧
      ((SetORBVocabulary db V false).mvInvertedFile = db.mvInvertedFile ∧
        (SetORBVocabulary db V false).mpVoc = V) := by
  refine ⟨⟨?_, ?_, rfl⟩, rfl, rfl⟩
  · simp [SetORBVocabulary, vectorResize]
  · intro l hl
    simp only [SetORBVocabulary, vectorResize, if_true, List.take_nil, List.nil_append,
      List.length_nil] at hl
    exact (List.mem_replicate.mp hl).2

/-- C18. Round trip: when the loading context resolves every stored id to a
keyframe with that id, the index restored from the serialized index serializes
to the same blob - for every word slot the identical ordered sequence of
keyframe ids - and has the same number of slots. -/
theorem serialize_round_trip (db : KeyFrameDatabase) (m m' : Memory) (voc : ORBVocabulary)
    (resolve : Nat → KeyFramePtr)
    (hresolve : ∀ l ∈ db.mvInvertedFile, ∀ p ∈ l,
      (m'.kf (resolve (m.kf p).mnId)).mnId = (m.kf p).mnId) :
    serialize (deserialize (serialize db m) voc resolve) m' = serialize db m ∧
      (deserialize (serialize db m) voc resolve).mvInvertedFile.length =
        db.mvInvertedFile.length := by
  constructor
  · unfold serialize deserialize
    simp only [List.map_map]
    apply List.map_congr_left
    intro l hl
    simp only [Function.comp, List.map_map]
    apply List.map_congr_left
    intro p hp
    exact hresolve l hl p hp
  · simp [serialize, deserialize]

theorem serialize_round_trip_witness :
    (∀ l ∈ sampleDb.mvInvertedFile, ∀ p ∈ l,
        ((sampleMemory [] false).kf ((fun i => i) ((sampleMemory [] false).kf p).mnId)).mnId =
          ((sampleMemory [] false).kf p).mnId) ∧
      (serialize (deserialize (serialize sampleDb (sampleMemory [] false)) sampleVoc
          (fun i => i)) (sampleMemory [] false) = serialize sampleDb (sampleMemory [] false) ∧
        (deserialize (serialize sampleDb (sampleMemory [] false)) sampleVoc
          (fun i => i)).mvInvertedFile.length = sampleDb.mvInvertedFile.length) :=
  ⟨by decide,
    serialize_round_trip sampleDb (sampleMemory [] false) (sampleMemory [] false) sampleVoc
      (fun i => i) (by decide)⟩

/-! ## Locking: which methods hold the mutex -/

theorem heldAtEveryAccess_block (n : List (WordId × ℚ)) :
    heldAtEveryAccess true (n.map (fun _ => LockEvent.slots) ++ [LockEvent.unlock]) = true := by
  induction n with
  | nil => rfl
  | cons a l ih =>
    simp only [List.map_cons, List.cons_append, heldAtEveryAccess, Bool.true_and]
    exact ih

theorem heldAtEveryAccess_slots (n : List (List KeyFramePtr)) :
    heldAtEveryAccess true (n.map (fun _ => LockEvent.slots) ++ [LockEvent.unlock]) = true := by
  induction n with
  | nil => rfl
  | cons a l ih =>
    simp only [List.map_cons, List.cons_append, heldAtEveryAccess, Bool.true_and]
    exact ih

/-- The methods `add`, `erase`, `clearMap` and the gather phase of every query
access the slot array only while holding the mutex. -/
theorem locked_methods_hold_mutex (db : KeyFrameDatabase) (v : BowVector) :
    heldAtEveryAccess false (addEvents v) = true ∧
      heldAtEveryAccess false (clearMapEvents db) = true ∧
      heldAtEveryAccess false (gatherEvents v) = true := by
  refine ⟨?_, ?_, ?_⟩
  · simp only [addEvents, List.append_assoc, List.singleton_append, heldAtEveryAccess]
    exact heldAtEveryAccess_block _
  · simp only [clearMapEvents, List.append_assoc, List.singleton_append, heldAtEveryAccess]
    exact heldAtEveryAccess_slots _
  · simp only [gatherEvents, List.append_assoc, List.singleton_append, heldAtEveryAccess]
    exact heldAtEveryAccess_block _

/-- C19, the code at the failing inputs. `clear()` and `SetORBVocabulary(V, true)` access the
slot array without the mutex, and so does the closing tag-reset loop of
`DetectCandidates` (here for the query `K1` on the index holding `K2` and `K3`). -/
theorem slot_array_accessed_without_mutex :
    heldAtEveryAccess false clearEvents = false ∧
      heldAtEveryAccess false (setVocabularyEvents true) = false ∧
      heldAtEveryAccess false (detectCandidatesEvents sampleDb (sampleMemory [] false) 1)
        = false := by
  refine ⟨by decide, by decide, by decide!⟩

/-! ## `DetectRelocalizationCandidates`: only the requested map, no duplicates -/

theorem relocGather_sameObjects (db : KeyFrameDatabase) (m : Memory) (F : Frame) :
    m.SameObjects (relocGather db m F).1 := by
  unfold relocGather
  apply forEachSharing_induction (fun st : Memory × List KeyFramePtr => m.SameObjects st.1)
  · intro st p h
    exact Memory.sameObjects_trans h (tagAlways_sameObjects _ _ st p)
  · exact Memory.sameObjects_refl m

theorem relocRetainFold_spec (m : Memory) (pMap : MapPtr) (thr : ℚ)
    (l : List (ℚ × KeyFramePtr)) :
    ∀ st : List KeyFramePtr × List KeyFramePtr,
      (st.1.Nodup ∧ (∀ p ∈ st.1, p ∈ st.2) ∧ ∀ p ∈ st.1, (m.kf p).mpMap = pMap) →
      ((l.foldl (relocRetainOne m pMap thr) st).1.Nodup ∧
        (∀ p ∈ (l.foldl (relocRetainOne m pMap thr) st).1,
          p ∈ (l.foldl (relocRetainOne m pMap thr) st).2) ∧
        ∀ p ∈ (l.foldl (relocRetainOne m pMap thr) st).1, (m.kf p).mpMap = pMap) := by
  induction l with
  | nil => intro st h; exact h
  | cons y l ih =>
    intro st ⟨h1, h2, h3⟩
    rw [List.foldl_cons]
    apply ih
    unfold relocRetainOne
    by_cases hthr : y.1 > thr
    · rw [if_pos hthr]
      by_cases hmap : (m.kf y.2).mpMap ≠ pMap
      · rw [if_pos hmap]; exact ⟨h1, h2, h3⟩
      · rw [if_neg hmap]
        by_cases hnew : y.2 ∉ st.2
        · rw [if_pos hnew]
          refine ⟨?_, ?_, ?_⟩
          · rw [List.nodup_append]
            refine ⟨h1, List.nodup_singleton _, ?_⟩
            intro a ha hb
            rw [List.mem_singleton] at hb
            subst hb
            exact hnew (h2 _ ha)
          · intro p hp
            rcases List.mem_append.mp hp with h | h
            · exact List.mem_cons_of_mem _ (h2 p h)
            · rw [List.mem_singleton] at h
              subst h
              exact List.mem_cons_self _ _
          · intro p hp
            rcases List.mem_append.mp hp with h | h
            · exact h3 p h
            · rw [List.mem_singleton] at h
              subst h
              exact not_not.mp hmap
        · rw [if_neg hnew]; exact ⟨h1, h2, h3⟩
    · rw [if_neg hthr]; exact ⟨h1, h2, h3⟩

/-- C13. Every keyframe returned by `DetectRelocalizationCandidates(F, pMap)`
has owning map `pMap`, and the returned vector holds no keyframe twice. -/
theorem DetectRelocalizationCandidates_map_and_nodup (db : KeyFrameDatabase) (m : Memory)
    (F : Frame) (pMap : MapPtr) :
    (∀ p ∈ (DetectRelocalizationCandidates db m F pMap).1, (m.kf p).mpMap = pMap) ∧
      (DetectRelocalizationCandidates db m F pMap).1.Nodup := by
  unfold DetectRelocalizationCandidates
  simp only []
  split
  · exact ⟨fun p hp => absurd hp (List.not_mem_nil p), List.nodup_nil⟩
  · split
    · exact ⟨fun p hp => absurd hp (List.not_mem_nil p), List.nodup_nil⟩
    · have hs := (scoreFold_spec .reloc db.mpVoc F.mBowVec
        (minCommonWords (maxCommonWords .reloc (relocGather db m F).1 (relocGather db m F).2))
        (fun _ => true) (relocGather db m F).2 ((relocGather db m F).1, [])).1.1
      have hm := Memory.sameObjects_trans (relocGather_sameObjects db m F) hs
      obtain ⟨r1, _, r3⟩ := relocRetainFold_spec _ pMap _ _ ([], [])
        ⟨List.nodup_nil, fun p hp => absurd hp (List.not_mem_nil p),
          fun p hp => absurd hp (List.not_mem_nil p)⟩
      refine ⟨fun p hp => ?_, r1⟩
      rw [← (hm.2 p).mpMap]
      exact r3 p hp

/-! ## `DetectCandidates`: the two buckets -/

/-- A visit by `tagUnlessConnected` writes a query tag on the visited keyframe
only, and records no other keyframe. -/
theorem tagUnlessConnected_tags_at (sc : Scratch) (id : Nat) (conn : List KeyFramePtr)
    (st : Memory × List KeyFramePtr) (p : KeyFramePtr) :
    (∀ q sc', ((tagUnlessConnected sc id conn st p).1.kf q).query sc' = (id : Int) →
        (st.1.kf q).query sc' = (id : Int) ∨ (q = p ∧ sc' = sc)) ∧
      (∀ q ∈ (tagUnlessConnected sc id conn st p).2, q ∈ st.2 ∨ q = p) := by
  unfold tagUnlessConnected
  have hcount : ∀ (m0 : Memory) (q : KeyFramePtr) (sc' : Scratch),
      ((m0.update p (fun k => k.setWords sc (k.nWords sc + 1))).kf q).query sc' =
        (m0.kf q).query sc' := by
    intro m0 q sc'
    rw [Memory.update_kf]
    split <;> simp
  by_cases h1 : (st.1.kf p).query sc ≠ (id : Int)
  · by_cases h2 : p ∉ conn
    · simp only [if_pos h1, if_pos h2]
      constructor
      · intro q sc' hq
        rw [hcount] at hq
        simp only [Memory.update_kf] at hq
        by_cases hqp : q = p
        · subst hqp
          simp only [if_true, KeyFrame.query_setWords, KeyFrame.query_setQuery] at hq
          by_cases hsc : sc = sc'
          · exact Or.inr ⟨rfl, hsc.symm⟩
          · rw [if_neg hsc] at hq; exact Or.inl hq
        · simp only [hqp, if_false] at hq; exact Or.inl hq
      · intro q hq
        rcases List.mem_append.mp hq with h | h
        · exact Or.inl h
        · rw [List.mem_singleton] at h; exact Or.inr h
    · simp only [if_pos h1, if_neg h2]
      constructor
      · intro q sc' hq
        rw [hcount] at hq
        simp only [Memory.update_kf] at hq
        by_cases hqp : q = p
        · subst hqp
          simp only [if_true, KeyFrame.query_setWords] at hq
          exact Or.inl hq
        · simp only [hqp, if_false] at hq; exact Or.inl hq
      · intro q hq; exact Or.inl hq
  · simp only [if_neg h1]
    constructor
    · intro q sc' hq
      rw [hcount] at hq
      exact Or.inl hq
    · intro q hq; exact Or.inl hq

theorem candidatesGather_gathered (db : KeyFrameDatabase) (m : Memory) (pKF : KeyFramePtr)
    (hfresh : ∀ q, (m.kf q).mnLoopQuery ≠ ((m.kf pKF).mnId : Int) ∧
      (m.kf q).mnMergeQuery ≠ ((m.kf pKF).mnId : Int)) :
    CandidatesGathered m pKF (candidatesGather db m pKF) := by
  unfold candidatesGather
  apply forEachSharing_induction (CandidatesGathered m pKF)
  · intro st p h
    unfold candidatesVisit
    by_cases hmap : (st.1.kf p).mpMap = (m.kf pKF).mpMap
    · rw [if_pos hmap]
      simp only []
      obtain ⟨t1, t2⟩ := tagUnlessConnected_tags_at .loop (m.kf pKF).mnId
        (m.kf pKF).mConnectedKeyFrames (st.1, st.2.1) p
      have hp : (m.kf p).mpMap = (m.kf pKF).mpMap := by
        rw [← (h.same.2 p).mpMap]; exact hmap
      refine ⟨Memory.sameObjects_trans h.same (tagUnlessConnected_sameObjects _ _ _ _ p),
        ?_, ?_, ?_, h.mergeList⟩
      · intro q hq
        rcases t1 q .loop hq with h' | h'
        · exact h.loopTag q h'
        · rw [h'.1]; exact hp
      · intro q hq
        rcases t2 q hq with h' | h'
        · exact h.loopList q h'
        · rw [h']; exact hp
      · intro q hq
        rcases t1 q .merge hq with h' | h'
        · exact h.mergeTag q h'
        · exact absurd h'.2 (by decide)
    · rw [if_neg hmap]
      by_cases hbad : ¬ st.1.mapIsBad (st.1.kf p).mpMap = true
      · rw [if_pos hbad]
        simp only []
        obtain ⟨t1, t2⟩ := tagUnlessConnected_tags_at .merge (m.kf pKF).mnId
          (m.kf pKF).mConnectedKeyFrames (st.1, st.2.2) p
        have hp : (m.kf p).mpMap ≠ (m.kf pKF).mpMap ∧ m.mapIsBad (m.kf p).mpMap = false := by
          rw [← (h.same.2 p).mpMap, ← h.same.1]
          exact ⟨hmap, by simpa using hbad⟩
        refine ⟨Memory.sameObjects_trans h.same (tagUnlessConnected_sameObjects _ _ _ _ p),
          ?_, h.loopList, ?_, ?_⟩
        · intro q hq
          rcases t1 q .loop hq with h' | h'
          · exact h.loopTag q h'
          · exact absurd h'.2 (by decide)
        · intro q hq
          rcases t1 q .merge hq with h' | h'
          · exact h.mergeTag q h'
          · rw [h'.1]; exact hp
        · intro q hq
          rcases t2 q hq with h' | h'
          · exact h.mergeList q h'
          · rw [h']; exact hp
      · rw [if_neg hbad]; exact h
  · exact ⟨Memory.sameObjects_refl m, fun q hq => absurd hq (hfresh q).1,
      fun q hq => absurd hq (List.not_mem_nil q), fun q hq => absurd hq (hfresh q).2,
      fun q hq => absurd hq (List.not_mem_nil q)⟩

/-- A block of `DetectCandidates` leaves tags and counters as they were, and
every keyframe it appends is a sharing keyframe or carries the query tag. -/
theorem candidatesBlock_spec (sc : Scratch) (voc : ORBVocabulary) (qb : BowVector) (id : Nat)
    (minScore : ℚ) (m : Memory) (l vp : List KeyFramePtr) :
    m.SameTags (candidatesBlock sc voc qb id minScore m l vp).2 ∧
      ∀ p ∈ (candidatesBlock sc voc qb id minScore m l vp).1,
        p ∈ vp ∨ p ∈ l ∨ (m.kf p).query sc = (id : Int) := by
  obtain ⟨t1, t2⟩ := scoreFold_spec sc voc qb (minCommonWords (maxCommonWords sc m l))
    (fun si => decide (si ≥ minScore)) l (m, [])
  unfold candidatesBlock
  simp only []
  split
  · exact ⟨Memory.sameTags_refl m, fun p hp => Or.inl hp⟩
  · split
    · exact ⟨t1, fun p hp => Or.inl hp⟩
    · refine ⟨t1, fun p hp => ?_⟩
      simp only [retain] at hp
      rcases retainFold_mem _ _ _ p hp with h | ⟨x, hx, hxp, _⟩
      · exact Or.inl h
      · right
        rcases accumulateFold_rep _ _ _ _ _ _ x hx with h | ⟨y, hy, h⟩
        · exact absurd h (List.not_mem_nil x)
        · rcases h with h | ⟨_, hq, _⟩
          · rcases t2 y hy with h' | ⟨hm, _⟩
            · exact absurd h' (List.not_mem_nil y)
            · left; rw [← hxp, h]; exact hm
          · right
            rw [← hxp, ← (t1.2 x.2 sc).1]
            exact hq

/-- C14. With a fresh query id (no keyframe carries a loop- or merge-query tag
equal to the id of `pKF` on entry) and empty output vectors on entry,
`DetectCandidates` puts in the loop vector only keyframes of the map of `pKF`,
in the merge vector only keyframes of another map that is not flagged bad, and
no keyframe is in both vectors. -/
theorem DetectCandidates_buckets (db : KeyFrameDatabase) (m : Memory) (pKF : KeyFramePtr)
    (minScore : ℚ)
    (hfresh : ∀ q, (m.kf q).mnLoopQuery ≠ ((m.kf pKF).mnId : Int) ∧
      (m.kf q).mnMergeQuery ≠ ((m.kf pKF).mnId : Int)) :
    (∀ p ∈ (DetectCandidates db m pKF minScore [] []).1,
        (m.kf p).mpMap = (m.kf pKF).mpMap) ∧
      (∀ p ∈ (DetectCandidates db m pKF minScore [] []).2.1,
        (m.kf p).mpMap ≠ (m.kf pKF).mpMap ∧ m.mapIsBad (m.kf p).mpMap = false) ∧
      (∀ p ∈ (DetectCandidates db m pKF minScore [] []).1,
        p ∉ (DetectCandidates db m pKF minScore [] []).2.1) := by
  have hg := candidatesGather_gathered db m pKF hfresh
  have key : (∀ p ∈ (DetectCandidates db m pKF minScore [] []).1,
        (m.kf p).mpMap = (m.kf pKF).mpMap) ∧
      (∀ p ∈ (DetectCandidates db m pKF minScore [] []).2.1,
        (m.kf p).mpMap ≠ (m.kf pKF).mpMap ∧ m.mapIsBad (m.kf p).mpMap = false) := by
    unfold DetectCandidates
    simp only []
    split
    · exact ⟨fun p hp => absurd hp (List.not_mem_nil p),
        fun p hp => absurd hp (List.not_mem_nil p)⟩
    · obtain ⟨l1, l2⟩ := candidatesBlock_spec .loop db.mpVoc (m.kf pKF).mBowVec
        (m.kf pKF).mnId minScore (candidatesGather db m pKF).1
        (candidatesGather db m pKF).2.1 []
      obtain ⟨_, r2⟩ := candidatesBlock_spec .merge db.mpVoc (m.kf pKF).mBowVec
        (m.kf pKF).mnId minScore
        (candidatesBlock .loop db.mpVoc (m.kf pKF).mBowVec (m.kf pKF).mnId minScore
          (candidatesGather db m pKF).1 (candidatesGather db m pKF).2.1 []).2
        (candidatesGather db m pKF).2.2 []
      constructor
      · intro p hp
        rcases l2 p hp with h | h | h
        · exact absurd h (List.not_mem_nil p)
        · exact hg.loopList p h
        · exact hg.loopTag p h
      · intro p hp
        rcases r2 p hp with h | h | h
        · exact absurd h (List.not_mem_nil p)
        · exact hg.mergeList p h
        · rw [(l1.2 p .merge).1] at h
          exact hg.mergeTag p h
  exact ⟨key.1, key.2, fun p hp hp' => (key.2 p hp').1 (key.1 p hp)⟩

theorem sampleKeyFrame_query (id : Nat) (bow : BowVector) (pMap : MapPtr)
    (connected neighbours : List KeyFramePtr) (bad : Bool) (sc : Scratch) :
    (sampleKeyFrame id bow pMap connected neighbours bad).query sc = -1 := by
  cases sc <;> rfl

theorem sampleMemoryMaps_query (q : KeyFramePtr) (sc : Scratch) :
    (sampleMemoryMaps.kf q).query sc = -1 := by
  simp only [sampleMemoryMaps]
  split_ifs <;> exact sampleKeyFrame_query _ _ _ _ _ _ sc

theorem sampleMemoryMaps_fresh (id : Nat) (q : KeyFramePtr) :
    (sampleMemoryMaps.kf q).mnLoopQuery ≠ (id : Int) ∧
      (sampleMemoryMaps.kf q).mnMergeQuery ≠ (id : Int) := by
  have h1 := sampleMemoryMaps_query q .loop
  have h2 := sampleMemoryMaps_query q .merge
  simp only [KeyFrame.query] at h1 h2
  constructor <;> omega

theorem DetectCandidates_buckets_witness :
    (∀ q, (sampleMemoryMaps.kf q).mnLoopQuery ≠ ((sampleMemoryMaps.kf 1).mnId : Int) ∧
        (sampleMemoryMaps.kf q).mnMergeQuery ≠ ((sampleMemoryMaps.kf 1).mnId : Int)) ∧
      ((∀ p ∈ (DetectCandidates sampleDb sampleMemoryMaps 1 0 [] []).1,
          (sampleMemoryMaps.kf p).mpMap = (sampleMemoryMaps.kf 1).mpMap) ∧
        (∀ p ∈ (DetectCandidates sampleDb sampleMemoryMaps 1 0 [] []).2.1,
          (sampleMemoryMaps.kf p).mpMap ≠ (sampleMemoryMaps.kf 1).mpMap ∧
            sampleMemoryMaps.mapIsBad (sampleMemoryMaps.kf p).mpMap = false) ∧
        (∀ p ∈ (DetectCandidates sampleDb sampleMemoryMaps 1 0 [] []).1,
          p ∉ (DetectCandidates sampleDb sampleMemoryMaps 1 0 [] []).2.1)) :=
  ⟨fun q => sampleMemoryMaps_fresh _ q,
    DetectCandidates_buckets sampleDb sampleMemoryMaps 1 0
      (fun q => sampleMemoryMaps_fresh _ q)⟩

/-! ## `DetectCandidates`: the closing tag reset -/

theorem forEachSharing_eq_foldl {σ : Type} (inv : List (List KeyFramePtr)) (v : BowVector)
    (visit : σ → KeyFramePtr → σ) (init : σ) :
    forEachSharing inv v visit init =
      (v.entries.flatMap (fun vit => inv.getD vit.1 [])).foldl visit init := by
  unfold forEachSharing
  generalize v.entries = es
  induction es generalizing init with
  | nil => rfl
  | cons e es ih => rw [List.foldl_cons, List.flatMap_cons, List.foldl_append, ih]

theorem mem_visited_iff (inv : List (List KeyFramePtr)) (v : BowVector) (p : KeyFramePtr) :
    p ∈ v.entries.flatMap (fun vit => inv.getD vit.1 []) ↔ ∃ w ∈ v.words, p ∈ inv.getD w [] := by
  simp only [List.mem_flatMap, BowVector.words, List.mem_map]
  constructor
  · rintro ⟨e, he, hp⟩
    exact ⟨e.1, ⟨e, he, rfl⟩, hp⟩
  · rintro ⟨w, ⟨e, he, rfl⟩, hp⟩
    exact ⟨e, he, hp⟩

theorem resetFold_tags (vs : List KeyFramePtr) :
    ∀ m0 : Memory,
      (∀ p ∈ vs,
        ((vs.foldl (fun (st : Memory) pKFi =>
            st.update pKFi (fun k => (k.setQuery .loop (-1)).setQuery .merge (-1))) m0).kf
          p).query .loop = -1 ∧
        ((vs.foldl (fun (st : Memory) pKFi =>
            st.update pKFi (fun k => (k.setQuery .loop (-1)).setQuery .merge (-1))) m0).kf
          p).query .merge = -1) ∧
      (∀ q sc, (m0.kf q).query sc = -1 →
        ((vs.foldl (fun (st : Memory) pKFi =>
            st.update pKFi (fun k => (k.setQuery .loop (-1)).setQuery .merge (-1))) m0).kf
          q).query sc = -1) := by
  induction vs with
  | nil =>
    intro m0
    exact ⟨fun p hp => absurd hp (List.not_mem_nil p), fun q sc h => h⟩
  | cons a vs ih =>
    intro m0
    rw [List.foldl_cons]
    obtain ⟨i1, i2⟩ := ih (m0.update a (fun k => (k.setQuery .loop (-1)).setQuery .merge (-1)))
    have hkeep : ∀ q sc, (m0.kf q).query sc = -1 →
        ((m0.update a (fun k => (k.setQuery .loop (-1)).setQuery .merge (-1))).kf q).query sc
          = -1 := by
      intro q sc h
      rw [Memory.update_kf]
      split
      · simp only [KeyFrame.query_setQuery]
        split
        · rfl
        · split
          · rfl
          · exact h
      · exact h
    have ha : ∀ sc, sc = Scratch.loop ∨ sc = Scratch.merge →
        ((m0.update a (fun k => (k.setQuery .loop (-1)).setQuery .merge (-1))).kf a).query sc
          = -1 := by
      intro sc hsc
      rw [Memory.update_kf, if_pos rfl]
      rcases hsc with h | h <;> subst h <;> simp
    refine ⟨fun p hp => ?_, fun q sc h => i2 q sc (hkeep q sc h)⟩
    rcases List.mem_cons.mp hp with h | h
    · subst h
      exact ⟨i2 _ _ (ha _ (Or.inl rfl)), i2 _ _ (ha _ (Or.inr rfl))⟩
    · exact i1 p h

theorem candidatesReset_tags (db : KeyFrameDatabase) (v : BowVector) (m0 : Memory) :
    ∀ w ∈ v.words, ∀ p ∈ db.slot w,
      ((candidatesReset db v m0).kf p).mnLoopQuery = -1 ∧
        ((candidatesReset db v m0).kf p).mnMergeQuery = -1 := by
  intro w hw p hp
  unfold candidatesReset
  rw [forEachSharing_eq_foldl]
  exact (resetFold_tags _ m0).1 p ((mem_visited_iff _ _ _).mpr ⟨w, hw, hp⟩)

/-- A visit by `tagUnlessConnected` that records nothing writes no query tag. -/
theorem tagUnlessConnected_nil (sc : Scratch) (id : Nat) (conn : List KeyFramePtr)
    (st : Memory × List KeyFramePtr) (p : KeyFramePtr)
    (h : (tagUnlessConnected sc id conn st p).2 = []) :
    st.2 = [] ∧ ∀ q sc', ((tagUnlessConnected sc id conn st p).1.kf q).query sc' =
      (st.1.kf q).query sc' := by
  unfold tagUnlessConnected at h ⊢
  have hcount : ∀ (m0 : Memory) (q : KeyFramePtr) (sc' : Scratch),
      ((m0.update p (fun k => k.setWords sc (k.nWords sc + 1))).kf q).query sc' =
        (m0.kf q).query sc' := by
    intro m0 q sc'
    rw [Memory.update_kf]
    split <;> simp
  by_cases h1 : (st.1.kf p).query sc ≠ (id : Int)
  · by_cases h2 : p ∉ conn
    · simp only [if_pos h1, if_pos h2] at h
      exact absurd h (by simp)
    · simp only [if_pos h1, if_neg h2] at h ⊢
      refine ⟨h, fun q sc' => ?_⟩
      rw [hcount, Memory.update_kf]
      split <;> simp
  · simp only [if_neg h1] at h ⊢
    exact ⟨h, fun q sc' => hcount _ q sc'⟩

theorem candidatesGather_nothing_found (db : KeyFrameDatabase) (m : Memory) (pKF : KeyFramePtr)
    (h : (candidatesGather db m pKF).2.1 = [] ∧ (candidatesGather db m pKF).2.2 = []) :
    ∀ q sc, ((candidatesGather db m pKF).1.kf q).query sc = (m.kf q).query sc := by
  have key : (candidatesGather db m pKF).2.1 = [] ∧ (candidatesGather db m pKF).2.2 = [] →
      ∀ q sc, ((candidatesGather db m pKF).1.kf q).query sc = (m.kf q).query sc := by
    unfold candidatesGather
    apply forEachSharing_induction
      (fun st : Memory × List KeyFramePtr × List KeyFramePtr =>
        st.2.1 = [] ∧ st.2.2 = [] → ∀ q sc, (st.1.kf q).query sc = (m.kf q).query sc)
    · intro st p ih
      unfold candidatesVisit
      split
      · simp only []
        intro hnil q sc
        obtain ⟨e1, e2⟩ := tagUnlessConnected_nil .loop (m.kf pKF).mnId
          (m.kf pKF).mConnectedKeyFrames (st.1, st.2.1) p hnil.1
        rw [e2 q sc]
        exact ih ⟨e1, hnil.2⟩ q sc
      · split
        · simp only []
          intro hnil q sc
          obtain ⟨e1, e2⟩ := tagUnlessConnected_nil .merge (m.kf pKF).mnId
            (m.kf pKF).mConnectedKeyFrames (st.1, st.2.2) p hnil.2
          rw [e2 q sc]
          exact ih ⟨hnil.1, e1⟩ q sc
        · exact ih
    · intro _ q sc; rfl
  exact key h

/-- C15 fails as stated: after a loop query by `K2` has tagged `K2` and `K3`, the call
`DetectCandidates(K1, 0)` with `K2` and `K3` connected to `K1` finds no sharing
keyframe, returns early, and the touched keyframes do not all carry the tag
`-1`. -/
theorem DetectCandidates_early_return_keeps_tags :
    ¬ ∀ w ∈ (sampleMemoryAfterLoopQuery.kf 1).mBowVec.words, ∀ p ∈ sampleDb.slot w,
      ((DetectCandidates sampleDb sampleMemoryAfterLoopQuery 1 0 [] []).2.2.kf p).mnLoopQuery
          = -1 ∧
        ((DetectCandidates sampleDb sampleMemoryAfterLoopQuery 1 0 [] []).2.2.kf p).mnMergeQuery
          = -1 := by
  decide!

/-- C15, as amended. When the gather phase of `DetectCandidates` finds a sharing
keyframe, every keyframe stored in the slot of a word of the query signature
has both its loop-query tag and its merge-query tag equal to `-1` when the
method returns; when it finds none (the early return), the method has written
no query tag: every keyframe has the tags it had on entry. -/
theorem DetectCandidates_tag_reset (db : KeyFrameDatabase) (m : Memory) (pKF : KeyFramePtr)
    (minScore : ℚ) (vpLoopCand vpMergeCand : List KeyFramePtr) :
    (((candidatesGather db m pKF).2.1 ≠ [] ∨ (candidatesGather db m pKF).2.2 ≠ []) →
        ∀ w ∈ (m.kf pKF).mBowVec.words, ∀ p ∈ db.slot w,
          ((DetectCandidates db m pKF minScore vpLoopCand vpMergeCand).2.2.kf p).mnLoopQuery
              = -1 ∧
            ((DetectCandidates db m pKF minScore vpLoopCand vpMergeCand).2.2.kf p).mnMergeQuery
              = -1) ∧
      (((candidatesGather db m pKF).2.1 = [] ∧ (candidatesGather db m pKF).2.2 = []) →
        ∀ q, ((DetectCandidates db m pKF minScore vpLoopCand vpMergeCand).2.2.kf q).mnLoopQuery
              = (m.kf q).mnLoopQuery ∧
            ((DetectCandidates db m pKF minScore vpLoopCand vpMergeCand).2.2.kf q).mnMergeQuery
              = (m.kf q).mnMergeQuery) := by
  constructor
  · intro hfound w hw p hp
    have hne : ¬ ((candidatesGather db m pKF).2.1.isEmpty &&
        (candidatesGather db m pKF).2.2.isEmpty) = true := by
      simp only [Bool.and_eq_true, List.isEmpty_iff, not_and]
      intro h1 h2
      rcases hfound with h | h
      · exact h h1
      · exact h h2
    unfold DetectCandidates
    simp only [if_neg hne]
    exact candidatesReset_tags db _ _ w hw p hp
  · intro hnone q
    have he : ((candidatesGather db m pKF).2.1.isEmpty &&
        (candidatesGather db m pKF).2.2.isEmpty) = true := by
      simp only [Bool.and_eq_true, List.isEmpty_iff]
      exact hnone
    unfold DetectCandidates
    simp only [if_pos he]
    exact ⟨candidatesGather_nothing_found db m pKF hnone q .loop,
      candidatesGather_nothing_found db m pKF hnone q .merge⟩

theorem DetectCandidates_tag_reset_witness :
    ((candidatesGather sampleDb (sampleMemory [] false) 1).2.1 ≠ [] ∨
        (candidatesGather sampleDb (sampleMemory [] false) 1).2.2 ≠ []) ∧
      (∀ w ∈ ((sampleMemory [] false).kf 1).mBowVec.words, ∀ p ∈ sampleDb.slot w,
        ((DetectCandidates sampleDb (sampleMemory [] false) 1 0 [] []).2.2.kf p).mnLoopQuery
            = -1 ∧
          ((DetectCandidates sampleDb (sampleMemory [] false) 1 0 [] []).2.2.kf p).mnMergeQuery
            = -1) :=
  ⟨by decide,
    (DetectCandidates_tag_reset sampleDb (sampleMemory [] false) 1 0 [] []).1 (by decide)⟩

/-! ## The gather phase without exclusions -/

theorem tagAlways_gathered (sc : Scratch) (id : Nat) (st : Memory × List KeyFramePtr)
    (seen : List KeyFramePtr) (p : KeyFramePtr) (h : Gathered sc id st seen) :
    Gathered sc id (tagAlways sc id st p) (seen ++ [p]) := by
  unfold tagAlways
  by_cases h1 : (st.1.kf p).query sc ≠ (id : Int)
  · have hp : p ∉ seen := fun hm => h1 ((h.tagged p).mpr hm)
    simp only [if_pos h1]
    refine ⟨fun q => ?_, ?_, fun q => ?_, fun q hq => ?_⟩
    · simp only [Memory.update_kf]
      by_cases hqp : q = p
      · subst hqp
        simp
      · simp only [hqp, if_false, List.mem_append, List.mem_singleton, or_false]
        exact h.tagged q
    · rw [List.nodup_append]
      refine ⟨h.nodup, List.nodup_singleton _, ?_⟩
      intro a ha hb
      rw [List.mem_singleton] at hb
      subst hb
      exact hp ((h.listed _).mp ha)
    · simp only [List.mem_append, List.mem_singleton]
      rw [h.listed q]
    · simp only [Memory.update_kf]
      by_cases hqp : q = p
      · subst hqp
        simp [List.count_append, List.count_eq_zero.mpr hp]
      · have hq' : q ∈ seen := by
          rcases List.mem_append.mp hq with h' | h'
          · exact h'
          · exact absurd (List.mem_singleton.mp h') hqp
        have hpq : ¬ p = q := fun e => hqp e.symm
        simp only [hqp, if_false, List.count_append, List.count_cons, List.count_nil]
        simp [hpq, h.counted q hq']
  · have hp : p ∈ seen := (h.tagged p).mp (not_not.mp h1)
    simp only [if_neg h1]
    refine ⟨fun q => ?_, h.nodup, fun q => ?_, fun q hq => ?_⟩
    · simp only [Memory.update_kf]
      have hmem : q ∈ seen ++ [p] ↔ q ∈ seen := by
        simp only [List.mem_append, List.mem_singleton]
        exact ⟨fun h' => h'.elim (fun x => x) (fun e => e ▸ hp), Or.inl⟩
      rw [hmem, ← h.tagged q]
      split <;> simp
    · simp only [List.mem_append, List.mem_singleton]
      rw [h.listed q]
      exact ⟨Or.inl, fun h' => h'.elim (fun x => x) (fun e => e ▸ hp)⟩
    · have hq' : q ∈ seen := by
        rcases List.mem_append.mp hq with h' | h'
        · exact h'
        · exact (List.mem_singleton.mp h') ▸ hp
      simp only [Memory.update_kf]
      by_cases hqp : q = p
      · subst hqp
        simp [List.count_append, h.counted q hq']
      · have hpq : ¬ p = q := fun e => hqp e.symm
        simp only [hqp, if_false, List.count_append, List.count_cons, List.count_nil]
        simp [hpq, h.counted q hq']

theorem tagAlways_fold_gathered (sc : Scratch) (id : Nat) (vs : List KeyFramePtr) :
    ∀ (st : Memory × List KeyFramePtr) (seen : List KeyFramePtr), Gathered sc id st seen →
      Gathered sc id (vs.foldl (tagAlways sc id) st) (seen ++ vs) := by
  induction vs with
  | nil => intro st seen h; simpa using h
  | cons a vs ih =>
    intro st seen h
    rw [List.foldl_cons]
    have := ih _ _ (tagAlways_gathered sc id st seen a h)
    simpa [List.append_assoc] using this

theorem count_visited (inv : List (List KeyFramePtr)) (q : KeyFramePtr) (W : List WordId)
    (hslot : ∀ w, (inv.getD w []).count q = if w ∈ W then 1 else 0)
    (es : List (WordId × ℚ)) :
    (es.flatMap (fun vit => inv.getD vit.1 [])).count q =
      ((es.map Prod.fst).filter (fun w => decide (w ∈ W))).length := by
  induction es with
  | nil => rfl
  | cons e es ih =>
    rw [List.flatMap_cons, List.count_append, ih, hslot e.1, List.map_cons, List.filter_cons]
    by_cases he : e.1 ∈ W
    · simp [he, Nat.add_comm]
    · simp [he]

/-- C20. In an index where every keyframe occurs exactly once in the slot of
each word of its own signature and in no other slot, and with a fresh query id,
the gather phase of `DetectRelocalizationCandidates` leaves a sharing list that
holds, each exactly once, exactly the indexed keyframes having a word in common
with the frame's signature, and the shared-word counter of each equals the
number of words of the frame's signature that are in its own signature. -/
theorem relocGather_sharing_list (db : KeyFrameDatabase) (m : Memory) (F : Frame)
    (hown : ∀ w < db.mvInvertedFile.length, ∀ p ∈ db.slot w, w ∈ (m.kf p).mBowVec.words)
    (honce : ∀ l ∈ db.mvInvertedFile, l.Nodup)
    (hall : ∀ l ∈ db.mvInvertedFile, ∀ p ∈ l, ∀ w ∈ (m.kf p).mBowVec.words, p ∈ db.slot w)
    (hfresh : ∀ q, (m.kf q).mnRelocQuery ≠ (F.mnId : Int)) :
    (relocGather db m F).2.Nodup ∧
      (∀ p, p ∈ (relocGather db m F).2 ↔
        ((∃ l ∈ db.mvInvertedFile, p ∈ l) ∧
          ∃ w ∈ F.mBowVec.words, w ∈ (m.kf p).mBowVec.words)) ∧
      (∀ p ∈ (relocGather db m F).2,
        ((relocGather db m F).1.kf p).mnRelocWords =
          ((F.mBowVec.words.filter
            (fun w => decide (w ∈ (m.kf p).mBowVec.words))).length : Int)) := by
  have h0 : Gathered .reloc F.mnId (m, []) [] :=
    ⟨fun q => ⟨fun h => absurd h (hfresh q), fun h => absurd h (List.not_mem_nil q)⟩,
      List.nodup_nil, fun q => Iff.rfl, fun q hq => absurd hq (List.not_mem_nil q)⟩
  have hg := tagAlways_fold_gathered .reloc F.mnId
    (F.mBowVec.entries.flatMap (fun vit => db.mvInvertedFile.getD vit.1 [])) (m, []) [] h0
  rw [List.nil_append] at hg
  have heq : relocGather db m F =
      (F.mBowVec.entries.flatMap (fun vit => db.mvInvertedFile.getD vit.1 [])).foldl
        (tagAlways .reloc F.mnId) (m, []) := by
    unfold relocGather
    exact forEachSharing_eq_foldl _ _ _ _
  rw [heq]
  have hin : ∀ w p, p ∈ db.mvInvertedFile.getD w [] →
      w < db.mvInvertedFile.length ∧ db.mvInvertedFile.getD w [] ∈ db.mvInvertedFile := by
    intro w p hp
    by_cases hw : w < db.mvInvertedFile.length
    · exact ⟨hw, (mem_iff_getD _ _).mpr ⟨w, hw, rfl⟩⟩
    · have hnil : db.mvInvertedFile.getD w [] = [] := by
        simp only [List.getD_eq_getElem?_getD]
        rw [List.getElem?_eq_none (Nat.le_of_not_lt hw)]; rfl
      rw [hnil] at hp
      exact absurd hp (List.not_mem_nil p)
  have hmem : ∀ p, p ∈ F.mBowVec.entries.flatMap (fun vit => db.mvInvertedFile.getD vit.1 []) ↔
      ((∃ l ∈ db.mvInvertedFile, p ∈ l) ∧
        ∃ w ∈ F.mBowVec.words, w ∈ (m.kf p).mBowVec.words) := by
    intro p
    rw [mem_visited_iff]
    constructor
    · rintro ⟨w, hw, hp⟩
      obtain ⟨hlt, hl⟩ := hin w p hp
      exact ⟨⟨_, hl, hp⟩, w, hw, hown w hlt p hp⟩
    · rintro ⟨⟨l, hl, hp⟩, w, hw, hwp⟩
      exact ⟨w, hw, hall l hl p hp w hwp⟩
  refine ⟨hg.nodup, fun p => (hg.listed p).trans (hmem p), fun p hp => ?_⟩
  have hseen := (hg.listed p).mp hp
  have hcount := hg.counted p hseen
  simp only [KeyFrame.nWords] at hcount
  rw [hcount]
  obtain ⟨⟨l, hl, hpl⟩, _⟩ := (hmem p).mp hseen
  have hslot : ∀ w, (db.mvInvertedFile.getD w []).count p =
      if w ∈ (m.kf p).mBowVec.words then 1 else 0 := by
    intro w
    by_cases hw : w ∈ (m.kf p).mBowVec.words
    · rw [if_pos hw]
      have hps : p ∈ db.mvInvertedFile.getD w [] := hall l hl p hpl w hw
      exact List.count_eq_one_of_mem (honce _ (hin w p hps).2) hps
    · rw [if_neg hw]
      apply List.count_eq_zero.mpr
      intro hps
      exact hw (hown w (hin w p hps).1 p hps)
  rw [count_visited db.mvInvertedFile p (m.kf p).mBowVec.words hslot]
  rfl

theorem sampleMemory_query (connected1 : List KeyFramePtr) (bad3 : Bool) (q : KeyFramePtr)
    (sc : Scratch) : ((sampleMemory connected1 bad3).kf q).query sc = -1 := by
  simp only [sampleMemory]
  split_ifs <;> exact sampleKeyFrame_query _ _ _ _ _ _ sc

theorem sampleMemory_reloc_fresh (connected1 : List KeyFramePtr) (bad3 : Bool) (id : Nat)
    (q : KeyFramePtr) : ((sampleMemory connected1 bad3).kf q).mnRelocQuery ≠ (id : Int) := by
  have h := sampleMemory_query connected1 bad3 q .reloc
  simp only [KeyFrame.query] at h
  omega

theorem relocGather_sharing_list_witness :
    (∀ w < sampleDbA.mvInvertedFile.length, ∀ p ∈ sampleDbA.slot w,
        w ∈ ((sampleMemory [] false).kf p).mBowVec.words) ∧
      (∀ l ∈ sampleDbA.mvInvertedFile, l.Nodup) ∧
      (∀ l ∈ sampleDbA.mvInvertedFile, ∀ p ∈ l,
        ∀ w ∈ ((sampleMemory [] false).kf p).mBowVec.words, p ∈ sampleDbA.slot w) ∧
      (∀ q, ((sampleMemory [] false).kf q).mnRelocQuery ≠ (sampleFrameA.mnId : Int)) ∧
      ((relocGather sampleDbA (sampleMemory [] false) sampleFrameA).2.Nodup ∧
        (∀ p, p ∈ (relocGather sampleDbA (sampleMemory [] false) sampleFrameA).2 ↔
          ((∃ l ∈ sampleDbA.mvInvertedFile, p ∈ l) ∧
            ∃ w ∈ sampleFrameA.mBowVec.words,
              w ∈ ((sampleMemory [] false).kf p).mBowVec.words)) ∧
        (∀ p ∈ (relocGather sampleDbA (sampleMemory [] false) sampleFrameA).2,
          ((relocGather sampleDbA (sampleMemory [] false) sampleFrameA).1.kf p).mnRelocWords =
            ((sampleFrameA.mBowVec.words.filter
              (fun w => decide (w ∈ ((sampleMemory [] false).kf p).mBowVec.words))).length
                : Int))) :=
  ⟨by decide, by decide, by decide, sampleMemory_reloc_fresh [] false _,
    relocGather_sharing_list sampleDbA (sampleMemory [] false) sampleFrameA
      (by decide) (by decide) (by decide) (sampleMemory_reloc_fresh [] false _)⟩

/-- Scenario A of the specification: with `K1`, `K2` and `K3` indexed, a query with
the signature of `K1` and no exclusions surfaces `K2` and `K3` with a
shared-word count of `1` each (and `K1` itself with count `2`). -/
theorem scenarioA_gather :
    (relocGather sampleDbA (sampleMemory [] false) sampleFrameA).2 = [1, 3, 2] ∧
      ((relocGather sampleDbA (sampleMemory [] false) sampleFrameA).1.kf 2).mnRelocWords = 1 ∧
      ((relocGather sampleDbA (sampleMemory [] false) sampleFrameA).1.kf 3).mnRelocWords = 1 ∧
      ((relocGather sampleDbA (sampleMemory [] false) sampleFrameA).1.kf 1).mnRelocWords = 2 := by
  decide

/-! ## The common-word floor is below the maximum -/

theorem excessBits_le (fuel : Nat) :
    ∀ x : Nat, excessBits fuel x ≠ 0 → 2 ^ 23 * 2 ^ excessBits fuel x ≤ x := by
  induction fuel with
  | zero => intro x h; exact absurd rfl h
  | succ k ih =>
    intro x h
    unfold excessBits at h ⊢
    by_cases hx : x < 2 ^ 24
    · rw [if_pos hx] at h; exact absurd rfl h
    · rw [if_neg hx]
      by_cases hs : excessBits k (x / 2) = 0
      · rw [hs]
        norm_num at hx ⊢
        omega
      · have := ih (x / 2) hs
        rw [pow_succ]
        have h2 : 2 * (x / 2) ≤ x := Nat.mul_div_le x 2
        calc 2 ^ 23 * (2 ^ excessBits k (x / 2) * 2)
            = 2 * (2 ^ 23 * 2 ^ excessBits k (x / 2)) := by ring
          _ ≤ 2 * (x / 2) := Nat.mul_le_mul_left 2 this
          _ ≤ x := h2

/-- Rounding to 24 significant bits raises a number by at most one part in
`2^23`. -/
theorem roundToFloat_le (x : Nat) : roundToFloat x * 2 ^ 23 ≤ x * (2 ^ 23 + 1) := by
  unfold roundToFloat
  simp only []
  by_cases hs : excessBits x x = 0
  · rw [if_pos hs]
    exact Nat.mul_le_mul_left x (Nat.le_succ _)
  · rw [if_neg hs]
    have h1 := excessBits_le x x hs
    have h2 : x / 2 ^ excessBits x x * 2 ^ excessBits x x ≤ x := Nat.div_mul_le_self _ _
    generalize 2 ^ excessBits x x = t at h1 h2 ⊢
    generalize x / t = q at h2 ⊢
    have h3 : (if 2 ^ (excessBits x x - 1) < x % t ∨
        (x % t = 2 ^ (excessBits x x - 1) ∧ q % 2 = 1) then q + 1 else q) * t ≤ q * t + t := by
      split
      · rw [Nat.add_mul, Nat.one_mul]
      · exact Nat.le_add_right _ _
    have h4 : (2 : Nat) ^ 23 = 8388608 := by norm_num
    rw [h4] at h1 ⊢
    generalize (if 2 ^ (excessBits x x - 1) < x % t ∨
        (x % t = 2 ^ (excessBits x x - 1) ∧ q % 2 = 1) then q + 1 else q) * t = R at h3 ⊢
    generalize q * t = qt at h2 h3
    omega

/-- The value `(int)(maxCommonWords*0.8f)` is strictly below `maxCommonWords`
whenever `maxCommonWords ≥ 1`: the keyframe with the most shared words always
passes the common-word filter. -/
theorem minCommonWords_lt (x : Int) (hx : 1 ≤ x) : minCommonWords x < x := by
  unfold minCommonWords
  obtain ⟨n, rfl⟩ := Int.eq_ofNat_of_zero_le (by omega : 0 ≤ x)
  simp only [Int.toNat_ofNat]
  have hn : 1 ≤ n := by omega
  have h1 := roundToFloat_le n
  have h2 := roundToFloat_le (roundToFloat n * 13421773)
  have h3 : (2 : Nat) ^ 23 = 8388608 := by norm_num
  have h4 : (2 : Nat) ^ 24 = 16777216 := by norm_num
  rw [h3] at h1 h2
  rw [h4]
  generalize roundToFloat (roundToFloat n * 13421773) = R at h2 ⊢
  generalize roundToFloat n = a at h1 h2
  have : R / 16777216 < n := by
    apply Nat.div_lt_of_lt_mul
    omega
  exact_mod_cast this

/-! ## `DetectLoopCandidates`: a non-positive `minScore` -/

theorem loopGather_eq_foldl (db : KeyFrameDatabase) (m : Memory) (pKF : KeyFramePtr) :
    loopGather db m pKF =
      ((m.kf pKF).mBowVec.entries.flatMap (fun vit => db.mvInvertedFile.getD vit.1 [])).foldl
        (loopVisit m pKF) (m, []) := by
  unfold loopGather
  simp only []
  rw [forEachSharing_eq_foldl]
  rfl

theorem loopVisit_gathered (m : Memory) (pKF : KeyFramePtr) (st : Memory × List KeyFramePtr)
    (p : KeyFramePtr) (h : LoopGathered m pKF st) :
    LoopGathered m pKF (loopVisit m pKF st p) ∧
      (∀ q ∈ st.2, q ∈ (loopVisit m pKF st p).2) ∧
      ((m.kf p).mpMap = (m.kf pKF).mpMap → p ∉ (m.kf pKF).mConnectedKeyFrames →
        p ∈ (loopVisit m pKF st p).2) := by
  unfold loopVisit
  by_cases hmap : (st.1.kf p).mpMap = (m.kf pKF).mpMap
  · rw [if_pos hmap]
    unfold tagUnlessConnected
    by_cases h1 : (st.1.kf p).query .loop ≠ ((m.kf pKF).mnId : Int)
    · by_cases h2 : p ∉ (m.kf pKF).mConnectedKeyFrames
      · simp only [if_pos h1, if_pos h2]
        refine ⟨⟨?_, ?_, ?_⟩, fun q hq => List.mem_append_left _ hq,
          fun _ _ => List.mem_append_right _ (List.mem_singleton_self p)⟩
        · exact Memory.sameObjects_trans h.same
            (Memory.sameObjects_trans
              (Memory.sameObjects_trans
                (Memory.sameObjects_update _ _ _ (fun k => KeyFrame.sameObject_setWords k _ _))
                (Memory.sameObjects_update _ _ _ (fun k => KeyFrame.sameObject_setQuery k _ _)))
              (Memory.sameObjects_update _ _ _ (fun k => KeyFrame.sameObject_setWords k _ _)))
        · intro q hq
          by_cases hqp : q = p
          · subst hqp; exact List.mem_append_right _ (List.mem_singleton_self q)
          · simp only [Memory.update_kf, hqp, if_false] at hq
            exact List.mem_append_left _ (h.tagged q hq)
        · intro q hq
          by_cases hqp : q = p
          · subst hqp
            simp
          · have hq' : q ∈ st.2 := by
              rcases List.mem_append.mp hq with h' | h'
              · exact h'
              · exact absurd (List.mem_singleton.mp h') hqp
            simp only [Memory.update_kf, hqp, if_false]
            exact h.listed q hq'
      · simp only [if_pos h1, if_neg h2]
        refine ⟨⟨?_, ?_, ?_⟩, fun q hq => hq, fun _ hc => absurd hc h2⟩
        · exact Memory.sameObjects_trans h.same
            (Memory.sameObjects_trans
              (Memory.sameObjects_update _ _ _ (fun k => KeyFrame.sameObject_setWords k _ _))
              (Memory.sameObjects_update _ _ _ (fun k => KeyFrame.sameObject_setWords k _ _)))
        · intro q hq
          by_cases hqp : q = p
          · subst hqp
            simp only [Memory.update_kf, if_true, KeyFrame.query_setWords] at hq
            exact h.tagged q hq
          · simp only [Memory.update_kf, hqp, if_false] at hq
            exact h.tagged q hq
        · intro q hq
          have hqp : q ≠ p := fun e => h1 (e ▸ (h.listed q hq).1)
          simp only [Memory.update_kf, hqp, if_false]
          exact h.listed q hq
    · simp only [if_neg h1]
      have hp : p ∈ st.2 := h.tagged p (not_not.mp h1)
      refine ⟨⟨?_, ?_, ?_⟩, fun q hq => hq, fun _ _ => hp⟩
      · exact Memory.sameObjects_trans h.same
          (Memory.sameObjects_update _ _ _ (fun k => KeyFrame.sameObject_setWords k _ _))
      · intro q hq
        by_cases hqp : q = p
        · subst hqp
          simp only [Memory.update_kf, if_true, KeyFrame.query_setWords] at hq
          exact h.tagged q hq
        · simp only [Memory.update_kf, hqp, if_false] at hq
          exact h.tagged q hq
      · intro q hq
        by_cases hqp : q = p
        · subst hqp
          simp only [Memory.update_kf, if_true, KeyFrame.query_setWords,
            KeyFrame.nWords_setWords]
          have := h.listed q hq
          exact ⟨this.1, by omega⟩
        · simp only [Memory.update_kf, hqp, if_false]
          exact h.listed q hq
  · rw [if_neg hmap]
    refine ⟨h, fun q hq => hq, fun hm _ => ?_⟩
    rw [← (h.same.2 p).mpMap] at hm
    exact absurd hm hmap

theorem loopVisit_fold_gathered (m : Memory) (pKF : KeyFramePtr) (vs : List KeyFramePtr) :
    ∀ st : Memory × List KeyFramePtr, LoopGathered m pKF st →
      LoopGathered m pKF (vs.foldl (loopVisit m pKF) st) ∧
        (∀ q ∈ st.2, q ∈ (vs.foldl (loopVisit m pKF) st).2) ∧
        (∀ p ∈ vs, (m.kf p).mpMap = (m.kf pKF).mpMap → p ∉ (m.kf pKF).mConnectedKeyFrames →
          p ∈ (vs.foldl (loopVisit m pKF) st).2) := by
  induction vs with
  | nil =>
    intro st h
    exact ⟨h, fun q hq => hq, fun p hp => absurd hp (List.not_mem_nil p)⟩
  | cons a vs ih =>
    intro st h
    rw [List.foldl_cons]
    obtain ⟨s1, s2, s3⟩ := loopVisit_gathered m pKF st a h
    obtain ⟨i1, i2, i3⟩ := ih _ s1
    refine ⟨i1, fun q hq => i2 q (s2 q hq), fun p hp hm hc => ?_⟩
    rcases List.mem_cons.mp hp with e | hp'
    · subst e
      exact i2 _ (s3 hm hc)
    · exact i3 p hp' hm hc

/-- With a fresh query id the gather phase of `DetectLoopCandidates` tags
exactly the members of its sharing list, each of which counted a word, and
records every same-map, non-connected keyframe met in a slot of the query's
words. -/
theorem loopGather_gathered (db : KeyFrameDatabase) (m : Memory) (pKF : KeyFramePtr)
    (hfresh : ∀ q, (m.kf q).mnLoopQuery ≠ ((m.kf pKF).mnId : Int)) :
    LoopGathered m pKF (loopGather db m pKF) ∧
      ∀ w ∈ (m.kf pKF).mBowVec.words, ∀ p ∈ db.slot w,
        (m.kf p).mpMap = (m.kf pKF).mpMap → p ∉ (m.kf pKF).mConnectedKeyFrames →
          p ∈ (loopGather db m pKF).2 := by
  rw [loopGather_eq_foldl]
  obtain ⟨i1, _, i3⟩ := loopVisit_fold_gathered m pKF
    ((m.kf pKF).mBowVec.entries.flatMap (fun vit => db.mvInvertedFile.getD vit.1 [])) (m, [])
    ⟨Memory.sameObjects_refl m, fun q hq => absurd hq (hfresh q),
      fun q hq => absurd hq (List.not_mem_nil q)⟩
  exact ⟨i1, fun w hw p hp => i3 p ((mem_visited_iff _ _ _).mpr ⟨w, hw, hp⟩)⟩

theorem maxCommonWords_fold (sc : Scratch) (m : Memory) (l : List KeyFramePtr) :
    ∀ init : Int,
      init ≤ l.foldl
          (fun mx lit => if (m.kf lit).nWords sc > mx then (m.kf lit).nWords sc else mx) init ∧
        (∀ q ∈ l, (m.kf q).nWords sc ≤ l.foldl
          (fun mx lit => if (m.kf lit).nWords sc > mx then (m.kf lit).nWords sc else mx) init) ∧
        (l.foldl
            (fun mx lit => if (m.kf lit).nWords sc > mx then (m.kf lit).nWords sc else mx) init
              = init ∨
          ∃ q ∈ l, (m.kf q).nWords sc = l.foldl
            (fun mx lit => if (m.kf lit).nWords sc > mx then (m.kf lit).nWords sc else mx)
            init) := by
  induction l with
  | nil =>
    intro init
    exact ⟨le_refl _, fun q hq => absurd hq (List.not_mem_nil q), Or.inl rfl⟩
  | cons a l ih =>
    intro init
    rw [List.foldl_cons]
    obtain ⟨i1, i2, i3⟩ := ih (if (m.kf a).nWords sc > init then (m.kf a).nWords sc else init)
    have hstep : init ≤ (if (m.kf a).nWords sc > init then (m.kf a).nWords sc else init) ∧
        (m.kf a).nWords sc ≤
          (if (m.kf a).nWords sc > init then (m.kf a).nWords sc else init) := by
      split <;> constructor <;> omega
    refine ⟨le_trans hstep.1 i1, fun q hq => ?_, ?_⟩
    · rcases List.mem_cons.mp hq with e | hq'
      · subst e; exact le_trans hstep.2 i1
      · exact i2 q hq'
    · rcases i3 with e | ⟨q, hq, e⟩
      · by_cases hgt : (m.kf a).nWords sc > init
        · right
          rw [if_pos hgt] at e
          exact ⟨a, List.mem_cons_self _ _, by rw [if_pos hgt]; exact e.symm⟩
        · left
          rw [if_neg hgt] at e ⊢
          exact e
      · exact Or.inr ⟨q, List.mem_cons_of_mem _ hq, e⟩

/-- For a non-empty sharing list whose members counted at least one word,
`maxCommonWords` is at least `1` and is the counter of some member. -/
theorem maxCommonWords_attained (sc : Scratch) (m : Memory) (l : List KeyFramePtr)
    (p : KeyFramePtr) (hp : p ∈ l) (hw : ∀ q ∈ l, 1 ≤ (m.kf q).nWords sc) :
    1 ≤ maxCommonWords sc m l ∧ ∃ q ∈ l, (m.kf q).nWords sc = maxCommonWords sc m l := by
  unfold maxCommonWords
  obtain ⟨_, i2, i3⟩ := maxCommonWords_fold sc m l 0
  have h1 := le_trans (hw p hp) (i2 p hp)
  refine ⟨h1, ?_⟩
  rcases i3 with e | h
  · rw [e] at h1; omega
  · exact h

theorem scoreSharing_simScore (sc : Scratch) (voc : ORBVocabulary) (qb : BowVector)
    (minCommon : Int) (keep : ℚ → Bool) (st : Memory × List (ℚ × KeyFramePtr))
    (a p : KeyFramePtr) :
    ((scoreSharing sc voc qb minCommon keep st a).1.kf p).simScore sc =
      if p = a ∧ (st.1.kf a).nWords sc > minCommon then voc.score qb (st.1.kf a).mBowVec
      else (st.1.kf p).simScore sc := by
  unfold scoreSharing
  by_cases hw : (st.1.kf a).nWords sc > minCommon
  · rw [if_pos hw]
    simp only []
    have hm : ∀ b : Bool, ((if b = true then
        (st.1.update a (fun k => k.setScore sc (voc.score qb (st.1.kf a).mBowVec)),
          st.2 ++ [(voc.score qb (st.1.kf a).mBowVec, a)])
        else (st.1.update a (fun k => k.setScore sc (voc.score qb (st.1.kf a).mBowVec)),
          st.2)).1) = st.1.update a (fun k => k.setScore sc (voc.score qb (st.1.kf a).mBowVec)) := by
      intro b; cases b <;> rfl
    rw [hm, Memory.update_kf]
    by_cases hpa : p = a
    · subst hpa
      simp [hw]
    · simp [hpa]
  · rw [if_neg hw]
    simp [hw]

/-- The scoring loop records every sharing keyframe above the common-word floor
whose score is kept, and leaves on every sharing keyframe above the floor its
similarity to the query. -/
theorem scoreFold_complete (sc : Scratch) (voc : ORBVocabulary) (qb : BowVector)
    (minCommon : Int) (keep : ℚ → Bool) (l : List KeyFramePtr) :
    ∀ st : Memory × List (ℚ × KeyFramePtr),
      (∀ x ∈ st.2, x ∈ (l.foldl (scoreSharing sc voc qb minCommon keep) st).2) ∧
      (∀ p ∈ l, (st.1.kf p).nWords sc > minCommon →
        keep (voc.score qb (st.1.kf p).mBowVec) = true →
        (voc.score qb (st.1.kf p).mBowVec, p) ∈
          (l.foldl (scoreSharing sc voc qb minCommon keep) st).2) ∧
      (∀ p, ((l.foldl (scoreSharing sc voc qb minCommon keep) st).1.kf p).simScore sc =
        if p ∈ l ∧ (st.1.kf p).nWords sc > minCommon then voc.score qb (st.1.kf p).mBowVec
        else (st.1.kf p).simScore sc) := by
  induction l with
  | nil =>
    intro st
    refine ⟨fun x hx => hx, fun p hp => absurd hp (List.not_mem_nil p), fun p => ?_⟩
    simp
  | cons a l ih =>
    intro st
    rw [List.foldl_cons]
    obtain ⟨i1, i2, i3⟩ := ih (scoreSharing sc voc qb minCommon keep st a)
    have hsame := scoreSharing_sameTags sc voc qb minCommon keep st a
    have hmono : ∀ x ∈ st.2, x ∈ (scoreSharing sc voc qb minCommon keep st a).2 := by
      intro x hx
      unfold scoreSharing
      split
      · simp only []
        split
        · exact List.mem_append_left _ hx
        · exact hx
      · exact hx
    refine ⟨fun x hx => i1 x (hmono x hx), fun p hp hw hk => ?_, fun p => ?_⟩
    · rcases List.mem_cons.mp hp with e | hp'
      · subst e
        apply i1
        unfold scoreSharing
        rw [if_pos hw]
        simp only []
        rw [if_pos hk]
        exact List.mem_append_right _ (List.mem_singleton_self _)
      · have := i2 p hp'
        rw [(hsame.2 p sc).2, (hsame.1.2 p).mBowVec] at this
        exact this hw hk
    · rw [i3 p, (hsame.2 p sc).2, (hsame.1.2 p).mBowVec, scoreSharing_simScore]
      by_cases hpa : p = a
      · subst hpa
        by_cases hw : (st.1.kf p).nWords sc > minCommon
        · simp [hw]
        · simp [hw]
      · simp [hpa]

/-! ## Single-precision rounding -/

theorem loopGather_list_visited (db : KeyFrameDatabase) (m : Memory) (pKF : KeyFramePtr) :
    ∀ q ∈ (loopGather db m pKF).2, ∃ w ∈ (m.kf pKF).mBowVec.words, q ∈ db.slot w := by
  unfold loopGather
  simp only []
  apply forEachSharing_induction_mem
    (fun st : Memory × List KeyFramePtr =>
      ∀ q ∈ st.2, ∃ w ∈ (m.kf pKF).mBowVec.words, q ∈ db.slot w)
  · intro st p hp h
    split
    · intro q hq
      rcases (tagUnlessConnected_tags_at _ _ _ st p).2 q hq with h' | h'
      · exact h q h'
      · rw [h']; exact hp
    · exact h
  · intro q hq; exact absurd hq (List.not_mem_nil q)

theorem eraseFirst_append_self (p : KeyFramePtr) (l : List KeyFramePtr) (h : p ∉ l) :
    eraseFirst p (l ++ [p]) = l := by
  induction l with
  | nil => simp [eraseFirst]
  | cons a l ih =>
    simp only [List.mem_cons, not_or] at h
    rw [List.cons_append, eraseFirst, if_neg h.1, ih h.2]

theorem eq_of_getD_eq (a b : List (List KeyFramePtr)) (hlen : a.length = b.length)
    (h : ∀ w, a.getD w [] = b.getD w []) : a = b := by
  apply List.ext_getElem hlen
  intro n h1 h2
  have := h n
  simp only [List.getD_eq_getElem?_getD, List.getElem?_eq_getElem h1,
    List.getElem?_eq_getElem h2, Option.getD_some] at this
  exact this

/-- C29. For an index in which `pKF` occurs in no slot and with the word ids of
`pKF` below the slot count, `erase(pKF)` applied to the result of `add(pKF)`
gives back exactly the index: every slot has its elements and their order
restored. -/
theorem erase_add_restores (db : KeyFrameDatabase) (m : Memory) (pKF : KeyFramePtr)
    (hfresh : ∀ l ∈ db.mvInvertedFile, pKF ∉ l)
    (hrange : ∀ w ∈ (m.kf pKF).mBowVec.words, w < db.mvInvertedFile.length) :
    erase (add db m pKF) m pKF = db := by
  have hadd := foldl_addWord_getD pKF (m.kf pKF).mBowVec.entries db.mvInvertedFile
    (m.kf pKF).mBowVec.nodup_words hrange
  have haddlen := foldl_addWord_length pKF (m.kf pKF).mBowVec.entries db.mvInvertedFile
  have her := foldl_eraseWord_getD pKF (m.kf pKF).mBowVec.entries
    ((m.kf pKF).mBowVec.entries.foldl (addWord pKF) db.mvInvertedFile)
    (m.kf pKF).mBowVec.nodup_words
  have herlen := foldl_eraseWord_length pKF (m.kf pKF).mBowVec.entries
    ((m.kf pKF).mBowVec.entries.foldl (addWord pKF) db.mvInvertedFile)
  have hinv : (m.kf pKF).mBowVec.entries.foldl (eraseWord pKF)
      ((m.kf pKF).mBowVec.entries.foldl (addWord pKF) db.mvInvertedFile) =
      db.mvInvertedFile := by
    apply eq_of_getD_eq _ _ (herlen.trans haddlen)
    intro w
    rw [her w, hadd w]
    by_cases hw : w ∈ List.map Prod.fst (m.kf pKF).mBowVec.entries
    · rw [if_pos hw, if_pos hw]
      apply eraseFirst_append_self
      rcases slot_mem_or_nil db.mvInvertedFile w with h | h
      · exact hfresh _ h
      · rw [h]; exact List.not_mem_nil pKF
    · rw [if_neg hw, if_neg hw]
  cases db with
  | mk voc inv =>
    simp only [erase, add] at hinv ⊢
    rw [hinv]

theorem erase_add_restores_witness :
    (∀ l ∈ sampleDb.mvInvertedFile, 1 ∉ l) ∧
      (∀ w ∈ ((sampleMemory [] false).kf 1).mBowVec.words, w < sampleDb.mvInvertedFile.length) ∧
      erase (add sampleDb (sampleMemory [] false) 1) (sampleMemory [] false) 1 = sampleDb :=
  ⟨by decide, by decide,
    erase_add_restores sampleDb (sampleMemory [] false) 1 (by decide) (by decide)⟩

/-! ## The common-word filter keeps the keyframe with the most shared words -/

theorem DetectRelocalizationCandidates_eq (db : KeyFrameDatabase) (m : Memory) (F : Frame)
    (pMap : MapPtr) :
    DetectRelocalizationCandidates db m F pMap =
      if (relocGather db m F).2.isEmpty then ([], (relocGather db m F).1)
      else if (relocScore db m F).2.isEmpty then ([], (relocScore db m F).1)
      else
        (((accumulate .reloc F.mnId none (relocScore db m F).1 (relocScore db m F).2 0).1.foldl
          (relocRetainOne (relocScore db m F).1 pMap
            (roundFloat ((3 / 4 : ℚ) *
              (accumulate .reloc F.mnId none (relocScore db m F).1 (relocScore db m F).2 0).2)))
          ([], [])).1, (relocScore db m F).1) := rfl

theorem tagAlways_listed (sc : Scratch) (id : Nat) (st : Memory × List KeyFramePtr)
    (p : KeyFramePtr)
    (h : ∀ q ∈ st.2, (st.1.kf q).query sc = (id : Int) ∧ 1 ≤ (st.1.kf q).nWords sc) :
    ∀ q ∈ (tagAlways sc id st p).2,
      ((tagAlways sc id st p).1.kf q).query sc = (id : Int) ∧
        1 ≤ ((tagAlways sc id st p).1.kf q).nWords sc := by
  unfold tagAlways
  by_cases h1 : (st.1.kf p).query sc ≠ (id : Int)
  · simp only [if_pos h1]
    intro q hq
    by_cases hqp : q = p
    · subst hqp
      simp
    · have hq' : q ∈ st.2 := by
        rcases List.mem_append.mp hq with h' | h'
        · exact h'
        · exact absurd (List.mem_singleton.mp h') hqp
      simp only [Memory.update_kf, hqp, if_false]
      exact h q hq'
  · simp only [if_neg h1]
    intro q hq
    by_cases hqp : q = p
    · subst hqp
      simp only [Memory.update_kf, if_true, KeyFrame.query_setWords, KeyFrame.nWords_setWords]
      have := h q hq
      exact ⟨this.1, by omega⟩
    · simp only [Memory.update_kf, hqp, if_false]
      exact h q hq

theorem tagUnlessConnected_listed (sc : Scratch) (id : Nat) (conn : List KeyFramePtr)
    (st : Memory × List KeyFramePtr) (p : KeyFramePtr)
    (h : ∀ q ∈ st.2, (st.1.kf q).query sc = (id : Int) ∧ 1 ≤ (st.1.kf q).nWords sc) :
    ∀ q ∈ (tagUnlessConnected sc id conn st p).2,
      ((tagUnlessConnected sc id conn st p).1.kf q).query sc = (id : Int) ∧
        1 ≤ ((tagUnlessConnected sc id conn st p).1.kf q).nWords sc := by
  unfold tagUnlessConnected
  by_cases h1 : (st.1.kf p).query sc ≠ (id : Int)
  · by_cases h2 : p ∉ conn
    · simp only [if_pos h1, if_pos h2]
      intro q hq
      by_cases hqp : q = p
      · subst hqp
        simp
      · have hq' : q ∈ st.2 := by
          rcases List.mem_append.mp hq with h' | h'
          · exact h'
          · exact absurd (List.mem_singleton.mp h') hqp
        simp only [Memory.update_kf, hqp, if_false]
        exact h q hq'
    · simp only [if_pos h1, if_neg h2]
      intro q hq
      have hqp : q ≠ p := fun e => h1 (e ▸ (h q hq).1)
      simp only [Memory.update_kf, hqp, if_false]
      exact h q hq
  · simp only [if_neg h1]
    intro q hq
    by_cases hqp : q = p
    · subst hqp
      simp only [Memory.update_kf, if_true, KeyFrame.query_setWords, KeyFrame.nWords_setWords]
      have := h q hq
      exact ⟨this.1, by omega⟩
    · simp only [Memory.update_kf, hqp, if_false]
      exact h q hq

theorem relocGather_listed (db : KeyFrameDatabase) (m : Memory) (F : Frame) :
    ∀ q ∈ (relocGather db m F).2, ((relocGather db m F).1.kf q).query .reloc = (F.mnId : Int) ∧
      1 ≤ ((relocGather db m F).1.kf q).nWords .reloc := by
  unfold relocGather
  apply forEachSharing_induction (fun st : Memory × List KeyFramePtr =>
    ∀ q ∈ st.2, (st.1.kf q).query .reloc = (F.mnId : Int) ∧ 1 ≤ (st.1.kf q).nWords .reloc)
  · intro st p h
    exact tagAlways_listed .reloc F.mnId st p h
  · intro q hq; exact absurd hq (List.not_mem_nil q)

theorem nbestGather_listed (db : KeyFrameDatabase) (m : Memory) (pKF : KeyFramePtr) :
    ∀ q ∈ (nbestGather db m pKF).2,
      ((nbestGather db m pKF).1.kf q).query .placeRecognition = ((m.kf pKF).mnId : Int) ∧
        1 ≤ ((nbestGather db m pKF).1.kf q).nWords .placeRecognition := by
  unfold nbestGather
  apply forEachSharing_induction (fun st : Memory × List KeyFramePtr =>
    ∀ q ∈ st.2, (st.1.kf q).query .placeRecognition = ((m.kf pKF).mnId : Int) ∧
      1 ≤ (st.1.kf q).nWords .placeRecognition)
  · intro st p h
    exact tagUnlessConnected_listed _ _ _ st p h
  · intro q hq; exact absurd hq (List.not_mem_nil q)

/-- In a scoring loop that keeps every score, a non-empty sharing list whose
members counted at least one word yields the pair of a keyframe with the
maximal counter. -/
theorem scoreFold_keeps_maximum (sc : Scratch) (voc : ORBVocabulary) (qb : BowVector)
    (m : Memory) (l : List KeyFramePtr) (hne : l ≠ [])
    (hw : ∀ q ∈ l, 1 ≤ (m.kf q).nWords sc) :
    ∃ q ∈ l, (m.kf q).nWords sc = maxCommonWords sc m l ∧
      (voc.score qb (m.kf q).mBowVec, q) ∈
        (l.foldl (scoreSharing sc voc qb (minCommonWords (maxCommonWords sc m l))
          (fun _ => true)) (m, [])).2 := by
  obtain ⟨p, hp⟩ := List.exists_mem_of_ne_nil l hne
  obtain ⟨hmax, q, hq, hqm⟩ := maxCommonWords_attained sc m l p hp hw
  refine ⟨q, hq, hqm, ?_⟩
  apply (scoreFold_complete sc voc qb (minCommonWords (maxCommonWords sc m l))
    (fun _ => true) l (m, [])).2.1 q hq
  · show (m.kf q).nWords sc > minCommonWords (maxCommonWords sc m l)
    rw [hqm]
    exact minCommonWords_lt _ hmax
  · rfl

/-- C28. The value `(int)(maxCommonWords*0.8f)` is strictly below
`maxCommonWords` for every `maxCommonWords ≥ 1`; so when the sharing list of
`DetectRelocalizationCandidates` or of `DetectNBestCandidates` is non-empty, a
keyframe with the maximal shared-word counter is scored and `lScoreAndMatch` is
non-empty. -/
theorem common_word_filter_keeps_maximum (db : KeyFrameDatabase) (m : Memory) (F : Frame)
    (pKF : KeyFramePtr) :
    (∀ maxCommon : Int, 1 ≤ maxCommon → minCommonWords maxCommon < maxCommon) ∧
      ((relocGather db m F).2 ≠ [] →
        (∃ q ∈ (relocGather db m F).2,
          ((relocGather db m F).1.kf q).nWords .reloc =
              maxCommonWords .reloc (relocGather db m F).1 (relocGather db m F).2 ∧
            (db.mpVoc.score F.mBowVec ((relocGather db m F).1.kf q).mBowVec, q) ∈
              (relocScore db m F).2) ∧
        (relocScore db m F).2 ≠ []) ∧
      ((nbestGather db m pKF).2 ≠ [] →
        (∃ q ∈ (nbestGather db m pKF).2,
          ((nbestGather db m pKF).1.kf q).nWords .placeRecognition =
              maxCommonWords .placeRecognition (nbestGather db m pKF).1
                (nbestGather db m pKF).2 ∧
            (db.mpVoc.score (m.kf pKF).mBowVec ((nbestGather db m pKF).1.kf q).mBowVec, q) ∈
              (nbestScore db m pKF).2) ∧
        (nbestScore db m pKF).2 ≠ []) := by
  refine ⟨fun x hx => minCommonWords_lt x hx, fun hne => ?_, fun hne => ?_⟩
  · obtain ⟨q, hq, h1, h2⟩ := scoreFold_keeps_maximum .reloc db.mpVoc F.mBowVec
      (relocGather db m F).1 (relocGather db m F).2 hne
      (fun q hq => (relocGather_listed db m F q hq).2)
    exact ⟨⟨q, hq, h1, h2⟩, List.ne_nil_of_mem h2⟩
  · obtain ⟨q, hq, h1, h2⟩ := scoreFold_keeps_maximum .placeRecognition db.mpVoc
      (m.kf pKF).mBowVec (nbestGather db m pKF).1 (nbestGather db m pKF).2 hne
      (fun q hq => (nbestGather_listed db m pKF q hq).2)
    exact ⟨⟨q, hq, h1, h2⟩, List.ne_nil_of_mem h2⟩

theorem common_word_filter_keeps_maximum_witness :
    (relocGather sampleDbA (sampleMemory [] false) sampleFrameA).2 ≠ [] ∧
      (relocScore sampleDbA (sampleMemory [] false) sampleFrameA).2 ≠ [] :=
  ⟨by decide,
    ((common_word_filter_keeps_maximum sampleDbA (sampleMemory [] false) sampleFrameA 1).2.1
      (by decide)).2⟩

/-! ## `DetectLoopCandidates` called twice with the same keyframe -/

theorem loopVisit_tags (m : Memory) (pKF : KeyFramePtr) (st : Memory × List KeyFramePtr)
    (p : KeyFramePtr) (hsame : m.SameObjects st.1) :
    m.SameObjects (loopVisit m pKF st p).1 ∧
      (∀ q, (st.1.kf q).query .loop = ((m.kf pKF).mnId : Int) →
        ((loopVisit m pKF st p).1.kf q).query .loop = ((m.kf pKF).mnId : Int)) ∧
      ((m.kf p).mpMap = (m.kf pKF).mpMap → p ∉ (m.kf pKF).mConnectedKeyFrames →
        ((loopVisit m pKF st p).1.kf p).query .loop = ((m.kf pKF).mnId : Int)) := by
  unfold loopVisit
  by_cases hmap : (st.1.kf p).mpMap = (m.kf pKF).mpMap
  · rw [if_pos hmap]
    refine ⟨Memory.sameObjects_trans hsame (tagUnlessConnected_sameObjects _ _ _ st p), ?_, ?_⟩
    · intro q hq
      unfold tagUnlessConnected
      by_cases h1 : (st.1.kf p).query .loop ≠ ((m.kf pKF).mnId : Int)
      · have hqp : q ≠ p := fun e => h1 (e ▸ hq)
        by_cases h2 : p ∉ (m.kf pKF).mConnectedKeyFrames
        · simp only [if_pos h1, if_pos h2, Memory.update_kf, hqp, if_false]
          exact hq
        · simp only [if_pos h1, if_neg h2, Memory.update_kf, hqp, if_false]
          exact hq
      · simp only [if_neg h1, Memory.update_kf]
        split
        · simp only [KeyFrame.query_setWords]; exact hq
        · exact hq
    · intro _ hc
      unfold tagUnlessConnected
      by_cases h1 : (st.1.kf p).query .loop ≠ ((m.kf pKF).mnId : Int)
      · simp only [if_pos h1, if_pos hc, Memory.update_kf, if_true, KeyFrame.query_setWords,
          KeyFrame.query_setQuery]
      · simp only [if_neg h1, Memory.update_kf, if_true, KeyFrame.query_setWords]
        exact not_not.mp h1
  · rw [if_neg hmap]
    refine ⟨hsame, fun q hq => hq, fun hm _ => ?_⟩
    rw [← (hsame.2 p).mpMap] at hm
    exact absurd hm hmap

theorem loopVisit_fold_tags (m : Memory) (pKF : KeyFramePtr) (vs : List KeyFramePtr) :
    ∀ st : Memory × List KeyFramePtr, m.SameObjects st.1 →
      m.SameObjects (vs.foldl (loopVisit m pKF) st).1 ∧
        (∀ q, (st.1.kf q).query .loop = ((m.kf pKF).mnId : Int) →
          ((vs.foldl (loopVisit m pKF) st).1.kf q).query .loop = ((m.kf pKF).mnId : Int)) ∧
        (∀ p ∈ vs, (m.kf p).mpMap = (m.kf pKF).mpMap → p ∉ (m.kf pKF).mConnectedKeyFrames →
          ((vs.foldl (loopVisit m pKF) st).1.kf p).query .loop = ((m.kf pKF).mnId : Int)) := by
  induction vs with
  | nil =>
    intro st h
    exact ⟨h, fun q hq => hq, fun p hp => absurd hp (List.not_mem_nil p)⟩
  | cons a vs ih =>
    intro st h
    rw [List.foldl_cons]
    obtain ⟨s1, s2, s3⟩ := loopVisit_tags m pKF st a h
    obtain ⟨i1, i2, i3⟩ := ih _ s1
    refine ⟨i1, fun q hq => i2 q (s2 q hq), fun p hp hm hc => ?_⟩
    rcases List.mem_cons.mp hp with e | hp'
    · subst e
      exact i2 _ (s3 hm hc)
    · exact i3 p hp' hm hc

/-- After `DetectLoopCandidates`, whatever the scratch state it started from,
the objects are unchanged and every same-map, non-connected keyframe stored in
a slot of the query's words carries the query's id as loop-query tag. -/
theorem DetectLoopCandidates_leaves_tags (db : KeyFrameDatabase) (m : Memory)
    (pKF : KeyFramePtr) (minScore : ℚ) :
    m.SameObjects (DetectLoopCandidates db m pKF minScore).2 ∧
      ∀ w ∈ (m.kf pKF).mBowVec.words, ∀ p ∈ db.slot w,
        (m.kf p).mpMap = (m.kf pKF).mpMap → p ∉ (m.kf pKF).mConnectedKeyFrames →
          ((DetectLoopCandidates db m pKF minScore).2.kf p).query .loop =
            ((m.kf pKF).mnId : Int) := by
  obtain ⟨g1, _, g3⟩ := loopVisit_fold_tags m pKF
    ((m.kf pKF).mBowVec.entries.flatMap (fun vit => db.mvInvertedFile.getD vit.1 []))
    (m, []) (Memory.sameObjects_refl m)
  rw [← loopGather_eq_foldl] at g1 g3
  obtain ⟨t1, _⟩ := scoreFold_spec .loop db.mpVoc (m.kf pKF).mBowVec
    (loopMinCommonWords db m pKF) (fun si => decide (si ≥ minScore))
    (loopGather db m pKF).2 ((loopGather db m pKF).1, [])
  have hg : ∀ w ∈ (m.kf pKF).mBowVec.words, ∀ p ∈ db.slot w,
      (m.kf p).mpMap = (m.kf pKF).mpMap → p ∉ (m.kf pKF).mConnectedKeyFrames →
        ((loopGather db m pKF).1.kf p).query .loop = ((m.kf pKF).mnId : Int) :=
    fun w hw p hp => g3 p ((mem_visited_iff _ _ _).mpr ⟨w, hw, hp⟩)
  have hs : ∀ w ∈ (m.kf pKF).mBowVec.words, ∀ p ∈ db.slot w,
      (m.kf p).mpMap = (m.kf pKF).mpMap → p ∉ (m.kf pKF).mConnectedKeyFrames →
        ((loopScore db m pKF minScore).1.kf p).query .loop = ((m.kf pKF).mnId : Int) := by
    intro w hw p hp hm hc
    unfold loopScore
    rw [(t1.2 p .loop).1]
    exact hg w hw p hp hm hc
  have hso : m.SameObjects (loopScore db m pKF minScore).1 :=
    Memory.sameObjects_trans g1 t1.1
  unfold DetectLoopCandidates
  simp only []
  split
  · exact ⟨g1, hg⟩
  · split
    · exact ⟨hso, hs⟩
    · exact ⟨hso, hs⟩

/-- A visit by `tagUnlessConnected` to a keyframe that carries the query tag or
is connected records nothing and writes no query tag. -/
theorem tagUnlessConnected_inert (sc : Scratch) (id : Nat) (conn : List KeyFramePtr)
    (st : Memory × List KeyFramePtr) (p : KeyFramePtr)
    (h : (st.1.kf p).query sc = (id : Int) ∨ p ∈ conn) :
    (tagUnlessConnected sc id conn st p).2 = st.2 ∧
      ∀ q sc', ((tagUnlessConnected sc id conn st p).1.kf q).query sc' =
        (st.1.kf q).query sc' := by
  unfold tagUnlessConnected
  have hcount : ∀ (m0 : Memory) (q : KeyFramePtr) (sc' : Scratch),
      ((m0.update p (fun k => k.setWords sc (k.nWords sc + 1))).kf q).query sc' =
        (m0.kf q).query sc' := by
    intro m0 q sc'
    rw [Memory.update_kf]
    split <;> simp
  by_cases h1 : (st.1.kf p).query sc ≠ (id : Int)
  · have hc : ¬ p ∉ conn := not_not.mpr (h.resolve_left h1)
    simp only [if_pos h1, if_neg hc]
    refine ⟨trivial, fun q sc' => ?_⟩
    rw [hcount, Memory.update_kf]
    split <;> simp
  · simp only [if_neg h1]
    exact ⟨trivial, fun q sc' => hcount _ q sc'⟩

/-- C26. A second call `DetectLoopCandidates(pKF, minScore)` made right after a
first one with the same keyframe, on the same index and with the memory the
first call left, returns the empty vector, whatever the scratch state before
the first call: the loop-query tags written by the first call are still there. -/
theorem DetectLoopCandidates_second_call_empty (db : KeyFrameDatabase) (m : Memory)
    (pKF : KeyFramePtr) (minScore : ℚ) :
    (DetectLoopCandidates db (DetectLoopCandidates db m pKF minScore).2 pKF minScore).1 = [] := by
  obtain ⟨hso, htag⟩ := DetectLoopCandidates_leaves_tags db m pKF minScore
  generalize (DetectLoopCandidates db m pKF minScore).2 = m1 at hso htag
  have hK := hso.2 pKF
  have hgather : (loopGather db m1 pKF).2 = [] := by
    have key : (loopGather db m1 pKF).2 = [] ∧
        (∀ q, ((loopGather db m1 pKF).1.kf q).query .loop = (m1.kf q).query .loop) ∧
        m1.SameObjects (loopGather db m1 pKF).1 := by
      unfold loopGather
      simp only []
      apply forEachSharing_induction_mem (fun st : Memory × List KeyFramePtr =>
        st.2 = [] ∧ (∀ q, (st.1.kf q).query .loop = (m1.kf q).query .loop) ∧
          m1.SameObjects st.1)
      · intro st p ⟨w, hw, hp⟩ ⟨h1, h2, h3⟩
        split
        · rename_i hmap
          have hin : (st.1.kf p).query .loop = ((m1.kf pKF).mnId : Int) ∨
              p ∈ (m1.kf pKF).mConnectedKeyFrames := by
            by_cases hc : p ∈ (m1.kf pKF).mConnectedKeyFrames
            · exact Or.inr hc
            · left
              rw [h2 p, hK.mnId]
              apply htag w (by rw [← hK.mBowVec]; exact hw) p hp
              · rw [← (hso.2 p).mpMap, ← (h3.2 p).mpMap, hmap, hK.mpMap]
              · rw [← hK.mConnectedKeyFrames]; exact hc
          obtain ⟨e1, e2⟩ := tagUnlessConnected_inert .loop (m1.kf pKF).mnId
            (m1.kf pKF).mConnectedKeyFrames st p hin
          refine ⟨e1.trans h1, fun q => (e2 q .loop).trans (h2 q), ?_⟩
          exact Memory.sameObjects_trans h3 (tagUnlessConnected_sameObjects _ _ _ st p)
        · exact ⟨h1, h2, h3⟩
      · exact ⟨rfl, fun q => rfl, Memory.sameObjects_refl m1⟩
    exact key.1
  unfold DetectLoopCandidates
  simp [hgather]

/-! ## `DetectLoopCandidates`: every returned keyframe reaches `minScore` -/

theorem accumulateNeighbour_best (sc : Scratch) (id : Nat) (wf : Option Int) (m : Memory)
    (l : List KeyFramePtr) :
    ∀ a : AccState,
      a.bestScore ≤ (l.foldl (accumulateNeighbour sc id wf m) a).bestScore ∧
        (((l.foldl (accumulateNeighbour sc id wf m) a).pBestKF = a.pBestKF ∧
            (l.foldl (accumulateNeighbour sc id wf m) a).bestScore = a.bestScore) ∨
          ((m.kf (l.foldl (accumulateNeighbour sc id wf m) a).pBestKF).query sc = (id : Int) ∧
            aboveWordFloor wf
              ((m.kf (l.foldl (accumulateNeighbour sc id wf m) a).pBestKF).nWords sc) = true ∧
            (m.kf (l.foldl (accumulateNeighbour sc id wf m) a).pBestKF).simScore sc =
              (l.foldl (accumulateNeighbour sc id wf m) a).bestScore)) := by
  induction l with
  | nil => intro a; exact ⟨le_refl _, Or.inl ⟨rfl, rfl⟩⟩
  | cons b l ih =>
    intro a
    rw [List.foldl_cons]
    obtain ⟨i1, i2⟩ := ih (accumulateNeighbour sc id wf m a b)
    have hstep : a.bestScore ≤ (accumulateNeighbour sc id wf m a b).bestScore ∧
        (((accumulateNeighbour sc id wf m a b).pBestKF = a.pBestKF ∧
            (accumulateNeighbour sc id wf m a b).bestScore = a.bestScore) ∨
          ((m.kf (accumulateNeighbour sc id wf m a b).pBestKF).query sc = (id : Int) ∧
            aboveWordFloor wf
              ((m.kf (accumulateNeighbour sc id wf m a b).pBestKF).nWords sc) = true ∧
            (m.kf (accumulateNeighbour sc id wf m a b).pBestKF).simScore sc =
              (accumulateNeighbour sc id wf m a b).bestScore)) := by
      unfold accumulateNeighbour
      by_cases hc : (m.kf b).query sc = (id : Int) ∧
          aboveWordFloor wf ((m.kf b).nWords sc) = true
      · rw [if_pos hc]
        simp only []
        by_cases hgt : (m.kf b).simScore sc > a.bestScore
        · rw [if_pos hgt]
          exact ⟨le_of_lt hgt, Or.inr ⟨hc.1, hc.2, rfl⟩⟩
        · rw [if_neg hgt]
          exact ⟨le_refl _, Or.inl ⟨rfl, rfl⟩⟩
      · rw [if_neg hc]
        exact ⟨le_refl _, Or.inl ⟨rfl, rfl⟩⟩
    refine ⟨le_trans hstep.1 i1, ?_⟩
    rcases i2 with ⟨e1, e2⟩ | h
    · rcases hstep.2 with ⟨f1, f2⟩ | h'
      · exact Or.inl ⟨e1.trans f1, e2.trans f2⟩
      · right
        rw [e1, e2]
        exact h'
    · exact Or.inr h

/-- Every accumulated tuple's representative is the scored keyframe, or a
neighbour that passed the neighbour test and whose stored score is at least the
scored keyframe's score. -/
theorem accumulateFold_rep_score (sc : Scratch) (id : Nat) (wf : Option Int) (m : Memory)
    (l : List (ℚ × KeyFramePtr)) :
    ∀ st : List (ℚ × KeyFramePtr) × ℚ,
      ∀ x ∈ (l.foldl (accumulateOne sc id wf m) st).1,
        x ∈ st.1 ∨ ∃ y ∈ l, x.2 = y.2 ∨
          ((m.kf x.2).query sc = (id : Int) ∧
            aboveWordFloor wf ((m.kf x.2).nWords sc) = true ∧
            y.1 ≤ (m.kf x.2).simScore sc) := by
  induction l with
  | nil => intro st x hx; exact Or.inl hx
  | cons y l ih =>
    intro st x hx
    rw [List.foldl_cons] at hx
    rcases ih _ x hx with h | ⟨z, hz, h⟩
    · unfold accumulateOne at h
      simp only [] at h
      rcases List.mem_append.mp h with h' | h'
      · exact Or.inl h'
      · rw [List.mem_singleton] at h'
        right
        refine ⟨y, List.mem_cons_self _ _, ?_⟩
        obtain ⟨b1, b2⟩ := accumulateNeighbour_best sc id wf m
          (GetBestCovisibilityKeyFrames (m.kf y.2) 10)
          { bestScore := y.1, accScore := y.1, pBestKF := y.2 }
        rw [h']
        rcases b2 with ⟨e, _⟩ | ⟨q1, q2, q3⟩
        · exact Or.inl e
        · exact Or.inr ⟨q1, q2, by rw [q3]; exact b1⟩
    · exact Or.inr ⟨z, List.mem_cons_of_mem _ hz, h⟩

/-- C25. With a fresh query id, every keyframe returned by
`DetectLoopCandidates(pKF, minScore)` has a similarity to `pKF` of at least
`minScore`: a representative is a scored keyframe that reached `minScore`, or a
neighbour whose score exceeds that of such a keyframe. -/
theorem DetectLoopCandidates_scores_reach_minScore (db : KeyFrameDatabase) (m : Memory)
    (pKF : KeyFramePtr) (minScore : ℚ)
    (hfresh : ∀ q, (m.kf q).mnLoopQuery ≠ ((m.kf pKF).mnId : Int)) :
    ∀ p ∈ (DetectLoopCandidates db m pKF minScore).1,
      minScore ≤ db.mpVoc.score (m.kf pKF).mBowVec (m.kf p).mBowVec := by
  intro p hp
  obtain ⟨hg, _⟩ := loopGather_gathered db m pKF hfresh
  obtain ⟨t1, t2⟩ := scoreFold_spec .loop db.mpVoc (m.kf pKF).mBowVec
    (loopMinCommonWords db m pKF) (fun si => decide (si ≥ minScore))
    (loopGather db m pKF).2 ((loopGather db m pKF).1, [])
  obtain ⟨_, _, c3⟩ := scoreFold_complete .loop db.mpVoc (m.kf pKF).mBowVec
    (loopMinCommonWords db m pKF) (fun si => decide (si ≥ minScore))
    (loopGather db m pKF).2 ((loopGather db m pKF).1, [])
  have hS : ∀ y ∈ (loopScore db m pKF minScore).2,
      minScore ≤ y.1 ∧ y.1 = db.mpVoc.score (m.kf pKF).mBowVec (m.kf y.2).mBowVec := by
    intro y hy
    rcases t2 y hy with h | ⟨_, hs, hk, _⟩
    · exact absurd h (List.not_mem_nil y)
    · simp only [decide_eq_true_eq] at hk
      refine ⟨hk, ?_⟩
      rw [hs, (hg.same.2 y.2).mBowVec]
  unfold DetectLoopCandidates at hp
  simp only [] at hp
  split at hp
  · exact absurd hp (List.not_mem_nil p)
  · split at hp
    · exact absurd hp (List.not_mem_nil p)
    · simp only [retain] at hp
      rcases retainFold_mem _ _ _ p hp with h | ⟨x, hx, hxp, _⟩
      · exact absurd h (List.not_mem_nil p)
      · rcases accumulateFold_rep_score _ _ _ _ _ _ x hx with h | ⟨y, hy, h⟩
        · exact absurd h (List.not_mem_nil x)
        · obtain ⟨hy1, hy2⟩ := hS y hy
          rcases h with h | ⟨hq, ha, hle⟩
          · rw [← hxp, h, ← hy2]; exact hy1
          · have hq' : ((loopGather db m pKF).1.kf x.2).query .loop =
                ((m.kf pKF).mnId : Int) := by
              rw [← (t1.2 x.2 .loop).1]; exact hq
            have hxL := hg.tagged x.2 hq'
            have ha' : ((loopGather db m pKF).1.kf x.2).nWords .loop >
                loopMinCommonWords db m pKF := by
              rw [← (t1.2 x.2 .loop).2]
              simpa [aboveWordFloor] using ha
            have hsc := c3 x.2
            rw [if_pos ⟨hxL, ha'⟩, (hg.same.2 x.2).mBowVec] at hsc
            have hsc' : ((loopScore db m pKF minScore).1.kf x.2).simScore .loop =
                db.mpVoc.score (m.kf pKF).mBowVec (m.kf x.2).mBowVec := hsc
            rw [← hxp, ← hsc']
            exact le_trans hy1 hle

theorem DetectLoopCandidates_scores_reach_minScore_witness :
    (∀ q, ((sampleMemory [] false).kf q).mnLoopQuery ≠
        (((sampleMemory [] false).kf 1).mnId : Int)) ∧
      (∀ p ∈ (DetectLoopCandidates sampleDb (sampleMemory [] false) 1 (1 / 4)).1,
        (1 / 4 : ℚ) ≤ sampleDb.mpVoc.score ((sampleMemory [] false).kf 1).mBowVec
          ((sampleMemory [] false).kf p).mBowVec) :=
  ⟨sampleMemory_fresh [] false _,
    DetectLoopCandidates_scores_reach_minScore sampleDb (sampleMemory [] false) 1 (1 / 4)
      (sampleMemory_fresh [] false _)⟩

/-! ## Retain and deduplicate in `DetectLoopCandidates` -/

theorem accumulateOne_eq (sc : Scratch) (id : Nat) (wf : Option Int) (m : Memory)
    (st : List (ℚ × KeyFramePtr) × ℚ) (it : ℚ × KeyFramePtr) :
    accumulateOne sc id wf m st it =
      (st.1 ++ [accumulatedTuple sc id wf m it],
        if (accumulatedTuple sc id wf m it).1 > st.2 then (accumulatedTuple sc id wf m it).1
        else st.2) := rfl

/-- The accumulation loop emits the tuples of the scored pairs in order, and
its `bestAccScore` is the maximum of its start value and their accumulated
scores. -/
theorem accumulate_eq_map (sc : Scratch) (id : Nat) (wf : Option Int) (m : Memory)
    (l : List (ℚ × KeyFramePtr)) :
    ∀ st : List (ℚ × KeyFramePtr) × ℚ,
      l.foldl (accumulateOne sc id wf m) st =
        (st.1 ++ l.map (accumulatedTuple sc id wf m),
          (l.map (accumulatedTuple sc id wf m)).foldl (fun best x => max best x.1) st.2) := by
  induction l with
  | nil => intro st; simp
  | cons y l ih =>
    intro st
    rw [List.foldl_cons, ih, accumulateOne_eq]
    simp only [List.map_cons, List.foldl_cons, List.append_assoc, List.singleton_append]
    congr 2
    by_cases hgt : (accumulatedTuple sc id wf m y).1 > st.2
    · rw [if_pos hgt, max_eq_right (le_of_lt hgt)]
    · rw [if_neg hgt, max_eq_left (not_lt.mp hgt)]

theorem firstOccurrences_mem (l : List KeyFramePtr) (p : KeyFramePtr) :
    p ∈ firstOccurrences l ↔ p ∈ l := by
  induction l with
  | nil => simp [firstOccurrences]
  | cons a l ih =>
    simp only [firstOccurrences, List.mem_cons, List.mem_filter, decide_eq_true_eq, ih]
    constructor
    · rintro (h | ⟨h, _⟩)
      · exact Or.inl h
      · exact Or.inr h
    · intro h
      by_cases hpa : p = a
      · exact Or.inl hpa
      · exact Or.inr ⟨h.resolve_left hpa, hpa⟩

theorem firstOccurrences_nodup (l : List KeyFramePtr) : (firstOccurrences l).Nodup := by
  induction l with
  | nil => exact List.nodup_nil
  | cons a l ih =>
    simp only [firstOccurrences, List.nodup_cons, List.mem_filter, decide_eq_true_eq,
      ne_eq, not_true_eq_false, and_false, not_false_eq_true, true_and]
    exact ih.filter _

/-- The retention loop appends to the output vector, in order, the first
occurrences of the representatives above the threshold that the vector does
not hold yet. -/
theorem retainFold_eq (thr : ℚ) (l : List (ℚ × KeyFramePtr)) :
    ∀ st : List KeyFramePtr × List KeyFramePtr, (∀ p, p ∈ st.2 ↔ p ∈ st.1) →
      (l.foldl (retainOne thr) st).1 =
        st.1 ++ (firstOccurrences ((l.filter (fun x => decide (x.1 > thr))).map Prod.snd)).filter
          (fun q => decide (q ∉ st.1)) := by
  induction l with
  | nil => intro st _; simp [firstOccurrences]
  | cons y l ih =>
    intro st h
    rw [List.foldl_cons]
    have hstep : retainOne thr st y =
        if y.1 > thr then if y.2 ∉ st.2 then (st.1 ++ [y.2], y.2 :: st.2) else st else st := rfl
    rw [hstep]
    by_cases h1 : y.1 > thr
    · have hf : (y :: l).filter (fun x => decide (x.1 > thr)) =
          y :: l.filter (fun x => decide (x.1 > thr)) := by
        rw [List.filter_cons, if_pos (by simpa using h1)]
      rw [if_pos h1, hf, List.map_cons, firstOccurrences]
      by_cases h2 : y.2 ∉ st.2
      · have h2' : y.2 ∉ st.1 := fun hc => h2 ((h y.2).mpr hc)
        rw [if_pos h2, ih]
        · simp only [List.append_assoc, List.singleton_append]
          rw [List.filter_cons, if_pos (by simpa using h2'), List.filter_filter]
          congr 2
          apply List.filter_congr
          intro q _
          simp only [List.mem_append, List.mem_singleton, not_or, ne_eq, Bool.decide_and,
            decide_not, Bool.and_comm]
        · intro p
          show p ∈ y.2 :: st.2 ↔ p ∈ st.1 ++ [y.2]
          rw [List.mem_cons, List.mem_append, List.mem_singleton, h p]
          exact or_comm
      · have h2' : y.2 ∈ st.1 := (h y.2).mp (not_not.mp h2)
        rw [if_neg h2, ih st h]
        rw [List.filter_cons, if_neg (by simpa using h2'), List.filter_filter]
        congr 1
        apply List.filter_congr
        intro q _
        by_cases hq : q ∈ st.1
        · simp [hq]
        · have : q ≠ y.2 := fun e => hq (e ▸ h2')
          simp [hq, this]
    · have hf : (y :: l).filter (fun x => decide (x.1 > thr)) =
          l.filter (fun x => decide (x.1 > thr)) := by
        rw [List.filter_cons, if_neg (by simpa using h1)]
      rw [if_neg h1, hf]
      exact ih st h

/-- C23 fails as stated: the threshold of the source is the rounded product
`0.75f*bestAccScore`.  With the scores `1/2 + 2^-24` for `K2` and `3/8 + 2^-24`
for `K3` (both single-precision numbers) and no neighbours, the exact product
`0.75 * (1/2 + 2^-24) = 3/8 + 1.5 * 2^-25` lies halfway between two
single-precision numbers and rounds to `3/8 + 2^-24`, the score of `K3`: the
source returns `[K2]`, the list of the claim is `[K3, K2]`. -/
theorem DetectLoopCandidates_threshold_rounds :
    roundFloat (1 / 2 + 1 / 2 ^ 24) = 1 / 2 + 1 / 2 ^ 24 ∧
      roundFloat (3 / 8 + 1 / 2 ^ 24) = 3 / 8 + 1 / 2 ^ 24 ∧
      loopTuples thresholdDb isolatedMemory 1 0 =
        [(3 / 8 + 1 / 2 ^ 24, 3), (1 / 2 + 1 / 2 ^ 24, 2)] ∧
      specThreshold 0 (loopTuples thresholdDb isolatedMemory 1 0) = 3 / 8 + 3 / 2 ^ 26 ∧
      floatThreshold 0 (loopTuples thresholdDb isolatedMemory 1 0) = 3 / 8 + 1 / 2 ^ 24 ∧
      (DetectLoopCandidates thresholdDb isolatedMemory 1 0).1 = [2] ∧
      specRetained 0 (loopTuples thresholdDb isolatedMemory 1 0) = [3, 2] := by
  refine ⟨by decide!, by decide!, by decide!, by decide!, by decide!, by decide!, by decide!⟩

/-- C23, as amended. The vector returned by `DetectLoopCandidates` holds the
representatives of the accumulated tuples whose accumulated score is strictly
greater than the single-precision product `0.75f × max(bestAccScore, minScore)`
(the exact product rounded to nearest), in the order of their first qualifying
tuple, each once. -/
theorem DetectLoopCandidates_retained (db : KeyFrameDatabase) (m : Memory) (pKF : KeyFramePtr)
    (minScore : ℚ) :
    (DetectLoopCandidates db m pKF minScore).1 =
        retainedAbove (floatThreshold minScore (loopTuples db m pKF minScore))
          (loopTuples db m pKF minScore) ∧
      floatThreshold minScore (loopTuples db m pKF minScore) =
        roundFloat ((3 / 4 : ℚ) *
          (loopTuples db m pKF minScore).foldl (fun best x => max best x.1) minScore) ∧
      (DetectLoopCandidates db m pKF minScore).1.Nodup ∧
      (∀ p, p ∈ (DetectLoopCandidates db m pKF minScore).1 ↔
        ∃ x ∈ loopTuples db m pKF minScore, x.2 = p ∧
          x.1 > floatThreshold minScore (loopTuples db m pKF minScore)) := by
  have hacc := accumulate_eq_map .loop (m.kf pKF).mnId (some (loopMinCommonWords db m pKF))
    (loopScore db m pKF minScore).1 (loopScore db m pKF minScore).2 ([], minScore)
  have hT : loopTuples db m pKF minScore =
      (loopScore db m pKF minScore).2.map
        (accumulatedTuple .loop (m.kf pKF).mnId (some (loopMinCommonWords db m pKF))
          (loopScore db m pKF minScore).1) := by
    unfold loopTuples accumulate
    rw [hacc]
    simp
  have hmain : (DetectLoopCandidates db m pKF minScore).1 =
      retainedAbove (floatThreshold minScore (loopTuples db m pKF minScore))
        (loopTuples db m pKF minScore) := by
    by_cases hS : (loopScore db m pKF minScore).2 = []
    · have hnil : loopTuples db m pKF minScore = [] := by rw [hT, hS]; rfl
      have hres : (DetectLoopCandidates db m pKF minScore).1 = [] := by
        unfold DetectLoopCandidates
        simp only []
        split
        · rfl
        · rw [hS]; rfl
      rw [hres, hnil]
      rfl
    · have hL : (loopGather db m pKF).2 ≠ [] := by
        intro e
        apply hS
        unfold loopScore
        rw [e]
        rfl
      have hLe : (loopGather db m pKF).2.isEmpty = false := by
        cases h : (loopGather db m pKF).2 with
        | nil => exact absurd h hL
        | cons a l => rfl
      have hSe : (loopScore db m pKF minScore).2.isEmpty = false := by
        cases h : (loopScore db m pKF minScore).2 with
        | nil => exact absurd h hS
        | cons a l => rfl
      have hthr : roundFloat ((3 / 4 : ℚ) *
          (accumulate .loop (m.kf pKF).mnId (some (loopMinCommonWords db m pKF))
            (loopScore db m pKF minScore).1 (loopScore db m pKF minScore).2 minScore).2) =
          floatThreshold minScore (loopTuples db m pKF minScore) := by
        unfold floatThreshold specThreshold
        rw [hT]
        unfold accumulate
        rw [hacc]
      unfold DetectLoopCandidates
      simp only [hLe, hSe, Bool.false_eq_true, if_false]
      rw [hthr]
      unfold retain retainedAbove
      rw [retainFold_eq _ _ ([], []) (fun p => Iff.rfl)]
      show [] ++ _ = _
      rw [List.nil_append]
      have : (fun q : KeyFramePtr => decide (q ∉ ([] : List KeyFramePtr))) = fun _ => true := by
        funext q; simp
      rw [this, List.filter_true]
      rfl
  refine ⟨hmain, rfl, ?_, fun p => ?_⟩
  · rw [hmain]; exact firstOccurrences_nodup _
  · rw [hmain]
    unfold retainedAbove
    rw [firstOccurrences_mem]
    simp only [List.mem_map, List.mem_filter, decide_eq_true_eq]
    constructor
    · rintro ⟨x, ⟨hx, hgt⟩, rfl⟩
      exact ⟨x, hx, rfl, hgt⟩
    · rintro ⟨x, hx, rfl, hgt⟩
      exact ⟨x, ⟨hx, hgt⟩, rfl⟩

/-! ## Covisibility accumulation in `DetectLoopCandidates` -/

theorem accumulateNeighbour_eq (sc : Scratch) (id : Nat) (wf : Option Int) (m : Memory)
    (a : AccState) (b : KeyFramePtr) :
    accumulateNeighbour sc id wf m a b =
      if (decide ((m.kf b).query sc = (id : Int)) &&
          aboveWordFloor wf ((m.kf b).nWords sc)) = true then
        (if (m.kf b).simScore sc > a.bestScore then
          { bestScore := (m.kf b).simScore sc,
            accScore := roundFloat (a.accScore + (m.kf b).simScore sc), pBestKF := b }
        else { a with accScore := roundFloat (a.accScore + (m.kf b).simScore sc) })
      else a := by
  unfold accumulateNeighbour
  by_cases hc : (m.kf b).query sc = (id : Int) ∧ aboveWordFloor wf ((m.kf b).nWords sc) = true
  · have hb : (decide ((m.kf b).query sc = (id : Int)) &&
        aboveWordFloor wf ((m.kf b).nWords sc)) = true := by simp [hc.1, hc.2]
    rw [if_pos hc, if_pos hb]
  · have hb : ¬ (decide ((m.kf b).query sc = (id : Int)) &&
        aboveWordFloor wf ((m.kf b).nWords sc)) = true := by simpa using hc
    rw [if_neg hc, if_neg hb]

/-- The accumulated score is the single-precision sum of the start value and
the stored scores of the neighbours that pass the neighbour test, added in the
order of `vpNeighs`. -/
theorem accumulateFold_sum (sc : Scratch) (id : Nat) (wf : Option Int) (m : Memory)
    (l : List KeyFramePtr) :
    ∀ a : AccState,
      (l.foldl (accumulateNeighbour sc id wf m) a).accScore =
        floatSum a.accScore
          ((l.filter (fun pKF2 => decide ((m.kf pKF2).query sc = (id : Int)) &&
            aboveWordFloor wf ((m.kf pKF2).nWords sc))).map
              (fun pKF2 => (m.kf pKF2).simScore sc)) := by
  induction l with
  | nil => intro a; rfl
  | cons b l ih =>
    intro a
    rw [List.foldl_cons, ih, accumulateNeighbour_eq]
    by_cases hc : (decide ((m.kf b).query sc = (id : Int)) &&
        aboveWordFloor wf ((m.kf b).nWords sc)) = true
    · rw [if_pos hc, List.filter_cons, if_pos hc, List.map_cons]
      by_cases hgt : (m.kf b).simScore sc > a.bestScore
      · rw [if_pos hgt]; rfl
      · rw [if_neg hgt]; rfl
    · rw [if_neg hc, List.filter_cons, if_neg hc]

/-- When no addition rounds, the single-precision sum is the exact sum. -/
theorem floatSum_exact (terms : List ℚ) :
    ∀ start : ℚ, ExactlySummable start terms → floatSum start terms = start + terms.sum := by
  induction terms with
  | nil => intro start _; simp [floatSum]
  | cons s rest ih =>
    intro start h
    obtain ⟨h1, h2⟩ := h
    have := ih (start + s) h2
    unfold floatSum at this ⊢
    rw [List.foldl_cons, h1, this, List.sum_cons]
    ring

/-- The representative is the first candidate of maximal score: every candidate
met before it has a strictly lower score, every candidate met after it has at
most its score. -/
theorem accumulateFold_first_max (sc : Scratch) (id : Nat) (wf : Option Int) (m : Memory)
    (l : List KeyFramePtr) :
    ∀ (a : AccState) (C : List (KeyFramePtr × ℚ)),
      (∃ pre post, C = pre ++ (a.pBestKF, a.bestScore) :: post ∧
        (∀ c ∈ pre, c.2 < a.bestScore) ∧ (∀ c ∈ post, c.2 ≤ a.bestScore)) →
      ∃ pre post,
        C ++ (l.filter (fun pKF2 => decide ((m.kf pKF2).query sc = (id : Int)) &&
            aboveWordFloor wf ((m.kf pKF2).nWords sc))).map
              (fun pKF2 => (pKF2, (m.kf pKF2).simScore sc)) =
          pre ++ ((l.foldl (accumulateNeighbour sc id wf m) a).pBestKF,
            (l.foldl (accumulateNeighbour sc id wf m) a).bestScore) :: post ∧
        (∀ c ∈ pre, c.2 < (l.foldl (accumulateNeighbour sc id wf m) a).bestScore) ∧
        (∀ c ∈ post, c.2 ≤ (l.foldl (accumulateNeighbour sc id wf m) a).bestScore) := by
  induction l with
  | nil =>
    intro a C h
    simpa using h
  | cons b l ih =>
    intro a C ⟨pre, post, hC, hpre, hpost⟩
    rw [List.foldl_cons, accumulateNeighbour_eq]
    by_cases hc : (decide ((m.kf b).query sc = (id : Int)) &&
        aboveWordFloor wf ((m.kf b).nWords sc)) = true
    · rw [if_pos hc, List.filter_cons, if_pos hc, List.map_cons]
      have hassoc : ∀ t : List (KeyFramePtr × ℚ),
          C ++ (b, (m.kf b).simScore sc) :: t = (C ++ [(b, (m.kf b).simScore sc)]) ++ t := by
        intro t; simp
      rw [hassoc]
      by_cases hgt : (m.kf b).simScore sc > a.bestScore
      · rw [if_pos hgt]
        apply ih
        refine ⟨C, [], rfl, ?_, fun c hc' => absurd hc' (List.not_mem_nil c)⟩
        intro c hcC
        show c.2 < (m.kf b).simScore sc
        rw [hC] at hcC
        rcases List.mem_append.mp hcC with h | h
        · exact lt_trans (hpre c h) hgt
        · rcases List.mem_cons.mp h with e | h'
          · rw [e]; exact hgt
          · exact lt_of_le_of_lt (hpost c h') hgt
      · rw [if_neg hgt]
        apply ih
        refine ⟨pre, post ++ [(b, (m.kf b).simScore sc)], ?_, hpre, ?_⟩
        · show C ++ [(b, (m.kf b).simScore sc)] =
            pre ++ (a.pBestKF, a.bestScore) :: (post ++ [(b, (m.kf b).simScore sc)])
          rw [hC]; simp
        · intro c hc'
          show c.2 ≤ a.bestScore
          rcases List.mem_append.mp hc' with h | h
          · exact hpost c h
          · rw [List.mem_singleton] at h
            rw [h]; exact not_lt.mp hgt
    · rw [if_neg hc, List.filter_cons, if_neg hc]
      exact ih a C ⟨pre, post, hC, hpre, hpost⟩

/-- With a fresh query id, the scoring phase of `DetectLoopCandidates` records
pairs that carry the similarity to the query keyframe, and every keyframe that
passes the neighbour test carries its similarity to the query keyframe. -/
theorem loopScore_scores (db : KeyFrameDatabase) (m : Memory) (pKF : KeyFramePtr)
    (minScore : ℚ) (hfresh : ∀ q, (m.kf q).mnLoopQuery ≠ ((m.kf pKF).mnId : Int)) :
    (∀ y ∈ (loopScore db m pKF minScore).2,
      y.1 = db.mpVoc.score (m.kf pKF).mBowVec (m.kf y.2).mBowVec) ∧
    (∀ n, ((loopScore db m pKF minScore).1.kf n).query .loop = ((m.kf pKF).mnId : Int) →
      aboveWordFloor (some (loopMinCommonWords db m pKF))
        (((loopScore db m pKF minScore).1.kf n).nWords .loop) = true →
      ((loopScore db m pKF minScore).1.kf n).simScore .loop =
        db.mpVoc.score (m.kf pKF).mBowVec (m.kf n).mBowVec) := by
  obtain ⟨hg, _⟩ := loopGather_gathered db m pKF hfresh
  obtain ⟨t1, t2⟩ := scoreFold_spec .loop db.mpVoc (m.kf pKF).mBowVec
    (loopMinCommonWords db m pKF) (fun si => decide (si ≥ minScore))
    (loopGather db m pKF).2 ((loopGather db m pKF).1, [])
  obtain ⟨_, _, c3⟩ := scoreFold_complete .loop db.mpVoc (m.kf pKF).mBowVec
    (loopMinCommonWords db m pKF) (fun si => decide (si ≥ minScore))
    (loopGather db m pKF).2 ((loopGather db m pKF).1, [])
  constructor
  · intro y hy
    rcases t2 y hy with h | ⟨_, hs, _, _⟩
    · exact absurd h (List.not_mem_nil y)
    · rw [hs, (hg.same.2 y.2).mBowVec]
  · intro n hq ha
    have hq' : ((loopGather db m pKF).1.kf n).query .loop = ((m.kf pKF).mnId : Int) := by
      rw [← (t1.2 n .loop).1]; exact hq
    have hxL := hg.tagged n hq'
    have ha' : ((loopGather db m pKF).1.kf n).nWords .loop > loopMinCommonWords db m pKF := by
      rw [← (t1.2 n .loop).2]
      simpa [aboveWordFloor] using ha
    have hsc := c3 n
    rw [if_pos ⟨hxL, ha'⟩, (hg.same.2 n).mBowVec] at hsc
    exact hsc

/-- C21 fails as stated: the accumulated score is a single-precision sum.  With
the scores `1/2` for `K2` and `3 * 2^-25` for `K3` (both single-precision
numbers), `K3` the one qualifying neighbour of `K2`, the exact sum
`1/2 + 3 * 2^-25` lies halfway between two single-precision numbers and the
tuple of `K2` carries `1/2 + 2^-23`. -/
theorem DetectLoopCandidates_accumulation_rounds :
    roundFloat (1 / 2) = 1 / 2 ∧ roundFloat (3 / 2 ^ 25) = 3 / 2 ^ 25 ∧
      (loopScore fineDb (sampleMemory [] false) 1 0).2 = [(3 / 2 ^ 25, 3), (1 / 2, 2)] ∧
      qualifyingNeighbours .loop 1 (some (loopMinCommonWords fineDb (sampleMemory [] false) 1))
        (loopScore fineDb (sampleMemory [] false) 1 0).1 2 = [3] ∧
      ((loopScore fineDb (sampleMemory [] false) 1 0).1.kf 3).simScore .loop = 3 / 2 ^ 25 ∧
      accumulatedTuple .loop 1 (some (loopMinCommonWords fineDb (sampleMemory [] false) 1))
        (loopScore fineDb (sampleMemory [] false) 1 0).1 (1 / 2, 2) = (1 / 2 + 1 / 2 ^ 23, 2) ∧
      loopTuples fineDb (sampleMemory [] false) 1 0 =
        [(1 / 2 + 1 / 2 ^ 23, 2), (1 / 2 + 1 / 2 ^ 23, 2)] ∧
      (1 / 2 + 3 / 2 ^ 25 : ℚ) ≠ 1 / 2 + 1 / 2 ^ 23 := by
  refine ⟨by decide!, by decide!, by decide!, by decide!, by decide!, by decide!, by decide!,
    by decide!⟩

/-- C21, as amended. Covisibility accumulation in `DetectLoopCandidates`: the
list of accumulated tuples holds one tuple per scored keyframe `K`, in order;
its accumulated score is the single-precision sum (`floatSum`: left to right,
every addition rounded to nearest) of the score of `K` and the scores of the
neighbours of `K` (among its ten best) that carry the query tag and have a
shared-word count above `minCommonWords`, and it is the exact sum whenever no
addition rounds; its representative is the first candidate of highest score
among `K` and those neighbours in loop order, so `K` itself on a tie with a
neighbour; with one qualifying neighbour the tuple is the rounded sum of both
scores with the higher-scored of the two.  With a fresh query id the scores
involved are the similarities to the query keyframe. -/
theorem DetectLoopCandidates_accumulation (db : KeyFrameDatabase) (m : Memory)
    (pKF : KeyFramePtr) (minScore : ℚ)
    (hfresh : ∀ q, (m.kf q).mnLoopQuery ≠ ((m.kf pKF).mnId : Int)) :
    loopTuples db m pKF minScore =
        (loopScore db m pKF minScore).2.map
          (accumulatedTuple .loop (m.kf pKF).mnId (some (loopMinCommonWords db m pKF))
            (loopScore db m pKF minScore).1) ∧
      ∀ it ∈ (loopScore db m pKF minScore).2,
        it.1 = db.mpVoc.score (m.kf pKF).mBowVec (m.kf it.2).mBowVec ∧
        (∀ n ∈ qualifyingNeighbours .loop (m.kf pKF).mnId (some (loopMinCommonWords db m pKF))
            (loopScore db m pKF minScore).1 it.2,
          n ∈ GetBestCovisibilityKeyFrames (m.kf it.2) 10 ∧
          ((loopScore db m pKF minScore).1.kf n).simScore .loop =
            db.mpVoc.score (m.kf pKF).mBowVec (m.kf n).mBowVec) ∧
        (accumulatedTuple .loop (m.kf pKF).mnId (some (loopMinCommonWords db m pKF))
            (loopScore db m pKF minScore).1 it).1 =
          floatSum it.1 ((qualifyingNeighbours .loop (m.kf pKF).mnId
            (some (loopMinCommonWords db m pKF)) (loopScore db m pKF minScore).1 it.2).map
              (fun n => ((loopScore db m pKF minScore).1.kf n).simScore .loop)) ∧
        (ExactlySummable it.1 ((qualifyingNeighbours .loop (m.kf pKF).mnId
            (some (loopMinCommonWords db m pKF)) (loopScore db m pKF minScore).1 it.2).map
              (fun n => ((loopScore db m pKF minScore).1.kf n).simScore .loop)) →
          (accumulatedTuple .loop (m.kf pKF).mnId (some (loopMinCommonWords db m pKF))
              (loopScore db m pKF minScore).1 it).1 =
            it.1 + ((qualifyingNeighbours .loop (m.kf pKF).mnId
              (some (loopMinCommonWords db m pKF)) (loopScore db m pKF minScore).1 it.2).map
                (fun n => ((loopScore db m pKF minScore).1.kf n).simScore .loop)).sum) ∧
        (∃ pre post s,
          representativeCandidates .loop (m.kf pKF).mnId (some (loopMinCommonWords db m pKF))
              (loopScore db m pKF minScore).1 it =
            pre ++ ((accumulatedTuple .loop (m.kf pKF).mnId
              (some (loopMinCommonWords db m pKF)) (loopScore db m pKF minScore).1 it).2, s)
              :: post ∧
          (∀ c ∈ pre, c.2 < s) ∧ (∀ c ∈ post, c.2 ≤ s)) ∧
        (∀ n, qualifyingNeighbours .loop (m.kf pKF).mnId (some (loopMinCommonWords db m pKF))
            (loopScore db m pKF minScore).1 it.2 = [n] →
          accumulatedTuple .loop (m.kf pKF).mnId (some (loopMinCommonWords db m pKF))
              (loopScore db m pKF minScore).1 it =
            (roundFloat (it.1 + ((loopScore db m pKF minScore).1.kf n).simScore .loop),
              if ((loopScore db m pKF minScore).1.kf n).simScore .loop > it.1 then n
              else it.2)) := by
  have hacc := accumulate_eq_map .loop (m.kf pKF).mnId (some (loopMinCommonWords db m pKF))
    (loopScore db m pKF minScore).1 (loopScore db m pKF minScore).2 ([], minScore)
  obtain ⟨hg, _⟩ := loopGather_gathered db m pKF hfresh
  obtain ⟨t1, _⟩ := scoreFold_spec .loop db.mpVoc (m.kf pKF).mBowVec
    (loopMinCommonWords db m pKF) (fun si => decide (si ≥ minScore))
    (loopGather db m pKF).2 ((loopGather db m pKF).1, [])
  have hobj : ∀ q, GetBestCovisibilityKeyFrames ((loopScore db m pKF minScore).1.kf q) 10 =
      GetBestCovisibilityKeyFrames (m.kf q) 10 := by
    intro q
    have e1 : ((loopScore db m pKF minScore).1.kf q).mvpOrderedConnectedKeyFrames =
        ((loopGather db m pKF).1.kf q).mvpOrderedConnectedKeyFrames :=
      (t1.1.2 q).mvpOrderedConnectedKeyFrames
    have e2 := (hg.same.2 q).mvpOrderedConnectedKeyFrames
    unfold GetBestCovisibilityKeyFrames
    rw [e1, e2]
  obtain ⟨s1, s2⟩ := loopScore_scores db m pKF minScore hfresh
  refine ⟨?_, fun it hit => ⟨s1 it hit, ?_, ?_, ?_, ?_, ?_⟩⟩
  · unfold loopTuples accumulate
    rw [hacc]
    simp
  · intro n hn
    unfold qualifyingNeighbours at hn
    rw [List.mem_filter, Bool.and_eq_true, decide_eq_true_eq] at hn
    refine ⟨by rw [← hobj]; exact hn.1, s2 n hn.2.1 hn.2.2⟩
  · unfold accumulatedTuple qualifyingNeighbours
    exact accumulateFold_sum _ _ _ _ _ _
  · intro hexact
    rw [← floatSum_exact _ _ hexact]
    unfold accumulatedTuple qualifyingNeighbours
    exact accumulateFold_sum _ _ _ _ _ _
  · obtain ⟨pre, post, h1, h2, h3⟩ := accumulateFold_first_max .loop (m.kf pKF).mnId
      (some (loopMinCommonWords db m pKF)) (loopScore db m pKF minScore).1
      (GetBestCovisibilityKeyFrames ((loopScore db m pKF minScore).1.kf it.2) 10)
      { bestScore := it.1, accScore := it.1, pBestKF := it.2 } [(it.2, it.1)]
      ⟨[], [], rfl, fun c hc => absurd hc (List.not_mem_nil c),
        fun c hc => absurd hc (List.not_mem_nil c)⟩
    exact ⟨pre, post, _, h1, h2, h3⟩
  · intro n hn
    have hsum := accumulateFold_sum .loop (m.kf pKF).mnId
      (some (loopMinCommonWords db m pKF)) (loopScore db m pKF minScore).1
      (GetBestCovisibilityKeyFrames ((loopScore db m pKF minScore).1.kf it.2) 10)
      { bestScore := it.1, accScore := it.1, pBestKF := it.2 }
    obtain ⟨pre, post, h1, h2, h3⟩ := accumulateFold_first_max .loop (m.kf pKF).mnId
      (some (loopMinCommonWords db m pKF)) (loopScore db m pKF minScore).1
      (GetBestCovisibilityKeyFrames ((loopScore db m pKF minScore).1.kf it.2) 10)
      { bestScore := it.1, accScore := it.1, pBestKF := it.2 } [(it.2, it.1)]
      ⟨[], [], rfl, fun c hc => absurd hc (List.not_mem_nil c),
        fun c hc => absurd hc (List.not_mem_nil c)⟩
    unfold qualifyingNeighbours at hn
    rw [hn] at hsum h1
    simp only [List.map_cons, List.map_nil, List.singleton_append] at hsum h1
    have hsum1 : floatSum it.1 [((loopScore db m pKF minScore).1.kf n).simScore .loop] =
        roundFloat (it.1 + ((loopScore db m pKF minScore).1.kf n).simScore .loop) := rfl
    unfold accumulatedTuple
    rw [hsum, hsum1]
    congr 1
    by_cases hgt : ((loopScore db m pKF minScore).1.kf n).simScore .loop > it.1
    · rw [if_pos hgt]
      cases pre with
      | nil =>
        simp only [List.nil_append, List.cons.injEq, Prod.mk.injEq] at h1
        obtain ⟨⟨_, e⟩, hpost⟩ := h1
        have := h3 (n, ((loopScore db m pKF minScore).1.kf n).simScore .loop)
          (by rw [← hpost]; exact List.mem_singleton.mpr rfl)
        rw [← e] at this
        exact absurd hgt (not_lt.mpr this)
      | cons c pre =>
        cases pre with
        | nil =>
          simp only [List.cons_append, List.nil_append, List.cons.injEq, Prod.mk.injEq] at h1
          exact h1.2.1.1.symm
        | cons d pre =>
          simp only [List.cons_append, List.cons.injEq] at h1
          have := h1.2.2
          simp at this
    · rw [if_neg hgt]
      cases pre with
      | nil =>
        simp only [List.nil_append, List.cons.injEq, Prod.mk.injEq] at h1
        exact h1.1.1.symm
      | cons c pre =>
        cases pre with
        | nil =>
          simp only [List.cons_append, List.nil_append, List.cons.injEq, Prod.mk.injEq] at h1
          obtain ⟨hc, ⟨_, e⟩, _⟩ := h1
          have := h2 c (List.mem_singleton.mpr rfl)
          rw [← hc, ← e] at this
          exact absurd this hgt
        | cons d pre =>
          simp only [List.cons_append, List.cons.injEq] at h1
          have := h1.2.2
          simp at this

theorem DetectLoopCandidates_accumulation_witness :
    (∀ q, ((sampleMemory [] false).kf q).mnLoopQuery ≠
        (((sampleMemory [] false).kf 1).mnId : Int)) ∧
      loopTuples sampleDb (sampleMemory [] false) 1 (1 / 4) =
        (loopScore sampleDb (sampleMemory [] false) 1 (1 / 4)).2.map
          (accumulatedTuple .loop ((sampleMemory [] false).kf 1).mnId
            (some (loopMinCommonWords sampleDb (sampleMemory [] false) 1))
            (loopScore sampleDb (sampleMemory [] false) 1 (1 / 4)).1) ∧
      (loopScore sampleDb (sampleMemory [] false) 1 (1 / 4)).2 = [(1 / 4, 3), (1 / 4, 2)] ∧
      loopTuples sampleDb (sampleMemory [] false) 1 (1 / 4) = [(1 / 2, 3), (1 / 2, 2)] :=
  ⟨sampleMemory_fresh [] false _,
    (DetectLoopCandidates_accumulation sampleDb (sampleMemory [] false) 1 (1 / 4)
      (sampleMemory_fresh [] false _)).1, by decide!, by decide!⟩

/-! ## The common-word filter: `(int)(maxCommonWords*0.8f)` against `floor(0.8 x maxCommonWords)` -/

theorem excessBits_le_of_lt (fuel : Nat) :
    ∀ k x : Nat, x < 2 ^ 24 * 2 ^ k → excessBits fuel x ≤ k := by
  induction fuel with
  | zero => intro k x _; exact Nat.zero_le _
  | succ f ih =>
    intro k x h
    unfold excessBits
    by_cases hx : x < 2 ^ 24
    · rw [if_pos hx]; exact Nat.zero_le _
    · rw [if_neg hx]
      cases k with
      | zero =>
        rw [pow_zero, Nat.mul_one] at h
        exact absurd h hx
      | succ k =>
        have h2 : x / 2 < 2 ^ 24 * 2 ^ k := by
          have h3 : x < 2 ^ 24 * 2 ^ k * 2 := by
            calc x < 2 ^ 24 * 2 ^ (k + 1) := h
              _ = 2 ^ 24 * 2 ^ k * 2 := by ring
          generalize (2 : Nat) ^ 24 * 2 ^ k = p at h3 ⊢
          omega
        exact Nat.succ_le_succ (ih k _ h2)

/-- An integer below `2^24` converts to `float` exactly. -/
theorem roundToFloat_small (x : Nat) (h : x < 2 ^ 24) : roundToFloat x = x := by
  have h0 : excessBits x x = 0 := by
    cases x with
    | zero => rfl
    | succ n => unfold excessBits; rw [if_pos h]
  unfold roundToFloat
  simp only [h0, if_true]

/-- Below `5 * 2^20` shared words the single-precision product truncates to the
exact `floor(4 * n / 5)`: the product is below `2^22` in value, where the
spacing of single-precision numbers is at most `1/4`, and the fractional part
of `0.8f * n` stays far enough below `1`. -/
theorem minCommonWords_floor_below (n : Nat) (hn : n < 5242880) :
    roundToFloat (roundToFloat n * 13421773) / 2 ^ 24 = 4 * n / 5 := by
  have h24 : (2 : Nat) ^ 24 = 16777216 := by norm_num
  rw [roundToFloat_small n (by rw [h24]; omega)]
  have hs := excessBits_le_of_lt (n * 13421773) 22 (n * 13421773) (by norm_num; omega)
  unfold roundToFloat
  simp only []
  by_cases h0 : excessBits (n * 13421773) (n * 13421773) = 0
  · rw [if_pos h0, h24]; omega
  · rw [if_neg h0]
    generalize excessBits (n * 13421773) (n * 13421773) = s at hs h0 ⊢
    obtain ⟨k, rfl⟩ : ∃ k, s = k + 1 := Nat.exists_eq_succ_of_ne_zero h0
    rw [Nat.add_sub_cancel]
    have hhalf : 2 ^ k ≤ 2 ^ 21 := Nat.pow_le_pow_right (by norm_num) (by omega)
    have h21 : (2 : Nat) ^ 21 = 2097152 := by norm_num
    rw [h21] at hhalf
    have ht : 2 ^ (k + 1) = 2 * 2 ^ k := by rw [pow_succ, Nat.mul_comm]
    have hu : 2 ^ 24 = 2 ^ (23 - k) * 2 ^ (k + 1) := by
      rw [← pow_add]; congr 1; omega
    have htpos : 0 < 2 ^ (k + 1) := Nat.pow_pos (by norm_num)
    have hq : 4 * n / 5 * 2 ^ 24 ≤ n * 13421773 := by rw [h24]; omega
    have hlow : 4 * n / 5 * 2 ^ 24 ≤ n * 13421773 / 2 ^ (k + 1) * 2 ^ (k + 1) := by
      rw [hu, ← Nat.mul_assoc] at hq ⊢
      exact Nat.mul_le_mul_right _ ((Nat.le_div_iff_mul_le htpos).mpr hq)
    have hdm := Nat.div_add_mod (n * 13421773) (2 ^ (k + 1))
    have hmod := Nat.mod_lt (n * 13421773) htpos
    rw [Nat.mul_comm] at hdm
    rw [h24] at hlow ⊢
    have hR : ∀ R, R = (if 2 ^ k < n * 13421773 % 2 ^ (k + 1) ∨
          n * 13421773 % 2 ^ (k + 1) = 2 ^ k ∧ n * 13421773 / 2 ^ (k + 1) % 2 = 1
          then n * 13421773 / 2 ^ (k + 1) + 1 else n * 13421773 / 2 ^ (k + 1)) * 2 ^ (k + 1) →
        R / 16777216 = 4 * n / 5 := by
      intro R hRdef
      have hcases : R = n * 13421773 / 2 ^ (k + 1) * 2 ^ (k + 1) ∨
          (R = n * 13421773 / 2 ^ (k + 1) * 2 ^ (k + 1) + 2 ^ (k + 1) ∧
            2 ^ k ≤ n * 13421773 % 2 ^ (k + 1)) := by
        rw [hRdef]
        split
        · rename_i hc
          right
          refine ⟨by rw [Nat.add_mul, Nat.one_mul], ?_⟩
          rcases hc with hc | hc
          · exact le_of_lt hc
          · exact le_of_eq hc.1.symm
        · left; rfl
      generalize n * 13421773 / 2 ^ (k + 1) * 2 ^ (k + 1) = A at hlow hdm hcases
      generalize n * 13421773 % 2 ^ (k + 1) = b at hdm hmod hcases
      rw [ht] at hmod hcases
      generalize (2 : Nat) ^ k = half at hhalf hmod hcases
      omega
    exact hR _ rfl

/-- Up to `5 * 2^20` the code's `(int)(maxCommonWords*0.8f)` is the exact
`floor(4 * maxCommonWords / 5)`. -/
theorem minCommonWords_eq_floor (maxCommon : Int) (h0 : 0 ≤ maxCommon)
    (h1 : maxCommon ≤ 5242880) : minCommonWords maxCommon = 4 * maxCommon / 5 := by
  obtain ⟨n, rfl⟩ := Int.eq_ofNat_of_zero_le h0
  have hn : n ≤ 5242880 := by exact_mod_cast h1
  unfold minCommonWords
  simp only [Int.toNat_ofNat]
  have key : roundToFloat (roundToFloat n * 13421773) / 2 ^ 24 = 4 * n / 5 := by
    rcases Nat.lt_or_ge n 5242880 with hlt | hge
    · exact minCommonWords_floor_below n hlt
    · have : n = 5242880 := Nat.le_antisymm hn hge
      subst this
      decide
  rw [key]
  push_cast
  rfl

/-- The scoring loop records, in order, the sharing keyframes whose counter is
strictly greater than `minCommon` and whose score is kept. -/
theorem scoreFold_list (sc : Scratch) (voc : ORBVocabulary) (qb : BowVector)
    (minCommon : Int) (keep : ℚ → Bool) (m0 : Memory) (l : List KeyFramePtr) :
    ∀ st : Memory × List (ℚ × KeyFramePtr), m0.SameTags st.1 →
      (l.foldl (scoreSharing sc voc qb minCommon keep) st).2 =
        st.2 ++ ((l.filter (fun p => decide ((m0.kf p).nWords sc > minCommon))).filter
          (fun p => keep (voc.score qb (m0.kf p).mBowVec))).map
            (fun p => (voc.score qb (m0.kf p).mBowVec, p)) := by
  induction l with
  | nil => intro st _; simp
  | cons a l ih =>
    intro st h
    rw [List.foldl_cons,
      ih _ (Memory.sameTags_trans h (scoreSharing_sameTags sc voc qb minCommon keep st a))]
    have hw : (st.1.kf a).nWords sc = (m0.kf a).nWords sc := (h.2 a sc).2
    have hb : (st.1.kf a).mBowVec = (m0.kf a).mBowVec := (h.1.2 a).mBowVec
    by_cases h1 : (m0.kf a).nWords sc > minCommon
    · have hf1 : (a :: l).filter (fun p => decide ((m0.kf p).nWords sc > minCommon)) =
          a :: l.filter (fun p => decide ((m0.kf p).nWords sc > minCommon)) :=
        List.filter_cons_of_pos (decide_eq_true h1)
      rw [hf1]
      by_cases h2 : keep (voc.score qb (m0.kf a).mBowVec) = true
      · have hs : (scoreSharing sc voc qb minCommon keep st a).2 =
            st.2 ++ [(voc.score qb (m0.kf a).mBowVec, a)] := by
          unfold scoreSharing
          rw [hw, hb, if_pos h1]
          simp only []
          rw [if_pos h2]
        have hf2 : (a :: l.filter (fun p => decide ((m0.kf p).nWords sc > minCommon))).filter
            (fun p => keep (voc.score qb (m0.kf p).mBowVec)) =
            a :: (l.filter (fun p => decide ((m0.kf p).nWords sc > minCommon))).filter
              (fun p => keep (voc.score qb (m0.kf p).mBowVec)) :=
          List.filter_cons_of_pos h2
        rw [hs, hf2, List.map_cons]
        simp
      · have hs : (scoreSharing sc voc qb minCommon keep st a).2 = st.2 := by
          unfold scoreSharing
          rw [hw, hb, if_pos h1]
          simp only []
          rw [if_neg h2]
        have hf2 : (a :: l.filter (fun p => decide ((m0.kf p).nWords sc > minCommon))).filter
            (fun p => keep (voc.score qb (m0.kf p).mBowVec)) =
            (l.filter (fun p => decide ((m0.kf p).nWords sc > minCommon))).filter
              (fun p => keep (voc.score qb (m0.kf p).mBowVec)) :=
          List.filter_cons_of_neg h2
        rw [hs, hf2]
    · have hf1 : (a :: l).filter (fun p => decide ((m0.kf p).nWords sc > minCommon)) =
          l.filter (fun p => decide ((m0.kf p).nWords sc > minCommon)) :=
        List.filter_cons_of_neg (by simpa using h1)
      have hs : (scoreSharing sc voc qb minCommon keep st a).2 = st.2 := by
        unfold scoreSharing
        rw [hw, if_neg h1]
      rw [hs, hf1]

/-- The claim of C22 fails inside the range where single precision represents
integers exactly: at `maxCommonWords = 5242881` the product `5242881 * 0.8f`
rounds up to `4194305.0f`, one more than `floor(4 * 5242881 / 5) = 4194304`. -/
theorem minCommonWords_exceeds_floor :
    (0 : Int) ≤ 5242881 ∧ (5242881 : Int) ≤ 2 ^ 24 ∧
      minCommonWords 5242881 = 4194305 ∧ (4 * 5242881 / 5 : Int) = 4194304 := by
  refine ⟨by decide, by decide, by decide, by decide⟩

/-- C22 (amended). For every `maxCommonWords` from `0` to `5242880 = 5 * 2^20`
the code's `(int)(maxCommonWords*0.8f)` equals `floor(4 * maxCommonWords / 5)`;
and the keyframes passed on to scoring are exactly the sharing keyframes whose
counter is strictly greater than `minCommonWords`, in the order of the sharing
list (`DetectLoopCandidates` then records those whose score reaches
`minScore`). -/
theorem minCommonWords_is_floor (db : KeyFrameDatabase) (m : Memory) (pKF : KeyFramePtr)
    (minScore : ℚ) (F : Frame) :
    (∀ maxCommon : Int, 0 ≤ maxCommon → maxCommon ≤ 5242880 →
      minCommonWords maxCommon = 4 * maxCommon / 5) ∧
    (relocScore db m F).2 =
      ((relocGather db m F).2.filter (fun p =>
        decide (((relocGather db m F).1.kf p).nWords .reloc >
          minCommonWords (maxCommonWords .reloc (relocGather db m F).1
            (relocGather db m F).2)))).map
        (fun p => (db.mpVoc.score F.mBowVec ((relocGather db m F).1.kf p).mBowVec, p)) ∧
    (loopScore db m pKF minScore).2 =
      (((loopGather db m pKF).2.filter (fun p =>
        decide (((loopGather db m pKF).1.kf p).nWords .loop >
          minCommonWords (maxCommonWords .loop (loopGather db m pKF).1
            (loopGather db m pKF).2)))).filter
        (fun p => decide (db.mpVoc.score (m.kf pKF).mBowVec
          ((loopGather db m pKF).1.kf p).mBowVec ≥ minScore))).map
        (fun p => (db.mpVoc.score (m.kf pKF).mBowVec
          ((loopGather db m pKF).1.kf p).mBowVec, p)) := by
  refine ⟨?_, ?_, ?_⟩
  · intro maxCommon h0 h1
    obtain ⟨n, rfl⟩ := Int.eq_ofNat_of_zero_le h0
    have hn : n ≤ 5242880 := by exact_mod_cast h1
    unfold minCommonWords
    simp only [Int.toNat_ofNat]
    have key : roundToFloat (roundToFloat n * 13421773) / 2 ^ 24 = 4 * n / 5 := by
      rcases Nat.lt_or_ge n 5242880 with hlt | hge
      · exact minCommonWords_floor_below n hlt
      · have : n = 5242880 := Nat.le_antisymm hn hge
        subst this
        decide
    rw [key]
    push_cast
    rfl
  · unfold relocScore
    rw [scoreFold_list _ _ _ _ _ (relocGather db m F).1 _ _ (Memory.sameTags_refl _)]
    simp
  · unfold loopScore loopMinCommonWords
    rw [scoreFold_list _ _ _ _ _ (loopGather db m pKF).1 _ _ (Memory.sameTags_refl _)]
    simp

theorem minCommonWords_is_floor_witness :
    (0 : Int) ≤ 10 ∧ (10 : Int) ≤ 5242880 ∧ minCommonWords 10 = 4 * 10 / 5 :=
  ⟨by decide, by decide,
    (minCommonWords_is_floor sampleDb (sampleMemory [] false) 1 (1 / 4) sampleFrameA).1 10
      (by decide) (by decide)⟩

/-! ## `DetectRelocalizationCandidates`: the neighbour test has no word floor -/

/-- C24. The neighbour test of `DetectRelocalizationCandidates` is the query tag
alone.  On a fresh memory the query `relocFrame` returns `[A]`; after the
earlier query `earlierFrame`, which leaves the score `1` on `B`, the same query
on the same index returns `[B]`: `B` is tagged with one shared word, below the
floor `4`, is not scored by this query, and its score left by the earlier query
is added to the tuple of `A` and makes `B` the representative. -/
theorem DetectRelocalizationCandidates_uses_stale_score :
    (DetectRelocalizationCandidates relocDb relocMemory relocFrame 0).1 = [1] ∧
      (DetectRelocalizationCandidates relocDb relocMemory earlierFrame 0).1 = [2] ∧
      (DetectRelocalizationCandidates relocDb
        (DetectRelocalizationCandidates relocDb relocMemory earlierFrame 0).2
        relocFrame 0).1 = [2] ∧
      ((relocScore relocDb
        (DetectRelocalizationCandidates relocDb relocMemory earlierFrame 0).2
        relocFrame).1.kf 2).nWords .reloc = 1 ∧
      minCommonWords (maxCommonWords .reloc
        (relocGather relocDb
          (DetectRelocalizationCandidates relocDb relocMemory earlierFrame 0).2 relocFrame).1
        (relocGather relocDb
          (DetectRelocalizationCandidates relocDb relocMemory earlierFrame 0).2 relocFrame).2)
        = 4 ∧
      (relocScore relocDb
        (DetectRelocalizationCandidates relocDb relocMemory earlierFrame 0).2
        relocFrame).2 = [(1 / 2, 1)] ∧
      ((relocScore relocDb
        (DetectRelocalizationCandidates relocDb relocMemory earlierFrame 0).2
        relocFrame).1.kf 2).simScore .reloc = 1 := by
  refine ⟨by decide!, by decide!, by decide!, by decide!, by decide!, by decide!, by decide!⟩

/-! ## `DetectCandidates` does not depend on stale scratch data -/

/-- The effect of one gather step on the sharing list, the query tags and the
word counters. -/
theorem tagUnlessConnected_fields (sc : Scratch) (id : Nat) (conn : List KeyFramePtr)
    (st : Memory × List KeyFramePtr) (p : KeyFramePtr) :
    (tagUnlessConnected sc id conn st p).2 =
        (if (st.1.kf p).query sc ≠ (id : Int) ∧ p ∉ conn then st.2 ++ [p] else st.2) ∧
      (∀ q sc', ((tagUnlessConnected sc id conn st p).1.kf q).query sc' =
        if q = p ∧ sc = sc' ∧ (st.1.kf p).query sc ≠ (id : Int) ∧ p ∉ conn then (id : Int)
        else (st.1.kf q).query sc') ∧
      (∀ q sc', ((tagUnlessConnected sc id conn st p).1.kf q).nWords sc' =
        if q = p ∧ sc = sc' then
          (if (st.1.kf p).query sc ≠ (id : Int) then 1 else (st.1.kf p).nWords sc + 1)
        else (st.1.kf q).nWords sc') := by
  unfold tagUnlessConnected
  by_cases h1 : (st.1.kf p).query sc ≠ (id : Int)
  · by_cases hc : p ∈ conn
    · refine ⟨by simp [h1, hc], fun q sc' => ?_, fun q sc' => ?_⟩
      · by_cases hq : q = p
        · subst hq; simp [h1, hc]
        · simp [h1, hc, hq]
      · by_cases hq : q = p
        · subst hq
          by_cases hs : sc = sc'
          · subst hs; simp [h1, hc]
          · simp [h1, hc, hs]
        · simp [h1, hc, hq]
    · refine ⟨by simp [h1, hc], fun q sc' => ?_, fun q sc' => ?_⟩
      · by_cases hq : q = p
        · subst hq
          by_cases hs : sc = sc'
          · subst hs; simp [h1, hc]
          · simp [h1, hc, hs]
        · simp [h1, hc, hq]
      · by_cases hq : q = p
        · subst hq
          by_cases hs : sc = sc'
          · subst hs; simp [h1, hc]
          · simp [h1, hc, hs]
        · simp [h1, hc, hq]
  · refine ⟨by simp [h1], fun q sc' => ?_, fun q sc' => ?_⟩
    · by_cases hq : q = p
      · subst hq; simp [h1]
      · simp [h1, hq]
    · by_cases hq : q = p
      · subst hq
        by_cases hs : sc = sc'
        · subst hs; simp [h1]
        · simp [h1, hs]
      · simp [h1, hq]

/-- A gather step on two states that differ only in stale scratch data leaves
two such states. -/
theorem tagUnlessConnected_sim (sc : Scratch) (id : Nat) (conn : List KeyFramePtr)
    (st st' : Memory × List KeyFramePtr) (p : KeyFramePtr) (h : GatherSim sc id st st') :
    GatherSim sc id (tagUnlessConnected sc id conn st p) (tagUnlessConnected sc id conn st' p) := by
  obtain ⟨l1, t1, w1⟩ := tagUnlessConnected_fields sc id conn st p
  obtain ⟨l2, t2, w2⟩ := tagUnlessConnected_fields sc id conn st' p
  have hp : (st'.1.kf p).query sc ≠ (id : Int) ↔ (st.1.kf p).query sc ≠ (id : Int) :=
    not_congr (h.tag p)
  by_cases hc : (st.1.kf p).query sc ≠ (id : Int) ∧ p ∉ conn
  · have hc' : (st'.1.kf p).query sc ≠ (id : Int) ∧ p ∉ conn := ⟨hp.mpr hc.1, hc.2⟩
    rw [if_pos hc] at l1
    rw [if_pos hc'] at l2
    refine ⟨by rw [l1, l2, h.list], fun q => ?_, fun q hq => ?_, fun q hq => ?_, fun q hq => ?_⟩
    · rw [t1 q sc, t2 q sc]
      by_cases hq : q = p
      · simp [hq, hc.1, hc.2, hc'.1]
      · simp only [hq, false_and, if_false]
        exact h.tag q
    · rw [w1 q sc, w2 q sc]
      by_cases hqp : q = p
      · simp [hqp, hc.1, hc'.1]
      · rw [t1 q sc, if_neg (fun x => hqp x.1)] at hq
        simp only [hqp, false_and, if_false]
        exact h.words q hq
    · rw [l1]
      rw [t1 q sc] at hq
      by_cases hqp : q = p
      · rw [hqp]; exact List.mem_append_right _ (List.mem_singleton.mpr rfl)
      · rw [if_neg (fun x => hqp x.1)] at hq
        exact List.mem_append_left _ (h.listed q hq)
    · rw [l1] at hq
      rw [t1 q sc]
      by_cases hqp : q = p
      · simp [hqp, hc.1, hc.2]
      · simp only [hqp, false_and, if_false]
        rcases List.mem_append.mp hq with h' | h'
        · exact h.tagged q h'
        · exact absurd (List.mem_singleton.mp h') hqp
  · have hc' : ¬ ((st'.1.kf p).query sc ≠ (id : Int) ∧ p ∉ conn) :=
      fun x => hc ⟨hp.mp x.1, x.2⟩
    rw [if_neg hc] at l1
    rw [if_neg hc'] at l2
    have ht1 : ∀ q, ((tagUnlessConnected sc id conn st p).1.kf q).query sc =
        (st.1.kf q).query sc := by
      intro q; rw [t1 q sc, if_neg (fun x => hc x.2.2)]
    have ht2 : ∀ q, ((tagUnlessConnected sc id conn st' p).1.kf q).query sc =
        (st'.1.kf q).query sc := by
      intro q; rw [t2 q sc, if_neg (fun x => hc' x.2.2)]
    refine ⟨by rw [l1, l2, h.list], fun q => ?_, fun q hq => ?_, fun q hq => ?_, fun q hq => ?_⟩
    · rw [ht1, ht2]; exact h.tag q
    · rw [ht1] at hq
      rw [w1 q sc, w2 q sc]
      by_cases hqp : q = p
      · rw [hqp] at hq
        simp [hqp, hq, (h.tag p).mpr hq, h.words p hq]
      · simp only [hqp, false_and, if_false]
        exact h.words q hq
    · rw [ht1] at hq
      rw [l1]
      exact h.listed q hq
    · rw [l1] at hq
      rw [ht1]
      exact h.tagged q hq

/-- A gather step for another scratch field keeps two states related. -/
theorem tagUnlessConnected_sim_other (sc sc0 : Scratch) (hne : sc ≠ sc0) (id : Nat)
    (conn : List KeyFramePtr) (st st' : Memory × List KeyFramePtr) (L L' : List KeyFramePtr)
    (p : KeyFramePtr) (h : GatherSim sc0 id (st.1, L) (st'.1, L')) :
    GatherSim sc0 id ((tagUnlessConnected sc id conn st p).1, L)
      ((tagUnlessConnected sc id conn st' p).1, L') := by
  obtain ⟨_, t1, w1⟩ := tagUnlessConnected_fields sc id conn st p
  obtain ⟨_, t2, w2⟩ := tagUnlessConnected_fields sc id conn st' p
  have ht1 : ∀ q, ((tagUnlessConnected sc id conn st p).1.kf q).query sc0 =
      (st.1.kf q).query sc0 := by
    intro q; rw [t1 q sc0, if_neg (fun x => hne x.2.1)]
  have ht2 : ∀ q, ((tagUnlessConnected sc id conn st' p).1.kf q).query sc0 =
      (st'.1.kf q).query sc0 := by
    intro q; rw [t2 q sc0, if_neg (fun x => hne x.2.1)]
  have hw1 : ∀ q, ((tagUnlessConnected sc id conn st p).1.kf q).nWords sc0 =
      (st.1.kf q).nWords sc0 := by
    intro q; rw [w1 q sc0, if_neg (fun x => hne x.2)]
  have hw2 : ∀ q, ((tagUnlessConnected sc id conn st' p).1.kf q).nWords sc0 =
      (st'.1.kf q).nWords sc0 := by
    intro q; rw [w2 q sc0, if_neg (fun x => hne x.2)]
  refine ⟨h.list, fun q => ?_, fun q hq => ?_, fun q hq => ?_, fun q hq => ?_⟩
  · show ((tagUnlessConnected sc id conn st' p).1.kf q).query sc0 = _ ↔
      ((tagUnlessConnected sc id conn st p).1.kf q).query sc0 = _
    rw [ht1, ht2]; exact h.tag q
  · show ((tagUnlessConnected sc id conn st' p).1.kf q).nWords sc0 =
      ((tagUnlessConnected sc id conn st p).1.kf q).nWords sc0
    rw [hw1, hw2]
    exact h.words q (by rw [← ht1]; exact hq)
  · exact h.listed q (by rw [← ht1]; exact hq)
  · show ((tagUnlessConnected sc id conn st p).1.kf q).query sc0 = _
    rw [ht1]; exact h.tagged q hq

/-- The gather body of `DetectCandidates` keeps two states related. -/
theorem candidatesVisit_sim (m : Memory) (id : Nat) (pMap : MapPtr) (conn : List KeyFramePtr)
    (st st' : Memory × List KeyFramePtr × List KeyFramePtr) (p : KeyFramePtr)
    (h : CandidatesSim m id st st') :
    CandidatesSim m id (candidatesVisit id pMap conn st p) (candidatesVisit id pMap conn st' p) := by
  have hmap : (st'.1.kf p).mpMap = (st.1.kf p).mpMap := by
    rw [(h.base.2 p).mpMap, (h.base'.2 p).mpMap]
  have hbad : st'.1.mapIsBad = st.1.mapIsBad := by rw [h.base.1, h.base'.1]
  unfold candidatesVisit
  rw [hmap, hbad]
  by_cases h1 : (st.1.kf p).mpMap = pMap
  · rw [if_pos h1, if_pos h1]
    exact ⟨Memory.sameObjects_trans h.base (tagUnlessConnected_sameObjects _ _ _ _ p),
      Memory.sameObjects_trans h.base' (tagUnlessConnected_sameObjects _ _ _ _ p),
      tagUnlessConnected_sim .loop id conn (st.1, st.2.1) (st'.1, st'.2.1) p h.loop,
      tagUnlessConnected_sim_other .loop .merge (by decide) id conn (st.1, st.2.1)
        (st'.1, st'.2.1) st.2.2 st'.2.2 p h.merge⟩
  · rw [if_neg h1, if_neg h1]
    by_cases h2 : ¬ st.1.mapIsBad (st.1.kf p).mpMap = true
    · rw [if_pos h2, if_pos h2]
      exact ⟨Memory.sameObjects_trans h.base (tagUnlessConnected_sameObjects _ _ _ _ p),
        Memory.sameObjects_trans h.base' (tagUnlessConnected_sameObjects _ _ _ _ p),
        tagUnlessConnected_sim_other .merge .loop (by decide) id conn (st.1, st.2.2)
          (st'.1, st'.2.2) st.2.1 st'.2.1 p h.loop,
        tagUnlessConnected_sim .merge id conn (st.1, st.2.2) (st'.1, st'.2.2) p h.merge⟩
    · rw [if_neg h2, if_neg h2]
      exact h

theorem candidatesVisit_fold_sim (m : Memory) (id : Nat) (pMap : MapPtr)
    (conn : List KeyFramePtr) (vs : List KeyFramePtr) :
    ∀ st st' : Memory × List KeyFramePtr × List KeyFramePtr, CandidatesSim m id st st' →
      CandidatesSim m id (vs.foldl (candidatesVisit id pMap conn) st)
        (vs.foldl (candidatesVisit id pMap conn) st') := by
  induction vs with
  | nil => intro st st' h; exact h
  | cons p vs ih =>
    intro st st' h
    rw [List.foldl_cons, List.foldl_cons]
    exact ih _ _ (candidatesVisit_sim m id pMap conn st st' p h)

/-- From two memories that hold the same objects and carry no loop or merge
tag of the query, the gather phase of `DetectCandidates` ends in two states
that differ only in stale scratch data. -/
theorem candidatesGather_sim (db : KeyFrameDatabase) (m m' : Memory) (pKF : KeyFramePtr)
    (hobj : m.SameObjects m')
    (hfresh : ∀ q, (m.kf q).mnLoopQuery ≠ ((m.kf pKF).mnId : Int) ∧
      (m.kf q).mnMergeQuery ≠ ((m.kf pKF).mnId : Int))
    (hfresh' : ∀ q, (m'.kf q).mnLoopQuery ≠ ((m.kf pKF).mnId : Int) ∧
      (m'.kf q).mnMergeQuery ≠ ((m.kf pKF).mnId : Int)) :
    CandidatesSim m (m.kf pKF).mnId (candidatesGather db m pKF) (candidatesGather db m' pKF) := by
  unfold candidatesGather
  rw [forEachSharing_eq_foldl, forEachSharing_eq_foldl, (hobj.2 pKF).mBowVec,
    (hobj.2 pKF).mnId, (hobj.2 pKF).mpMap, (hobj.2 pKF).mConnectedKeyFrames]
  apply candidatesVisit_fold_sim
  refine ⟨Memory.sameObjects_refl m, hobj, ?_, ?_⟩
  · exact ⟨rfl, fun q => ⟨fun x => absurd x (hfresh' q).1, fun x => absurd x (hfresh q).1⟩,
      fun q x => absurd x (hfresh q).1, fun q x => absurd x (hfresh q).1,
      fun q x => absurd x (List.not_mem_nil q)⟩
  · exact ⟨rfl, fun q => ⟨fun x => absurd x (hfresh' q).2, fun x => absurd x (hfresh q).2⟩,
      fun q x => absurd x (hfresh q).2, fun q x => absurd x (hfresh q).2,
      fun q x => absurd x (List.not_mem_nil q)⟩

theorem gatherSim_of_sameTags (sc : Scratch) (id : Nat) (m1 m2 n1 n2 : Memory)
    (L : List KeyFramePtr) (h : GatherSim sc id (m1, L) (m2, L))
    (e1 : m1.SameTags n1) (e2 : m2.SameTags n2) : GatherSim sc id (n1, L) (n2, L) := by
  refine ⟨rfl, fun q => ?_, fun q hq => ?_, fun q hq => ?_, fun q hq => ?_⟩
  · show (n2.kf q).query sc = _ ↔ (n1.kf q).query sc = _
    rw [(e1.2 q sc).1, (e2.2 q sc).1]; exact h.tag q
  · show (n2.kf q).nWords sc = (n1.kf q).nWords sc
    rw [(e1.2 q sc).2, (e2.2 q sc).2]
    exact h.words q (by rw [← (e1.2 q sc).1]; exact hq)
  · exact h.listed q (by rw [← (e1.2 q sc).1]; exact hq)
  · show (n1.kf q).query sc = _
    rw [(e1.2 q sc).1]; exact h.tagged q hq

/-- One block of `DetectCandidates` appends the same candidates from two
states that differ only in stale scratch data. -/
theorem candidatesBlock_sim (sc : Scratch) (voc : ORBVocabulary) (qb : BowVector) (id : Nat)
    (minScore : ℚ) (m0 m1 m2 : Memory) (L vp : List KeyFramePtr)
    (b1 : m0.SameObjects m1) (b2 : m0.SameObjects m2) (h : GatherSim sc id (m1, L) (m2, L)) :
    (candidatesBlock sc voc qb id minScore m2 L vp).1 =
      (candidatesBlock sc voc qb id minScore m1 L vp).1 := by
  have hw : ∀ q ∈ L, (m2.kf q).nWords sc = (m1.kf q).nWords sc :=
    fun q hq => h.words q (h.tagged q hq)
  have hbow : ∀ q, (m2.kf q).mBowVec = (m1.kf q).mBowVec := by
    intro q; rw [(b1.2 q).mBowVec, (b2.2 q).mBowVec]
  have hmax : maxCommonWords sc m2 L = maxCommonWords sc m1 L := by
    unfold maxCommonWords
    apply List.foldl_ext
    intro a b hb
    rw [hw b hb]
  have l1 := scoreFold_list sc voc qb (minCommonWords (maxCommonWords sc m1 L))
    (fun si => decide (si ≥ minScore)) m1 L (m1, []) (Memory.sameTags_refl _)
  have l2 := scoreFold_list sc voc qb (minCommonWords (maxCommonWords sc m1 L))
    (fun si => decide (si ≥ minScore)) m2 L (m2, []) (Memory.sameTags_refl _)
  have hS : (L.foldl (scoreSharing sc voc qb (minCommonWords (maxCommonWords sc m1 L))
        (fun si => decide (si ≥ minScore))) (m2, [])).2 =
      (L.foldl (scoreSharing sc voc qb (minCommonWords (maxCommonWords sc m1 L))
        (fun si => decide (si ≥ minScore))) (m1, [])).2 := by
    rw [l1, l2]
    have e1 : L.filter (fun p => decide ((m2.kf p).nWords sc >
          minCommonWords (maxCommonWords sc m1 L))) =
        L.filter (fun p => decide ((m1.kf p).nWords sc >
          minCommonWords (maxCommonWords sc m1 L))) :=
      List.filter_congr (fun q hq => by rw [hw q hq])
    have e2 : (fun p => decide (voc.score qb (m2.kf p).mBowVec ≥ minScore)) =
        (fun p => decide (voc.score qb (m1.kf p).mBowVec ≥ minScore)) := by
      funext p; rw [hbow p]
    have e3 : (fun p => (voc.score qb (m2.kf p).mBowVec, p)) =
        (fun p => (voc.score qb (m1.kf p).mBowVec, p)) := by
      funext p; rw [hbow p]
    rw [e1, e2, e3]
  obtain ⟨t1, _⟩ := scoreFold_spec sc voc qb (minCommonWords (maxCommonWords sc m1 L))
    (fun si => decide (si ≥ minScore)) L (m1, [])
  obtain ⟨t2, _⟩ := scoreFold_spec sc voc qb (minCommonWords (maxCommonWords sc m1 L))
    (fun si => decide (si ≥ minScore)) L (m2, [])
  obtain ⟨_, _, c1⟩ := scoreFold_complete sc voc qb (minCommonWords (maxCommonWords sc m1 L))
    (fun si => decide (si ≥ minScore)) L (m1, [])
  obtain ⟨_, _, c2⟩ := scoreFold_complete sc voc qb (minCommonWords (maxCommonWords sc m1 L))
    (fun si => decide (si ≥ minScore)) L (m2, [])
  generalize hs1 : L.foldl (scoreSharing sc voc qb (minCommonWords (maxCommonWords sc m1 L))
    (fun si => decide (si ≥ minScore))) (m1, []) = s1 at hS t1 c1
  generalize hs2 : L.foldl (scoreSharing sc voc qb (minCommonWords (maxCommonWords sc m1 L))
    (fun si => decide (si ≥ minScore))) (m2, []) = s2 at hS t2 c2
  have hneigh : ∀ a b, accumulateNeighbour sc id
        (some (minCommonWords (maxCommonWords sc m1 L))) s2.1 a b =
      accumulateNeighbour sc id (some (minCommonWords (maxCommonWords sc m1 L))) s1.1 a b := by
    intro a b
    have q1 : (s1.1.kf b).query sc = (m1.kf b).query sc := (t1.2 b sc).1
    have q2 : (s2.1.kf b).query sc = (m2.kf b).query sc := (t2.2 b sc).1
    have w1 : (s1.1.kf b).nWords sc = (m1.kf b).nWords sc := (t1.2 b sc).2
    have w2 : (s2.1.kf b).nWords sc = (m2.kf b).nWords sc := (t2.2 b sc).2
    unfold accumulateNeighbour
    rw [q1, q2, w1, w2]
    by_cases htag : (m1.kf b).query sc = (id : Int)
    · have htag2 : (m2.kf b).query sc = (id : Int) := (h.tag b).mpr htag
      have hbL : b ∈ L := h.listed b htag
      rw [h.words b htag]
      by_cases hfl : aboveWordFloor (some (minCommonWords (maxCommonWords sc m1 L)))
          ((m1.kf b).nWords sc) = true
      · have hgt : (m1.kf b).nWords sc > minCommonWords (maxCommonWords sc m1 L) := by
          simpa [aboveWordFloor] using hfl
        have hgt2 : (m2.kf b).nWords sc > minCommonWords (maxCommonWords sc m1 L) := by
          rw [hw b hbL]; exact hgt
        have e1 : (s1.1.kf b).simScore sc = voc.score qb (m1.kf b).mBowVec := by
          rw [c1 b]; exact if_pos ⟨hbL, hgt⟩
        have e2 : (s2.1.kf b).simScore sc = voc.score qb (m1.kf b).mBowVec := by
          rw [c2 b, ← hbow b]; exact if_pos ⟨hbL, hgt2⟩
        have hc1 : (m1.kf b).query sc = (id : Int) ∧
            aboveWordFloor (some (minCommonWords (maxCommonWords sc m1 L)))
              ((m1.kf b).nWords sc) = true := ⟨htag, hfl⟩
        have hc2 : (m2.kf b).query sc = (id : Int) ∧
            aboveWordFloor (some (minCommonWords (maxCommonWords sc m1 L)))
              ((m1.kf b).nWords sc) = true := ⟨htag2, hfl⟩
        rw [if_pos hc1, if_pos hc2, e1, e2]
      · have hc1 : ¬ ((m1.kf b).query sc = (id : Int) ∧
            aboveWordFloor (some (minCommonWords (maxCommonWords sc m1 L)))
              ((m1.kf b).nWords sc) = true) := fun x => hfl x.2
        have hc2 : ¬ ((m2.kf b).query sc = (id : Int) ∧
            aboveWordFloor (some (minCommonWords (maxCommonWords sc m1 L)))
              ((m1.kf b).nWords sc) = true) := fun x => hfl x.2
        rw [if_neg hc1, if_neg hc2]
    · have hc1 : ¬ ((m1.kf b).query sc = (id : Int) ∧
          aboveWordFloor (some (minCommonWords (maxCommonWords sc m1 L)))
            ((m1.kf b).nWords sc) = true) := fun x => htag x.1
      have hc2 : ¬ ((m2.kf b).query sc = (id : Int) ∧
          aboveWordFloor (some (minCommonWords (maxCommonWords sc m1 L)))
            ((m2.kf b).nWords sc) = true) := fun x => htag ((h.tag b).mp x.1)
      rw [if_neg hc1, if_neg hc2]
  have hobj : ∀ q, GetBestCovisibilityKeyFrames (s2.1.kf q) 10 =
      GetBestCovisibilityKeyFrames (s1.1.kf q) 10 := by
    intro q
    unfold GetBestCovisibilityKeyFrames
    rw [(t1.1.2 q).mvpOrderedConnectedKeyFrames, (t2.1.2 q).mvpOrderedConnectedKeyFrames,
      (b1.2 q).mvpOrderedConnectedKeyFrames, (b2.2 q).mvpOrderedConnectedKeyFrames]
  have hone : ∀ st it, accumulateOne sc id (some (minCommonWords (maxCommonWords sc m1 L)))
        s2.1 st it =
      accumulateOne sc id (some (minCommonWords (maxCommonWords sc m1 L))) s1.1 st it := by
    intro st it
    unfold accumulateOne
    rw [hobj it.2]
    have hf : ∀ a0 : AccState, ∀ vs : List KeyFramePtr,
        vs.foldl (accumulateNeighbour sc id
          (some (minCommonWords (maxCommonWords sc m1 L))) s2.1) a0 =
        vs.foldl (accumulateNeighbour sc id
          (some (minCommonWords (maxCommonWords sc m1 L))) s1.1) a0 := by
      intro a0 vs
      apply List.foldl_ext
      intro a b _
      exact hneigh a b
    simp only [hf]
  have hacc : accumulate sc id (some (minCommonWords (maxCommonWords sc m1 L))) s2.1 s1.2
        minScore =
      accumulate sc id (some (minCommonWords (maxCommonWords sc m1 L))) s1.1 s1.2 minScore := by
    unfold accumulate
    apply List.foldl_ext
    intro st it _
    exact hone st it
  unfold candidatesBlock
  simp only [hmax, hs1, hs2, hS, hacc]
  split
  · rfl
  · split
    · rfl
    · rfl

/-- From two memories that hold the same objects and carry no loop or merge
tag of the query, `DetectCandidates` returns the same two vectors. -/
theorem DetectCandidates_sim (db : KeyFrameDatabase) (m m' : Memory) (pKF : KeyFramePtr)
    (minScore : ℚ) (vpLoopCand vpMergeCand : List KeyFramePtr)
    (hobj : m.SameObjects m')
    (hfresh : ∀ q, (m.kf q).mnLoopQuery ≠ ((m.kf pKF).mnId : Int) ∧
      (m.kf q).mnMergeQuery ≠ ((m.kf pKF).mnId : Int))
    (hfresh' : ∀ q, (m'.kf q).mnLoopQuery ≠ ((m'.kf pKF).mnId : Int) ∧
      (m'.kf q).mnMergeQuery ≠ ((m'.kf pKF).mnId : Int)) :
    (DetectCandidates db m' pKF minScore vpLoopCand vpMergeCand).1 =
        (DetectCandidates db m pKF minScore vpLoopCand vpMergeCand).1 ∧
      (DetectCandidates db m' pKF minScore vpLoopCand vpMergeCand).2.1 =
        (DetectCandidates db m pKF minScore vpLoopCand vpMergeCand).2.1 := by
  have hid : (m'.kf pKF).mnId = (m.kf pKF).mnId := (hobj.2 pKF).mnId
  rw [hid] at hfresh'
  have sim := candidatesGather_sim db m m' pKF hobj hfresh hfresh'
  have hl := sim.loop
  have hm := sim.merge
  have e1 : (candidatesGather db m' pKF).2.1 = (candidatesGather db m pKF).2.1 := hl.list
  have e2 : (candidatesGather db m' pKF).2.2 = (candidatesGather db m pKF).2.2 := hm.list
  rw [e1] at hl
  rw [e2] at hm
  have hloop := candidatesBlock_sim .loop db.mpVoc (m.kf pKF).mBowVec (m.kf pKF).mnId minScore
    m (candidatesGather db m pKF).1 (candidatesGather db m' pKF).1
    (candidatesGather db m pKF).2.1 vpLoopCand sim.base sim.base' hl
  obtain ⟨s1, _⟩ := candidatesBlock_spec .loop db.mpVoc (m.kf pKF).mBowVec (m.kf pKF).mnId
    minScore (candidatesGather db m pKF).1 (candidatesGather db m pKF).2.1 vpLoopCand
  obtain ⟨s2, _⟩ := candidatesBlock_spec .loop db.mpVoc (m.kf pKF).mBowVec (m.kf pKF).mnId
    minScore (candidatesGather db m' pKF).1 (candidatesGather db m pKF).2.1 vpLoopCand
  have hmerge := candidatesBlock_sim .merge db.mpVoc (m.kf pKF).mBowVec (m.kf pKF).mnId
    minScore m _ _ (candidatesGather db m pKF).2.2 vpMergeCand
    (Memory.sameObjects_trans sim.base s1.1) (Memory.sameObjects_trans sim.base' s2.1)
    (gatherSim_of_sameTags .merge _ _ _ _ _ _ hm s1 s2)
  unfold DetectCandidates
  simp only [(hobj.2 pKF).mBowVec, hid, e1, e2]
  split
  · exact ⟨rfl, rfl⟩
  · exact ⟨hloop, hmerge⟩

theorem candidatesReset_sameObjects (db : KeyFrameDatabase) (v : BowVector) (m0 : Memory) :
    m0.SameObjects (candidatesReset db v m0) := by
  unfold candidatesReset
  apply forEachSharing_induction (fun st : Memory => m0.SameObjects st)
  · intro st p h
    exact Memory.sameObjects_trans h (Memory.sameObjects_update _ _ _ (fun k =>
      KeyFrame.sameObject_trans (KeyFrame.sameObject_setQuery k .loop (-1))
        (KeyFrame.sameObject_setQuery _ .merge (-1))))
  · exact Memory.sameObjects_refl m0

/-- The closing loop of `DetectCandidates` writes `-1` or nothing. -/
theorem candidatesReset_query (db : KeyFrameDatabase) (v : BowVector) (m0 : Memory) :
    ∀ q sc, ((candidatesReset db v m0).kf q).query sc = -1 ∨
      ((candidatesReset db v m0).kf q).query sc = (m0.kf q).query sc := by
  unfold candidatesReset
  apply forEachSharing_induction
    (fun st : Memory => ∀ q sc, (st.kf q).query sc = -1 ∨ (st.kf q).query sc = (m0.kf q).query sc)
  · intro st p h q sc
    rw [Memory.update_kf]
    by_cases hq : q = p
    · rw [if_pos hq]
      cases sc
      · left; simp
      · left; simp
      · simpa using h q .placeRecognition
      · simpa using h q .reloc
    · rw [if_neg hq]; exact h q sc
  · intro q sc; exact Or.inr rfl

/-- Every member of a sharing list of `DetectCandidates` sits in the slot of a
word of the query. -/
theorem candidatesGather_lists_visited (db : KeyFrameDatabase) (m : Memory) (pKF : KeyFramePtr) :
    ∀ q, q ∈ (candidatesGather db m pKF).2.1 ∨ q ∈ (candidatesGather db m pKF).2.2 →
      ∃ w ∈ (m.kf pKF).mBowVec.words, q ∈ db.slot w := by
  unfold candidatesGather
  apply forEachSharing_induction_mem
    (fun st : Memory × List KeyFramePtr × List KeyFramePtr =>
      ∀ q, q ∈ st.2.1 ∨ q ∈ st.2.2 → ∃ w ∈ (m.kf pKF).mBowVec.words, q ∈ db.slot w)
  · intro st p hp h q hq
    unfold candidatesVisit at hq
    by_cases h1 : (st.1.kf p).mpMap = (m.kf pKF).mpMap
    · rw [if_pos h1] at hq
      rcases hq with hq | hq
      · rcases (tagUnlessConnected_tags_at .loop (m.kf pKF).mnId
          (m.kf pKF).mConnectedKeyFrames (st.1, st.2.1) p).2 q hq with h' | h'
        · exact h q (Or.inl h')
        · rw [h']; exact hp
      · exact h q (Or.inr hq)
    · rw [if_neg h1] at hq
      by_cases h2 : ¬ st.1.mapIsBad (st.1.kf p).mpMap = true
      · rw [if_pos h2] at hq
        rcases hq with hq | hq
        · exact h q (Or.inl hq)
        · rcases (tagUnlessConnected_tags_at .merge (m.kf pKF).mnId
            (m.kf pKF).mConnectedKeyFrames (st.1, st.2.2) p).2 q hq with h' | h'
          · exact h q (Or.inr h')
          · rw [h']; exact hp
      · rw [if_neg h2] at hq
        exact h q hq
  · intro q hq
    rcases hq with hq | hq <;> exact absurd hq (List.not_mem_nil q)

/-- Entered with no loop or merge tag of the query, `DetectCandidates` leaves
the objects unchanged and again no loop or merge tag of the query. -/
theorem DetectCandidates_leaves_fresh (db : KeyFrameDatabase) (m : Memory) (pKF : KeyFramePtr)
    (minScore : ℚ) (vpLoopCand vpMergeCand : List KeyFramePtr)
    (hfresh : ∀ q, (m.kf q).mnLoopQuery ≠ ((m.kf pKF).mnId : Int) ∧
      (m.kf q).mnMergeQuery ≠ ((m.kf pKF).mnId : Int)) :
    m.SameObjects (DetectCandidates db m pKF minScore vpLoopCand vpMergeCand).2.2 ∧
      ∀ q sc, sc = Scratch.loop ∨ sc = Scratch.merge →
        ((DetectCandidates db m pKF minScore vpLoopCand vpMergeCand).2.2.kf q).query sc ≠
          ((m.kf pKF).mnId : Int) := by
  have sim := candidatesGather_sim db m m pKF (Memory.sameObjects_refl m) hfresh hfresh
  have hfq : ∀ q sc, sc = Scratch.loop ∨ sc = Scratch.merge →
      (m.kf q).query sc ≠ ((m.kf pKF).mnId : Int) := by
    intro q sc hsc
    rcases hsc with e | e
    · rw [e]; exact (hfresh q).1
    · rw [e]; exact (hfresh q).2
  obtain ⟨s1, _⟩ := candidatesBlock_spec .loop db.mpVoc (m.kf pKF).mBowVec (m.kf pKF).mnId
    minScore (candidatesGather db m pKF).1 (candidatesGather db m pKF).2.1 vpLoopCand
  obtain ⟨s2, _⟩ := candidatesBlock_spec .merge db.mpVoc (m.kf pKF).mBowVec (m.kf pKF).mnId
    minScore (candidatesBlock .loop db.mpVoc (m.kf pKF).mBowVec (m.kf pKF).mnId minScore
      (candidatesGather db m pKF).1 (candidatesGather db m pKF).2.1 vpLoopCand).2
    (candidatesGather db m pKF).2.2 vpMergeCand
  have s12 := Memory.sameTags_trans s1 s2
  by_cases hempty : ((candidatesGather db m pKF).2.1.isEmpty &&
      (candidatesGather db m pKF).2.2.isEmpty) = true
  · have hres : (DetectCandidates db m pKF minScore vpLoopCand vpMergeCand).2.2 =
        (candidatesGather db m pKF).1 := by
      unfold DetectCandidates
      simp only [hempty, if_true]
    rw [hres]
    have hnil : (candidatesGather db m pKF).2.1 = [] ∧ (candidatesGather db m pKF).2.2 = [] := by
      simpa [List.isEmpty_iff] using hempty
    refine ⟨sim.base, fun q sc hsc => ?_⟩
    rw [candidatesGather_nothing_found db m pKF hnil q sc]
    exact hfq q sc hsc
  · have hres : (DetectCandidates db m pKF minScore vpLoopCand vpMergeCand).2.2 =
        candidatesReset db (m.kf pKF).mBowVec
          (candidatesBlock .merge db.mpVoc (m.kf pKF).mBowVec (m.kf pKF).mnId minScore
            (candidatesBlock .loop db.mpVoc (m.kf pKF).mBowVec (m.kf pKF).mnId minScore
              (candidatesGather db m pKF).1 (candidatesGather db m pKF).2.1 vpLoopCand).2
            (candidatesGather db m pKF).2.2 vpMergeCand).2 := by
      unfold DetectCandidates
      simp only [hempty, Bool.false_eq_true, if_false]
    rw [hres]
    refine ⟨Memory.sameObjects_trans (Memory.sameObjects_trans sim.base s12.1)
      (candidatesReset_sameObjects _ _ _), fun q sc hsc hq => ?_⟩
    have hne : ((m.kf pKF).mnId : Int) ≠ -1 := by omega
    rcases candidatesReset_query db (m.kf pKF).mBowVec _ q sc with h | h
    · rw [h] at hq; exact hne hq.symm
    · have hq0 := hq
      rw [h, (s12.2 q sc).1] at hq
      have hlisted : q ∈ (candidatesGather db m pKF).2.1 ∨
          q ∈ (candidatesGather db m pKF).2.2 := by
        rcases hsc with e | e
        · rw [e] at hq; exact Or.inl (sim.loop.listed q hq)
        · rw [e] at hq; exact Or.inr (sim.merge.listed q hq)
      obtain ⟨w, hw, hqw⟩ := candidatesGather_lists_visited db m pKF q hlisted
      obtain ⟨r1, r2⟩ := candidatesReset_tags db (m.kf pKF).mBowVec
        (candidatesBlock .merge db.mpVoc (m.kf pKF).mBowVec (m.kf pKF).mnId minScore
          (candidatesBlock .loop db.mpVoc (m.kf pKF).mBowVec (m.kf pKF).mnId minScore
            (candidatesGather db m pKF).1 (candidatesGather db m pKF).2.1 vpLoopCand).2
          (candidatesGather db m pKF).2.2 vpMergeCand).2 w hw q hqw
      rcases hsc with e | e
      · rw [e] at hq0
        have hq1 : (KeyFrame.mnLoopQuery _) = ((m.kf pKF).mnId : Int) := hq0
        rw [r1] at hq1
        exact hne hq1.symm
      · rw [e] at hq0
        have hq1 : (KeyFrame.mnMergeQuery _) = ((m.kf pKF).mnId : Int) := hq0
        rw [r2] at hq1
        exact hne hq1.symm

theorem sampleMemoryMapsStale_sameObjects : sampleMemoryMaps.SameObjects sampleMemoryMapsStale :=
  Memory.sameObjects_update sampleMemoryMaps 2 _ (fun k =>
    KeyFrame.sameObject_trans
      (KeyFrame.sameObject_trans (KeyFrame.sameObject_setQuery k .loop 2)
        (KeyFrame.sameObject_setWords _ .loop 2))
      (KeyFrame.sameObject_setScore _ .loop (1 / 2)))

theorem sampleMemoryMapsStale_fresh (q : KeyFramePtr) :
    (sampleMemoryMapsStale.kf q).mnLoopQuery ≠ ((sampleMemoryMapsStale.kf 1).mnId : Int) ∧
      (sampleMemoryMapsStale.kf q).mnMergeQuery ≠ ((sampleMemoryMapsStale.kf 1).mnId : Int) := by
  have hid : ((sampleMemoryMapsStale.kf 1).mnId : Int) = 1 := by decide
  rw [hid]
  have h1 := sampleMemoryMaps_query q .loop
  have h2 := sampleMemoryMaps_query q .merge
  show (sampleMemoryMapsStale.kf q).query .loop ≠ 1 ∧ (sampleMemoryMapsStale.kf q).query .merge ≠ 1
  unfold sampleMemoryMapsStale
  rw [Memory.update_kf]
  by_cases hq : q = 2
  · rw [if_pos hq]
    simp only [KeyFrame.query_setScore, KeyFrame.query_setWords, KeyFrame.query_setQuery]
    rw [h2]
    simp
  · rw [if_neg hq, h1, h2]
    decide

/-- C27. `DetectCandidates` does not depend on stale scratch data: from two
memories that hold the same objects (ids, signatures, maps, connected sets,
covisibility neighbours, bad flags) and in which no keyframe carries a loop or
merge tag equal to the id of `pKF`, the call returns the same loop and merge
vectors on the same index; and a second call made right after a first one
returns the vectors of the first. -/
theorem DetectCandidates_independent_of_scratch (db : KeyFrameDatabase) (m m' : Memory)
    (pKF : KeyFramePtr) (minScore : ℚ) (vpLoopCand vpMergeCand : List KeyFramePtr)
    (hobj : m.SameObjects m')
    (hfresh : ∀ q, (m.kf q).mnLoopQuery ≠ ((m.kf pKF).mnId : Int) ∧
      (m.kf q).mnMergeQuery ≠ ((m.kf pKF).mnId : Int))
    (hfresh' : ∀ q, (m'.kf q).mnLoopQuery ≠ ((m'.kf pKF).mnId : Int) ∧
      (m'.kf q).mnMergeQuery ≠ ((m'.kf pKF).mnId : Int)) :
    ((DetectCandidates db m' pKF minScore vpLoopCand vpMergeCand).1 =
        (DetectCandidates db m pKF minScore vpLoopCand vpMergeCand).1 ∧
      (DetectCandidates db m' pKF minScore vpLoopCand vpMergeCand).2.1 =
        (DetectCandidates db m pKF minScore vpLoopCand vpMergeCand).2.1) ∧
    ((DetectCandidates db (DetectCandidates db m pKF minScore vpLoopCand vpMergeCand).2.2 pKF
          minScore vpLoopCand vpMergeCand).1 =
        (DetectCandidates db m pKF minScore vpLoopCand vpMergeCand).1 ∧
      (DetectCandidates db (DetectCandidates db m pKF minScore vpLoopCand vpMergeCand).2.2 pKF
          minScore vpLoopCand vpMergeCand).2.1 =
        (DetectCandidates db m pKF minScore vpLoopCand vpMergeCand).2.1) := by
  refine ⟨DetectCandidates_sim db m m' pKF minScore vpLoopCand vpMergeCand hobj hfresh hfresh', ?_⟩
  obtain ⟨o1, f1⟩ := DetectCandidates_leaves_fresh db m pKF minScore vpLoopCand vpMergeCand hfresh
  apply DetectCandidates_sim db m _ pKF minScore vpLoopCand vpMergeCand o1 hfresh
  intro q
  rw [(o1.2 pKF).mnId]
  exact ⟨f1 q .loop (Or.inl rfl), f1 q .merge (Or.inr rfl)⟩

theorem DetectCandidates_independent_of_scratch_witness :
    sampleMemoryMaps.SameObjects sampleMemoryMapsStale ∧
      (sampleMemoryMapsStale.kf 2).mnLoopQuery = 2 ∧
      (DetectCandidates sampleDb sampleMemoryMaps 1 0 [] []).1 = [2] ∧
      (DetectCandidates sampleDb sampleMemoryMaps 1 0 [] []).2.1 = [3] ∧
      ((DetectCandidates sampleDb sampleMemoryMapsStale 1 0 [] []).1 =
          (DetectCandidates sampleDb sampleMemoryMaps 1 0 [] []).1 ∧
        (DetectCandidates sampleDb sampleMemoryMapsStale 1 0 [] []).2.1 =
          (DetectCandidates sampleDb sampleMemoryMaps 1 0 [] []).2.1) ∧
      ((DetectCandidates sampleDb (DetectCandidates sampleDb sampleMemoryMaps 1 0 [] []).2.2 1
            0 [] []).1 =
          (DetectCandidates sampleDb sampleMemoryMaps 1 0 [] []).1 ∧
        (DetectCandidates sampleDb (DetectCandidates sampleDb sampleMemoryMaps 1 0 [] []).2.2 1
            0 [] []).2.1 =
          (DetectCandidates sampleDb sampleMemoryMaps 1 0 [] []).2.1) :=
  ⟨sampleMemoryMapsStale_sameObjects, by decide, by decide!, by decide!,
    DetectCandidates_independent_of_scratch sampleDb sampleMemoryMaps sampleMemoryMapsStale 1 0
      [] [] sampleMemoryMapsStale_sameObjects (fun q => sampleMemoryMaps_fresh _ q)
      sampleMemoryMapsStale_fresh⟩

/-! ## `DetectBestCandidates`: the caller's word floor -/

theorem DetectBestCandidates_eq (db : KeyFrameDatabase) (m : Memory) (pKF : KeyFramePtr)
    (vpLoopCand vpMergeCand : List KeyFramePtr) (nMinWords : Int) :
    DetectBestCandidates db m pKF vpLoopCand vpMergeCand nMinWords =
      if (bestGather db m pKF).2.isEmpty then (vpLoopCand, vpMergeCand, (bestGather db m pKF).1)
      else if (bestScoring db m pKF nMinWords).2.isEmpty then
        (vpLoopCand, vpMergeCand, (bestScoring db m pKF nMinWords).1)
      else
        (((accumulate .placeRecognition (m.kf pKF).mnId none (bestScoring db m pKF nMinWords).1
            (bestScoring db m pKF nMinWords).2 0).1.foldl
          (bestRetainOne (bestScoring db m pKF nMinWords).1 (m.kf pKF).mpMap
            (roundFloat ((3 / 4 : ℚ) *
              (accumulate .placeRecognition (m.kf pKF).mnId none
                (bestScoring db m pKF nMinWords).1 (bestScoring db m pKF nMinWords).2 0).2)))
          { vpLoopCand := vpLoopCand, vpMergeCand := vpMergeCand,
            spAlreadyAddedKF := [] }).vpLoopCand,
         ((accumulate .placeRecognition (m.kf pKF).mnId none (bestScoring db m pKF nMinWords).1
            (bestScoring db m pKF nMinWords).2 0).1.foldl
          (bestRetainOne (bestScoring db m pKF nMinWords).1 (m.kf pKF).mpMap
            (roundFloat ((3 / 4 : ℚ) *
              (accumulate .placeRecognition (m.kf pKF).mnId none
                (bestScoring db m pKF nMinWords).1 (bestScoring db m pKF nMinWords).2 0).2)))
          { vpLoopCand := vpLoopCand, vpMergeCand := vpMergeCand,
            spAlreadyAddedKF := [] }).vpMergeCand,
         (bestScoring db m pKF nMinWords).1) := rfl

theorem DetectBestCandidates_memory (db : KeyFrameDatabase) (m : Memory) (pKF : KeyFramePtr)
    (vpLoopCand vpMergeCand : List KeyFramePtr) (nMinWords : Int) :
    (DetectBestCandidates db m pKF vpLoopCand vpMergeCand nMinWords).2.2 =
        (if (bestGather db m pKF).2.isEmpty then (bestGather db m pKF).1
          else (bestScoring db m pKF nMinWords).1) ∧
      ((bestScoring db m pKF nMinWords).2 = [] →
        (DetectBestCandidates db m pKF vpLoopCand vpMergeCand nMinWords).1 = vpLoopCand ∧
          (DetectBestCandidates db m pKF vpLoopCand vpMergeCand nMinWords).2.1 = vpMergeCand) := by
  rw [DetectBestCandidates_eq]
  constructor
  · by_cases h1 : (bestGather db m pKF).2.isEmpty = true
    · rw [if_pos h1, if_pos h1]
    · rw [if_neg h1, if_neg h1]
      by_cases h2 : (bestScoring db m pKF nMinWords).2.isEmpty = true
      · rw [if_pos h2]
      · rw [if_neg h2]
  · intro h
    by_cases h1 : (bestGather db m pKF).2.isEmpty = true
    · rw [if_pos h1]; exact ⟨rfl, rfl⟩
    · rw [if_neg h1, h]
      exact ⟨rfl, rfl⟩

/-- The gather phase of `DetectBestCandidates` leaves objects and scores as
they are. -/
theorem bestGather_frame (db : KeyFrameDatabase) (m : Memory) (pKF : KeyFramePtr) :
    m.SameObjects (bestGather db m pKF).1 ∧
      ∀ q sc, ((bestGather db m pKF).1.kf q).simScore sc = (m.kf q).simScore sc := by
  unfold bestGather
  simp only []
  apply forEachSharing_induction
    (fun st : Memory × List KeyFramePtr =>
      m.SameObjects st.1 ∧ ∀ q sc, (st.1.kf q).simScore sc = (m.kf q).simScore sc)
  · intro st p h
    split
    · exact h
    · refine ⟨Memory.sameObjects_trans h.1 (tagAlways_sameObjects _ _ st p), fun q sc => ?_⟩
      rw [← h.2 q sc]
      unfold tagAlways
      by_cases h1 : (st.1.kf p).query .placeRecognition ≠ ((m.kf pKF).mnId : Int)
      · by_cases hq : q = p
        · simp [h1, hq]
        · simp [h1, hq]
      · by_cases hq : q = p
        · simp [h1, hq]
        · simp [h1, hq]
  · exact ⟨Memory.sameObjects_refl m, fun q sc => rfl⟩

/-- C12. The caller's word floor of `DetectBestCandidates`.  For every
`nMinWords` that is zero or negative, and more generally for every `nMinWords`
up to `(int)(maxCommonWords*0.8f)`, the call returns the same loop and merge
vectors (and leaves the same memory) as with `nMinWords = 0`.  When `nMinWords`
exceeds `(int)(maxCommonWords*0.8f)`, the scored keyframes are exactly the
sharing keyframes whose counter is strictly greater than `nMinWords`: they
make up `lScoreAndMatch`, they alone have `mPlaceRecognitionScore` written by
the call, and if there is none the vectors come back unchanged.  The value
`(int)(maxCommonWords*0.8f)` is `floor(4 * maxCommonWords / 5)` for every
`maxCommonWords` up to `5 * 2^20`. -/
theorem DetectBestCandidates_word_floor (db : KeyFrameDatabase) (m : Memory)
    (pKF : KeyFramePtr) (vpLoopCand vpMergeCand : List KeyFramePtr) :
    (∀ nMinWords : Int, nMinWords ≤ 0 →
      DetectBestCandidates db m pKF vpLoopCand vpMergeCand nMinWords =
        DetectBestCandidates db m pKF vpLoopCand vpMergeCand 0) ∧
    (∀ nMinWords : Int,
      nMinWords ≤ minCommonWords
        (maxCommonWords .placeRecognition (bestGather db m pKF).1 (bestGather db m pKF).2) →
      DetectBestCandidates db m pKF vpLoopCand vpMergeCand nMinWords =
        DetectBestCandidates db m pKF vpLoopCand vpMergeCand 0) ∧
    (∀ nMinWords : Int,
      minCommonWords
        (maxCommonWords .placeRecognition (bestGather db m pKF).1 (bestGather db m pKF).2)
        < nMinWords →
      (bestScoring db m pKF nMinWords).2 =
          ((bestGather db m pKF).2.filter (fun p =>
            decide (((bestGather db m pKF).1.kf p).nWords .placeRecognition > nMinWords))).map
            (fun p => (db.mpVoc.score (m.kf pKF).mBowVec (m.kf p).mBowVec, p)) ∧
        (∀ p ∈ (bestGather db m pKF).2,
          ((DetectBestCandidates db m pKF vpLoopCand vpMergeCand nMinWords).2.2.kf
              p).mPlaceRecognitionScore =
            if ((bestGather db m pKF).1.kf p).nWords .placeRecognition > nMinWords then
              db.mpVoc.score (m.kf pKF).mBowVec (m.kf p).mBowVec
            else (m.kf p).mPlaceRecognitionScore) ∧
        ((∀ p ∈ (bestGather db m pKF).2,
            ((bestGather db m pKF).1.kf p).nWords .placeRecognition ≤ nMinWords) →
          (DetectBestCandidates db m pKF vpLoopCand vpMergeCand nMinWords).1 = vpLoopCand ∧
            (DetectBestCandidates db m pKF vpLoopCand vpMergeCand nMinWords).2.1 =
              vpMergeCand)) ∧
    (maxCommonWords .placeRecognition (bestGather db m pKF).1 (bestGather db m pKF).2
        ≤ 5242880 →
      minCommonWords
          (maxCommonWords .placeRecognition (bestGather db m pKF).1 (bestGather db m pKF).2) =
        4 * maxCommonWords .placeRecognition (bestGather db m pKF).1 (bestGather db m pKF).2
          / 5) := by
  refine ⟨fun n hn => DetectBestCandidates_floor_inactive db m pKF vpLoopCand vpMergeCand n
      (le_trans hn (minCommonWords_nonneg _)),
    fun n hn => DetectBestCandidates_floor_inactive db m pKF vpLoopCand vpMergeCand n hn,
    fun n hn => ?_,
    fun hmax => minCommonWords_eq_floor _
      (maxCommonWords_fold .placeRecognition (bestGather db m pKF).1 (bestGather db m pKF).2
        0).1 hmax⟩
  obtain ⟨hobj, hsc⟩ := bestGather_frame db m pKF
  have hfloor : bestMinCommonWords db m pKF n = n := by
    unfold bestMinCommonWords
    rw [if_pos hn]
  have hlist : (bestScoring db m pKF n).2 =
      ((bestGather db m pKF).2.filter (fun p =>
        decide (((bestGather db m pKF).1.kf p).nWords .placeRecognition > n))).map
        (fun p => (db.mpVoc.score (m.kf pKF).mBowVec (m.kf p).mBowVec, p)) := by
    unfold bestScoring
    rw [hfloor, scoreFold_list _ _ _ _ _ (bestGather db m pKF).1 _ _ (Memory.sameTags_refl _)]
    have e : (fun p => (db.mpVoc.score (m.kf pKF).mBowVec ((bestGather db m pKF).1.kf p).mBowVec,
        p)) = (fun p => (db.mpVoc.score (m.kf pKF).mBowVec (m.kf p).mBowVec, p)) := by
      funext p; rw [(hobj.2 p).mBowVec]
    rw [e]
    simp
  obtain ⟨hmem, hunch⟩ := DetectBestCandidates_memory db m pKF vpLoopCand vpMergeCand n
  refine ⟨hlist, fun p hp => ?_, fun hall => ?_⟩
  · have hne : (bestGather db m pKF).2.isEmpty = false := by
      cases h : (bestGather db m pKF).2 with
      | nil => rw [h] at hp; exact absurd hp (List.not_mem_nil p)
      | cons a l => rfl
    rw [hmem, hne]
    simp only [Bool.false_eq_true, if_false]
    obtain ⟨_, _, c3⟩ := scoreFold_complete .placeRecognition db.mpVoc (m.kf pKF).mBowVec
      (bestMinCommonWords db m pKF n) (fun _ => true)
      (bestGather db m pKF).2 ((bestGather db m pKF).1, [])
    have h3 := c3 p
    rw [hfloor] at h3
    show ((bestScoring db m pKF n).1.kf p).simScore .placeRecognition = _
    unfold bestScoring
    rw [hfloor, h3]
    by_cases hw : ((bestGather db m pKF).1.kf p).nWords .placeRecognition > n
    · rw [if_pos ⟨hp, hw⟩, if_pos hw, (hobj.2 p).mBowVec]
    · rw [if_neg (fun x => hw x.2), if_neg hw]
      exact hsc p .placeRecognition
  · apply hunch
    rw [hlist]
    have : (bestGather db m pKF).2.filter (fun p =>
        decide (((bestGather db m pKF).1.kf p).nWords .placeRecognition > n)) = [] := by
      rw [List.filter_eq_nil_iff]
      intro p hp
      simpa using hall p hp
    rw [this]
    rfl

theorem DetectBestCandidates_word_floor_witness :
    (-3 : Int) ≤ 0 ∧
      DetectBestCandidates sampleDb (sampleMemory [] false) 1 [] [] (-3) =
        DetectBestCandidates sampleDb (sampleMemory [] false) 1 [] [] 0 ∧
      minCommonWords (maxCommonWords .placeRecognition
          (bestGather sampleDb (sampleMemory [] false) 1).1
          (bestGather sampleDb (sampleMemory [] false) 1).2) < 1 ∧
      (bestGather sampleDb (sampleMemory [] false) 1).2 = [3, 2] ∧
      (bestScoring sampleDb (sampleMemory [] false) 1 0).2 = [(1 / 4, 3), (1 / 4, 2)] ∧
      (bestScoring sampleDb (sampleMemory [] false) 1 1).2 =
        ((bestGather sampleDb (sampleMemory [] false) 1).2.filter (fun p =>
          decide (((bestGather sampleDb (sampleMemory [] false) 1).1.kf p).nWords
            .placeRecognition > 1))).map
          (fun p => (sampleDb.mpVoc.score ((sampleMemory [] false).kf 1).mBowVec
            ((sampleMemory [] false).kf p).mBowVec, p)) ∧
      (bestScoring sampleDb (sampleMemory [] false) 1 1).2 = [] ∧
      (DetectBestCandidates sampleDb (sampleMemory [] false) 1 [] [] 0).1 = [3, 2] ∧
      (DetectBestCandidates sampleDb (sampleMemory [] false) 1 [] [] 1).1 = [] :=
  ⟨by decide,
    (DetectBestCandidates_word_floor sampleDb (sampleMemory [] false) 1 [] []).1 (-3) (by decide),
    by decide!, by decide!, by decide!,
    ((DetectBestCandidates_word_floor sampleDb (sampleMemory [] false) 1 [] []).2.2.1 1
      (by decide!)).1,
    by decide!, by decide!, by decide!⟩

end PLVS2
